import Mathlib

set_option maxHeartbeats 4000000
set_option maxRecDepth 8000

/-!
Shallow embedding of the WorkSchedulerV2 scheduling engine (src/app.py).

Conventions of the embedding:
* Calendar dates are integers counting days, with day 0 a Monday, so that
  `weekday d = d % 7` agrees with Python's `date.weekday()` (0 = Monday .. 6 = Sunday).
* The assignment table is modelled as an association list keyed by
  (employee id, date); a missing key is a missing assignment row, read as the
  value `""`, matching the `not a or not a.value` guards of the source.
  `_ensure_week_and_assignments` materializes a row for every employee and date
  of a processed week, which the model renders by writing through the map.
* The file logger (`_log`) of the source has no observable effect on the data
  model and is omitted.
-/

def TIME_OFF_LABEL : String := "TIME OFF"

/-- Seniority order for Front Desk manager-on-duty selection (src/app.py `SENIORITY_ORDER`). -/
def SENIORITY_ORDER : List String :=
  ["Cindy", "KC", "Ryan", "Emilyn", "Christian", "Troy",
   "Brian", "Tristan", "Terry", "Jordan", "Abdi", "Sato"]

def BREAKFAST_SHIFTS : List String :=
  ["Set", TIME_OFF_LABEL, "5AM–12PM", "6AM–12PM", "7AM–12PM"]

/-- Front Desk: three variants (AM, PM, Audit), each has two staggered times. -/
def FRONT_DESK_SHIFTS : List String :=
  ["Set", TIME_OFF_LABEL,
   "AM (6:00AM–2:00PM)", "AM (6:15AM–2:15PM)",
   "PM (2:00PM–10:00PM)", "PM (2:15PM–10:15PM)",
   "Audit (10:00PM–6:00AM)", "Audit (10:15PM–6:15AM)"]

/-- Shuttle: four fixed 8-hour variants. -/
def SHUTTLE_SHIFTS : List String :=
  ["Set", TIME_OFF_LABEL,
   "AM (3:30AM–11:30AM)", "Midday (10:30AM–6:30PM)",
   "PM (5:30PM–1:30AM)", "Crew (5:45PM–1:45AM)"]

/-- Python's `str.startswith(pre)`, implemented on character lists so that the
kernel can evaluate it (core `String.startsWith` works on byte positions and is
not reducible by the kernel). -/
def strStartsWith (s pre : String) : Bool := pre.data.isPrefixOf s.data

/-- `daterange(start, days)` from src/app.py. -/
def daterange (start : Int) (days : Nat) : List Int :=
  (List.range days).map (fun (i : Nat) => start + (i : Int))

/-- Python `date.weekday()` under the integer-day encoding (day 0 is a Monday). -/
def weekday (d : Int) : Nat := (d % 7).toNat

/-- Row of the `employees` table joined with its primary `Section` name. -/
structure Employee where
  id : Nat
  name : String
  roleName : String
  seniority : Option Int
  preferred_shift : Option String
  preferred_shifts_per_week : Option Nat
  max_shifts_per_week : Option Nat
deriving DecidableEq

/-- Row of the `employee_roles` table (secondary-role grant), with the section resolved to its name. -/
structure RoleEntry where
  employee_id : Nat
  section_name : String
deriving DecidableEq

/-- Row of the `employee_availability` table. -/
structure AvailEntry where
  employee_id : Nat
  day_of_week : Nat
  shift_label : String
  allowed : Bool
deriving DecidableEq

/-- Row of the `timeoff` table. -/
structure TimeOffReq where
  id : Nat
  name : String
  roleName : String
  from_date : Int
  to_date : Int
  approved : Bool
  vacation : Bool
deriving DecidableEq

/-- The database contents the scheduling engine reads. -/
structure DB where
  employees : List Employee
  roles : List RoleEntry
  availability : List AvailEntry
  timeoff : List TimeOffReq

/-- `has_approved_timeoff(name, dte, s)` from src/app.py. -/
def has_approved_timeoff (name : String) (dte : Int) (timeoff : List TimeOffReq) : Bool :=
  timeoff.any (fun t =>
    t.name == name && t.approved && decide (t.from_date ≤ dte) && decide (dte ≤ t.to_date))

/-- `has_any_timeoff(name, dte, s)` from src/app.py. -/
def has_any_timeoff (name : String) (dte : Int) (timeoff : List TimeOffReq) : Bool :=
  timeoff.any (fun t =>
    t.name == name && decide (t.from_date ≤ dte) && decide (dte ≤ t.to_date))

/-- The assignment-value table: association list keyed by (employee id, date). -/
abbrev VMap := List ((Nat × Int) × String)

/-- The dismissed-flag table: association list keyed by (employee id, date). -/
abbrev BMap := List ((Nat × Int) × Bool)

/-- The per-week assigned-count map (`assigned_counts`), keyed by employee id. -/
abbrev CMap := List (Nat × Nat)

/-- The per-week `last_token_per_role` map, keyed by (employee id, role name). -/
abbrev TMap := List ((Nat × String) × String)

/-- Read an assignment value; a missing row reads as `""`. -/
def vget (m : VMap) (e : Nat) (d : Int) : String :=
  match m.find? (fun p => p.1.1 == e && p.1.2 == d) with
  | some p => p.2
  | none => ""

/-- Write an assignment value. -/
def vset (m : VMap) (e : Nat) (d : Int) (v : String) : VMap := ((e, d), v) :: m

/-- Read a dismissed flag; a missing row reads as `false`. -/
def bget (m : BMap) (e : Nat) (d : Int) : Bool :=
  match m.find? (fun p => p.1.1 == e && p.1.2 == d) with
  | some p => p.2
  | none => false

/-- Write a dismissed flag. -/
def bset (m : BMap) (e : Nat) (d : Int) (b : Bool) : BMap := ((e, d), b) :: m

/-- Read an assigned count; a missing key reads as `0` (the per-week dict starts all-zero). -/
def cget (m : CMap) (e : Nat) : Nat :=
  match m.find? (fun p => p.1 == e) with
  | some p => p.2
  | none => 0

/-- Write an assigned count. -/
def cset (m : CMap) (e : Nat) (n : Nat) : CMap := (e, n) :: m

/-- Read the last assigned token for (employee, role); a missing key reads as `none`. -/
def tget (m : TMap) (e : Nat) (r : String) : Option String :=
  match m.find? (fun p => p.1.1 == e && p.1.2 == r) with
  | some p => some p.2
  | none => none

/-- Write the last assigned token for (employee, role). -/
def tset (m : TMap) (e : Nat) (r : String) (t : String) : TMap := ((e, r), t) :: m

/-- The mutable per-generation state: assignment values, dismissed flags, the
per-week running assigned counts and the per-(employee, role) last-token map. -/
structure WState where
  value : VMap
  dismissed : BMap
  assigned_counts : CMap
  last_token : TMap

/-- The `emp_info[eid]` record built at the top of `generate_4_week_schedule`. -/
structure EmpInfo where
  role : String
  seniority : Int
  preferred_shift : Option String
  pref_per_week : Option Nat
  max_per_week : Option Nat

/-- `emp_info` dictionary of `generate_4_week_schedule`: note `e.seniority or 0`. -/
def emp_info (db : DB) (eid : Nat) : EmpInfo :=
  match db.employees.find? (fun e => e.id == eid) with
  | some e =>
      { role := e.roleName
        seniority := e.seniority.getD 0
        preferred_shift := e.preferred_shift
        pref_per_week := e.preferred_shifts_per_week
        max_per_week := e.max_shifts_per_week }
  | none => { role := "", seniority := 0, preferred_shift := none,
              pref_per_week := none, max_per_week := none }

/-- `emp_name` dictionary of `generate_4_week_schedule` (`emp_name.get(eid, '')`). -/
def emp_name (db : DB) (eid : Nat) : String :=
  match db.employees.find? (fun e => e.id == eid) with
  | some e => e.name
  | none => ""

/-- `_build_availability_index(s)` from src/app.py: every availability row is indexed,
regardless of its `allowed` column. -/
def _build_availability_index (entries : List AvailEntry) : Nat → List (Nat × String) :=
  fun eid => (entries.filter (fun ea => ea.employee_id == eid)).map
    (fun ea => (ea.day_of_week, ea.shift_label))

/-- `_fd_variant(label)` (the generation-time variant, src/app.py line 1573). -/
def _fd_variant (label : String) : String :=
  if strStartsWith label "AM" then "AM"
  else if strStartsWith label "PM" then "PM"
  else if strStartsWith label "Audit" then "Audit"
  else label

/-- `_is_available(emp_id, role, shift_label, dte, avail_idx)` from src/app.py. -/
def _is_available (eid : Nat) (role : String) (shift_label : String) (dte : Int)
    (avail_idx : Nat → List (Nat × String)) : Bool :=
  let allowed := avail_idx eid
  if allowed.isEmpty then false
  else
    let dow := weekday dte
    let key := if role == "Front Desk" then (dow, _fd_variant shift_label) else (dow, shift_label)
    allowed.contains key

/-- `_pref_token(role, label)` from src/app.py. -/
def _pref_token (role : String) (label : String) : String :=
  if role == "Front Desk" then _fd_variant label else label

/-- `_effective_max_for_role(emp_info, eid, role)` from src/app.py: an explicit
per-employee maximum wins, otherwise Front Desk defaults to 5, Shuttle to 4, and
the Breakfast Bar is uncapped. -/
def _effective_max_for_role (db : DB) (eid : Nat) (role : String) : Option Nat :=
  match (emp_info db eid).max_per_week with
  | some m => some m
  | none =>
      if role == "Front Desk" then some 5
      else if role == "Shuttle" then some 4
      else none

/-- `rest_ok(eid, dte, role, label)` from src/app.py: the inter-day rest constraints,
checked against the previous day's assignment (any week). -/
def rest_ok (σ : VMap) (eid : Nat) (dte : Int) (role : String) (label : String) : Bool :=
  let prev := vget σ eid (dte - 1)
  if prev == "" || prev == "Set" || prev == TIME_OFF_LABEL then true
  else if role == "Front Desk" && strStartsWith label "AM" && strStartsWith prev "PM" then false
  else if role == "Front Desk" && strStartsWith label "PM" && strStartsWith prev "Audit" then false
  else if role == "Shuttle" && strStartsWith label "AM" &&
          (strStartsWith prev "PM" || strStartsWith prev "Crew") then false
  else if role == "Shuttle" && strStartsWith label "Midday" && strStartsWith prev "Crew" then false
  else true

/-- Strict lexicographic comparison of equal-length integer key tuples
(Python's tuple `<` as used by `sorted(..., key=key_fn)`). -/
def lexLt : List Int → List Int → Bool
  | [], _ => false
  | _ :: _, [] => false
  | a :: as, b :: bs => decide (a < b) || (a == b && lexLt as bs)

/-- Stable insertion used to model Python's stable `sorted`/`list.sort`. -/
def sortedInsert (key : α → List Int) (x : α) : List α → List α
  | [] => [x]
  | y :: ys => if lexLt (key y) (key x) then y :: sortedInsert key x ys else x :: y :: ys

/-- Stable sort by an integer key tuple (Python's `sorted(l, key=...)`). -/
def stableSortBy (key : α → List Int) (l : List α) : List α :=
  l.foldr (sortedInsert key) []

/-- `key_fn(eid)` inside `pick_best`: the 5-component ranking key. -/
def key_fn (db : DB) (ws : WState) (role : String) (label : String) (eid : Nat) : List Int :=
  let info := emp_info db eid
  let under_pref :=
    match info.pref_per_week with
    | some prefw => decide (cget ws.assigned_counts eid < prefw)
    | none => false
  let preferred_match :=
    match info.preferred_shift with
    | some want => _pref_token role label == want
    | none => false
  let consistent :=
    match tget ws.last_token eid role with
    | some t => t == _pref_token role label
    | none => false
  [if under_pref then 0 else 1,
   if preferred_match then 0 else 1,
   if consistent then 0 else 1,
   -info.seniority,
   (cget ws.assigned_counts eid : Int)]

/-- `pick_best(candidates, role, label)` from src/app.py: drop candidates at or over
their effective weekly maximum, drop candidates failing the rest rule, rank the rest
by `key_fn` with a stable sort and return the first. -/
def pick_best (db : DB) (ws : WState) (dte : Int) (candidates : List Nat)
    (role : String) (label : String) : Option Nat :=
  let filtered := candidates.filter (fun eid =>
    (match _effective_max_for_role db eid role with
     | some maxw => decide (cget ws.assigned_counts eid < maxw)
     | none => true)
    && rest_ok ws.value eid dte role label)
  (stableSortBy (key_fn db ws role label) filtered).head?

/-- `_mark_dismissed(eid, dte)` from src/app.py: set the dismissed-timeoff flag. -/
def _mark_dismissed (ws : WState) (eid : Nat) (dte : Int) : WState :=
  { ws with dismissed := bset ws.dismissed eid dte true }

/-- One assignment write of the generator: set the value, bump the weekly count,
record the last token for the (employee, role) pair. -/
def apply_assignment (ws : WState) (eid : Nat) (d : Int) (label : String)
    (role : String) (token : String) : WState :=
  { value := vset ws.value eid d label
    dismissed := ws.dismissed
    assigned_counts := cset ws.assigned_counts eid (cget ws.assigned_counts eid + 1)
    last_token := tset ws.last_token eid role token }

/-- `employees_for_section(name)` of `generate_4_week_schedule`: primary plus
secondary capability, deduplicated. -/
def employees_for_section (db : DB) (name : String) : List Nat :=
  let primary_ids := (db.employees.filter (fun e => e.roleName == name)).map (fun e => e.id)
  let secondary_ids := (db.roles.filter (fun r => r.section_name == name)).map
    (fun r => r.employee_id)
  (primary_ids ++ secondary_ids).dedup

/-- Precomputed context of one `generate_4_week_schedule` run. -/
structure GenCtx where
  db : DB
  avail_idx : Nat → List (Nat × String)
  fd_emp_ids : List Nat
  bb_emp_ids : List Nat
  sh_emp_ids : List Nat

/-- Build the run context (availability index and per-section id lists). -/
def mkCtx (db : DB) : GenCtx :=
  { db := db
    avail_idx := _build_availability_index db.availability
    fd_emp_ids := employees_for_section db "Front Desk"
    bb_emp_ids := employees_for_section db "Breakfast Bar"
    sh_emp_ids := employees_for_section db "Shuttle" }

/-- Reset one week at the start of its processing run:
`update(Assignment).where(week_id == wk.id).values(value="Set", dismissed_timeoff=0)`,
a fresh `assigned_counts` map and a fresh `last_token_per_role` map
(`vset_all`/`bset_all` are the two bulk updates it performs). -/
def vset_all (eid : Nat) (c : String) (ds : List Int) (m : VMap) : VMap :=
  ds.foldl (fun m2 d => vset m2 eid d c) m

/-- Write one Bool to a run of dates of one employee's dismissed column. -/
def bset_all (eid : Nat) (b : Bool) (ds : List Int) (m : BMap) : BMap :=
  ds.foldl (fun m2 d => bset m2 eid d b) m

def reset_week (db : DB) (start_d : Int) (ws : WState) : WState :=
  { value := db.employees.foldl (fun m emp =>
      vset_all emp.id "Set" (daterange start_d 7) m) ws.value
    dismissed := db.employees.foldl (fun m emp =>
      bset_all emp.id false (daterange start_d 7) m) ws.dismissed
    assigned_counts := []
    last_token := [] }

/-- The Front Desk variants with their two staggered concrete labels, in pass order. -/
def fd_variant_opts : List (String × List String) :=
  [("AM", ["AM (6:00AM–2:00PM)", "AM (6:15AM–2:15PM)"]),
   ("PM", ["PM (2:00PM–10:00PM)", "PM (2:15PM–10:15PM)"]),
   ("Audit", ["Audit (10:00PM–6:00AM)", "Audit (10:15PM–6:15AM)"])]

/-- Front Desk candidate collection for one (day, variant): already-assigned,
availability, rest rule, any-time-off (with dismissal marking) and weekly-max
checks in source order. -/
def fd_collect_step (ctx : GenCtx) (d : Int) (variant : String)
    (acc : List Nat × WState) (eid : Nat) : List Nat × WState :=
  let ws' := acc.2
  if vget ws'.value eid d != "Set" then acc
  else if !(_is_available eid "Front Desk" variant d ctx.avail_idx) then acc
  else if !(rest_ok ws'.value eid d "Front Desk" variant) then acc
  else if has_any_timeoff (emp_name ctx.db eid) d ctx.db.timeoff then
    (acc.1, _mark_dismissed ws' eid d)
  else if (match _effective_max_for_role ctx.db eid "Front Desk" with
           | some m => decide (m ≤ cget ws'.assigned_counts eid)
           | none => false) then acc
  else (acc.1 ++ [eid], ws')

/-- The Front Desk candidate collection loop over the whole pool. -/
def fd_collect (ctx : GenCtx) (ws : WState) (d : Int) (variant : String) (pool : List Nat) :
    List Nat × WState :=
  pool.foldl (fd_collect_step ctx d variant) ([], ws)

/-- The `for slot_i in range(2)` picking loop of the Front Desk pass. -/
def fd_picks (db : DB) (ws : WState) (d : Int) (variant : String) (cand : List Nat) : List Nat :=
  match pick_best db ws d cand "Front Desk" variant with
  | none => []
  | some p1 =>
      match pick_best db ws d (cand.filter (fun e => e != p1)) "Front Desk" variant with
      | none => [p1]
      | some p2 => [p1, p2]

/-- Python's `list.index` returning `none` instead of raising `ValueError`. -/
def list_index (l : List String) (nm : String) : Option Nat :=
  match l with
  | [] => none
  | x :: xs => if x == nm then some 0 else (list_index xs nm).map (fun i => i + 1)

/-- `_seniority_rank(eid)` from src/app.py: Ryan is forced last (10000), listed names
use their `SENIORITY_ORDER` index, everyone else ranks 9999. -/
def _seniority_rank (names : Nat → String) (eid : Nat) : Nat :=
  let name := names eid
  if name == "Ryan" then 10000
  else match list_index SENIORITY_ORDER name with
       | some i => i
       | none => 9999

/-- The stagger-label placement of the Front Desk pass: sort the picks by
`_seniority_rank` (stable), then walk them in order, giving pick `i` the label
`opts[i]` — except that Ryan picked alone receives the later stagger `opts[1]`. -/
def fd_stagger_labels (names : Nat → String) (picks : List Nat) (opts : List String) :
    List (Nat × String) :=
  let sorted := stableSortBy (fun e => [(_seniority_rank names e : Int)]) picks
  sorted.enum.map (fun p =>
    (p.2,
     if sorted.length == 1 && names p.2 == "Ryan" && decide (1 < opts.length) then
       opts.getD 1 ""
     else if decide (p.1 < opts.length) then opts.getD p.1 ""
     else opts.getLastD ""))

/-- One write iteration of the Front Desk write loop: remove the pick from the
pool and record the assignment. -/
def fd_write_step (d : Int) (variant : String) (acc2 : List Nat × WState)
    (pr : Nat × String) : List Nat × WState :=
  (acc2.1.erase pr.1,
   apply_assignment acc2.2 pr.1 d pr.2 "Front Desk" (_pref_token "Front Desk" variant))

/-- One (day, variant) step of the Front Desk pass: collect candidates, pick up
to two, place the stagger labels, write the assignments and shrink the pool. -/
def fd_process_variant (ctx : GenCtx) (d : Int) (acc : List Nat × WState)
    (vp : String × List String) : List Nat × WState :=
  let pool := acc.1
  let ws := acc.2
  let cw := fd_collect ctx ws d vp.1 pool
  let cand := cw.1
  let ws1 := cw.2
  if cand.isEmpty then (pool, ws1)
  else
    let picks := fd_picks ctx.db ws1 d vp.1 cand
    let assigns := fd_stagger_labels (emp_name ctx.db) picks vp.2
    assigns.foldl (fd_write_step d vp.1) (pool, ws1)

/-- One day of the Front Desk pass: the pool starts as all FD-capable ids and the
three variants run in order AM, PM, Audit. -/
def fd_day (ctx : GenCtx) (d : Int) (ws : WState) : WState :=
  (fd_variant_opts.foldl (fd_process_variant ctx d) (ctx.fd_emp_ids, ws)).2

/-- The Front Desk pass over the first `n` days of the week, in day order. -/
def fd_pass (ctx : GenCtx) (start_d : Int) : Nat → WState → WState
  | 0, ws => ws
  | n + 1, ws => fd_day ctx (start_d + (n : Int)) (fd_pass ctx start_d n ws)

/-- Per-variant Front Desk headcount among FD-capable employees on one day
(the counting loop shared by `fd_missing_on` and the reservation step). -/
def fd_counts_on (σ : VMap) (fd_ids : List Nat) (d : Int) : Nat × Nat × Nat :=
  fd_ids.foldl (fun c eid =>
    let v := vget σ eid d
    if v == "" || v == "Set" || v == TIME_OFF_LABEL then c
    else if strStartsWith v "AM" then (c.1 + 1, c.2.1, c.2.2)
    else if strStartsWith v "PM" then (c.1, c.2.1 + 1, c.2.2)
    else if strStartsWith v "Audit" then (c.1, c.2.1, c.2.2 + 1)
    else c) (0, 0, 0)

/-- `fd_missing_on(day)` from src/app.py: some variant has fewer than 2 people. -/
def fd_missing_on (σ : VMap) (fd_ids : List Nat) (d : Int) : Bool :=
  let c := fd_counts_on σ fd_ids d
  decide (c.1 < 2) || decide (c.2.1 < 2) || decide (c.2.2 < 2)

/-- The reservation step after the Front Desk pass (`reserved_fd_by_date`):
on a day with missing FD coverage, every FD-capable employee still on "Set"
is reserved for that day. -/
def mk_reserved (σ : VMap) (fd_ids : List Nat) : Int → List Nat :=
  fun d =>
    if fd_missing_on σ fd_ids d then fd_ids.filter (fun e => vget σ e d == "Set") else []

/-- The three Breakfast Bar working shift labels, in pass order. -/
def bb_shift_list : List String := ["5AM–12PM", "6AM–12PM", "7AM–12PM"]

/-- Breakfast Bar candidate collection for one (day, shift): reservation,
FD-shortfall exclusion, already-assigned, any-time-off (dismissal marked only if
availability and rest would pass) and availability-plus-rest checks in source order. -/
def bb_collect_step (ctx : GenCtx) (reserved : Int → List Nat) (d : Int) (shift : String)
    (acc : List Nat × WState) (eid : Nat) : List Nat × WState :=
  let ws' := acc.2
  if (reserved d).contains eid then acc
  else if fd_missing_on ws'.value ctx.fd_emp_ids d && ctx.fd_emp_ids.contains eid then acc
  else if vget ws'.value eid d != "Set" then acc
  else if has_any_timeoff (emp_name ctx.db eid) d ctx.db.timeoff then
    (if _is_available eid "Breakfast Bar" shift d ctx.avail_idx &&
        rest_ok ws'.value eid d "Breakfast Bar" shift
     then (acc.1, _mark_dismissed ws' eid d) else acc)
  else if _is_available eid "Breakfast Bar" shift d ctx.avail_idx &&
          rest_ok ws'.value eid d "Breakfast Bar" shift then
    (acc.1 ++ [eid], ws')
  else acc

/-- The Breakfast Bar candidate collection loop over the whole pool. -/
def bb_collect (ctx : GenCtx) (reserved : Int → List Nat) (ws : WState) (d : Int)
    (shift : String) (pool : List Nat) : List Nat × WState :=
  pool.foldl (bb_collect_step ctx reserved d shift) ([], ws)

/-- One (day, shift) step of the Breakfast Bar pass. -/
def bb_process_shift (ctx : GenCtx) (reserved : Int → List Nat) (d : Int)
    (acc : List Nat × WState) (shift : String) : List Nat × WState :=
  let cw := bb_collect ctx reserved acc.2 d shift acc.1
  let ws1 := cw.2
  match pick_best ctx.db ws1 d cw.1 "Breakfast Bar" shift with
  | none => (acc.1, ws1)
  | some p =>
      (acc.1.erase p,
       apply_assignment ws1 p d shift "Breakfast Bar" (_pref_token "Breakfast Bar" shift))

/-- One day of the Breakfast Bar pass. -/
def bb_day (ctx : GenCtx) (reserved : Int → List Nat) (d : Int) (ws : WState) : WState :=
  (bb_shift_list.foldl (bb_process_shift ctx reserved d) (ctx.bb_emp_ids, ws)).2

/-- The Breakfast Bar pass over the first `n` days of the week, in day order. -/
def bb_pass (ctx : GenCtx) (reserved : Int → List Nat) (start_d : Int) :
    Nat → WState → WState
  | 0, ws => ws
  | n + 1, ws => bb_day ctx reserved (start_d + (n : Int)) (bb_pass ctx reserved start_d n ws)

/-- The four Shuttle variants, in pass order. -/
def sh_variant_list : List String :=
  ["AM (3:30AM–11:30AM)", "Midday (10:30AM–6:30PM)", "PM (5:30PM–1:30AM)", "Crew (5:45PM–1:45AM)"]

/-- Shuttle candidate collection for one (day, variant): as the Breakfast Bar,
except that the dismissal marking on a time-off rejection only requires the rest
rule to pass (availability is not consulted there in the source). -/
def sh_collect_step (ctx : GenCtx) (reserved : Int → List Nat) (d : Int) (v : String)
    (acc : List Nat × WState) (eid : Nat) : List Nat × WState :=
  let ws' := acc.2
  if (reserved d).contains eid then acc
  else if fd_missing_on ws'.value ctx.fd_emp_ids d && ctx.fd_emp_ids.contains eid then acc
  else if vget ws'.value eid d != "Set" then acc
  else if has_any_timeoff (emp_name ctx.db eid) d ctx.db.timeoff then
    (if rest_ok ws'.value eid d "Shuttle" v
     then (acc.1, _mark_dismissed ws' eid d) else acc)
  else if _is_available eid "Shuttle" v d ctx.avail_idx &&
          rest_ok ws'.value eid d "Shuttle" v then
    (acc.1 ++ [eid], ws')
  else acc

/-- The Shuttle candidate collection loop over the whole pool. -/
def sh_collect (ctx : GenCtx) (reserved : Int → List Nat) (ws : WState) (d : Int)
    (v : String) (pool : List Nat) : List Nat × WState :=
  pool.foldl (sh_collect_step ctx reserved d v) ([], ws)

/-- One (day, variant) step of the Shuttle pass. -/
def sh_process_variant (ctx : GenCtx) (reserved : Int → List Nat) (d : Int)
    (acc : List Nat × WState) (v : String) : List Nat × WState :=
  let cw := sh_collect ctx reserved acc.2 d v acc.1
  let ws1 := cw.2
  match pick_best ctx.db ws1 d cw.1 "Shuttle" v with
  | none => (acc.1, ws1)
  | some p =>
      (acc.1.erase p,
       apply_assignment ws1 p d v "Shuttle" (_pref_token "Shuttle" v))

/-- One day of the Shuttle pass. -/
def sh_day (ctx : GenCtx) (reserved : Int → List Nat) (d : Int) (ws : WState) : WState :=
  (sh_variant_list.foldl (sh_process_variant ctx reserved d) (ctx.sh_emp_ids, ws)).2

/-- The Shuttle pass over the first `n` days of the week, in day order. -/
def sh_pass (ctx : GenCtx) (reserved : Int → List Nat) (start_d : Int) :
    Nat → WState → WState
  | 0, ws => ws
  | n + 1, ws => sh_day ctx reserved (start_d + (n : Int)) (sh_pass ctx reserved start_d n ws)

/-- One date step of `sync_timeoff_to_assignments`: an employee's assignment on
an approved-leave date of the week is forced to `TIME OFF`. -/
def sync_day (db : DB) (nm : String) (eid : Nat) (ws2 : WState) (d : Int) : WState :=
  if has_approved_timeoff nm d db.timeoff then
    { ws2 with value := vset ws2.value eid d TIME_OFF_LABEL }
  else ws2

/-- The double loop of `sync_timeoff_to_assignments`. -/
def sync_timeoff_to_assignments (db : DB) (start_d : Int) (ws : WState) : WState :=
  db.employees.foldl (fun ws1 emp =>
    (daterange start_d 7).foldl (sync_day db emp.name emp.id) ws1) ws

/-- The state after the reset and the Front Desk pass of one week
(the point at which `reserved_fd_by_date` is computed). -/
def week_after_fd (ctx : GenCtx) (start_d : Int) (ws : WState) : WState :=
  fd_pass ctx start_d 7 (reset_week ctx.db start_d ws)

/-- One full week of `generate_4_week_schedule`: reset, Front Desk pass,
reservation snapshot, Breakfast Bar pass, Shuttle pass, time-off sync. -/
def processWeek (ctx : GenCtx) (start_d : Int) (ws : WState) : WState :=
  let ws1 := week_after_fd ctx start_d ws
  let reserved := mk_reserved ws1.value ctx.fd_emp_ids
  let ws2 := bb_pass ctx reserved start_d 7 ws1
  let ws3 := sh_pass ctx reserved start_d 7 ws2
  sync_timeoff_to_assignments ctx.db start_d ws3

/-- The first `k` weeks of the 4-week loop, in order. -/
def gen_weeks (ctx : GenCtx) (base : Int) : Nat → WState → WState
  | 0, ws => ws
  | k + 1, ws => processWeek ctx (base + 7 * (k : Int)) (gen_weeks ctx base k ws)

/-- `generate_4_week_schedule(start_week_id)` from src/app.py, as a function of
the database contents, the base week's start date and the pre-existing
assignment state. -/
def generate_4_week_schedule (db : DB) (base : Int) (ws : WState) : WState :=
  gen_weeks (mkCtx db) base 4 ws

/-- `section_shifts(name)` as used by `double_booked_snapshot` and `build_week_context`. -/
def section_shifts (name : String) : List String :=
  if name == "Breakfast Bar" then BREAKFAST_SHIFTS
  else if name == "Front Desk" then FRONT_DESK_SHIFTS
  else if name == "Shuttle" then SHUTTLE_SHIFTS
  else []

/-- The set of section names an employee belongs to (primary plus secondary roles),
as built by `double_booked_snapshot`; `""` stands for a dangling section reference. -/
def emp_sections (db : DB) (eid : Nat) : List String :=
  (((db.employees.filter (fun e => e.id == eid)).map (fun e => e.roleName)) ++
   ((db.roles.filter (fun r => r.employee_id == eid)).map (fun r => r.section_name))).dedup

/-- `double_booked_snapshot(week_id)` from src/app.py, flattened to a list of
(date, employee name) pairs: an employee with capability in two or more sections is
reported on a date when their single assignment value lies in the shift-label list
of more than one of their sections. -/
def double_booked_snapshot (db : DB) (ws : WState) (wstart : Int) : List (Int × String) :=
  db.employees.foldl (fun acc emp =>
    if 1 < ((emp_sections db emp.id).filter (fun n => n != "")).length then
      (daterange wstart 7).foldl (fun acc2 d =>
        let v := vget ws.value emp.id d
        if v == "" || v == "Set" || v == TIME_OFF_LABEL then acc2
        else
          let active := ((emp_sections db emp.id).filter
            (fun sec_name => sec_name != "" && (section_shifts sec_name).contains v)).length
          if 1 < active then acc2 ++ [(d, emp.name)] else acc2) acc
    else acc) []

/-- The three section rows ensured by `init_db_once`. -/
def SECTION_NAMES : List String := ["Breakfast Bar", "Front Desk", "Shuttle"]

/-- Outcome of the `/assign` endpoint (the JSON coverage payload that accompanies
each response is a read-only summary and is not part of the outcome modelled here). -/
inductive AssignResp where
  | weekNotFound
  | unknownSection
  | unknownEmployee
  | notAllowed
  | assignmentNotFound
  | timeoffRejection (value : String)
  | okResp
deriving DecidableEq

/-- The `/assign` route from src/app.py (date-string parsing happens at the HTTP
layer and the date arrives parsed here; a week's assignment rows exist exactly for
its 7 dates, so the row-found check is membership in `daterange`).  On approved
leave the stored value is forced to `TIME OFF` and a 409 rejection is returned;
otherwise the requested value is stored. -/
def assign (db : DB) (weeks : List (Nat × Int)) (baseline : Int) (ws : WState)
    (sectionName employeeName : String) (dte : Int) (value : String)
    (week_id : Option Nat) : WState × AssignResp :=
  let week? : Option (Nat × Int) := match week_id with
    | some wid => weeks.find? (fun w => w.1 == wid)
    | none => weeks.find? (fun w => w.2 == baseline)
  match week? with
  | none => (ws, .weekNotFound)
  | some w =>
      if !(SECTION_NAMES.contains sectionName) then (ws, .unknownSection)
      else
        match db.employees.find? (fun e => e.name == employeeName) with
        | none => (ws, .unknownEmployee)
        | some emp =>
            let allowed := emp.roleName == sectionName ||
              db.roles.any (fun r => r.employee_id == emp.id && r.section_name == sectionName)
            if !allowed then (ws, .notAllowed)
            else if !((daterange w.2 7).contains dte) then (ws, .assignmentNotFound)
            else if has_approved_timeoff emp.name dte db.timeoff then
              ({ ws with value := vset ws.value emp.id dte TIME_OFF_LABEL },
               .timeoffRejection TIME_OFF_LABEL)
            else ({ ws with value := vset ws.value emp.id dte value }, .okResp)

/-- Number of employees whose assignment on day `d` equals `label` exactly
(the `fd_label_counts` cells of `coverage_snapshot_db`). -/
def fd_label_count (db : DB) (ws : WState) (d : Int) (label : String) : Nat :=
  (db.employees.filter (fun e => vget ws.value e.id d == label)).length

/-- Front Desk per-variant count of `coverage_snapshot_db`: non-placeholder values
that are Front Desk labels, bucketed by their variant word. -/
def fd_variant_count (db : DB) (ws : WState) (d : Int) (variant : String) : Nat :=
  (db.employees.filter (fun e =>
    let v := vget ws.value e.id d
    !(v == "" || v == "Set" || v == TIME_OFF_LABEL) && FRONT_DESK_SHIFTS.contains v &&
      strStartsWith v variant)).length

/-- Shuttle per-variant count of `coverage_snapshot_db`. -/
def sh_variant_count (db : DB) (ws : WState) (d : Int) (variant : String) : Nat :=
  (db.employees.filter (fun e =>
    let v := vget ws.value e.id d
    !(v == "" || v == "Set" || v == TIME_OFF_LABEL) && SHUTTLE_SHIFTS.contains v &&
      (if variant == "AM" then v == "AM (3:30AM–11:30AM)"
       else if variant == "Midday" then strStartsWith v "Midday"
       else if variant == "PM" then strStartsWith v "PM (5:30PM"
       else if variant == "Crew" then strStartsWith v "Crew"
       else false))).length

/-- Breakfast per-variant count of `coverage_snapshot_db` (exact labels). -/
def bb_variant_count (db : DB) (ws : WState) (d : Int) (variant : String) : Nat :=
  (db.employees.filter (fun e =>
    let v := vget ws.value e.id d
    !(v == "" || v == "Set" || v == TIME_OFF_LABEL) && bb_shift_list.contains variant &&
      v == variant)).length

/-- Duplicate-stagger test for one Front Desk variant with staggered labels
`l1`, `l2`: at least two people on the variant but only one distinct exact label. -/
def fd_dup_variant (db : DB) (ws : WState) (d : Int) (l1 l2 : String) : Bool :=
  let c1 := fd_label_count db ws d l1
  let c2 := fd_label_count db ws d l2
  decide (2 ≤ c1 + c2) &&
    decide (((if 0 < c1 then 1 else 0) + (if 0 < c2 then 1 else 0) : Nat) = 1)

/-- `fd_duplicates[date_key]` of `coverage_snapshot_db`. -/
def fd_duplicates_on (db : DB) (ws : WState) (d : Int) : Bool :=
  fd_dup_variant db ws d "AM (6:00AM–2:00PM)" "AM (6:15AM–2:15PM)" ||
  fd_dup_variant db ws d "PM (2:00PM–10:00PM)" "PM (2:15PM–10:15PM)" ||
  fd_dup_variant db ws d "Audit (10:00PM–6:00AM)" "Audit (10:15PM–6:15AM)"

/-- The record computed by `coverage_snapshot_db(week_id)`. -/
structure CoverageSnapshot where
  total_counts : Int → Nat
  missing : Int → Bool
  required : Nat
  counts : Int → String → Nat
  sh_missing : Int → Bool
  sh_required : Nat
  sh_counts : Int → String → Nat
  bb_missing : Int → Bool
  bb_required : Nat
  bb_counts : Int → String → Nat
  fd_duplicates : Int → Bool

/-- `coverage_snapshot_db(week_id)` from src/app.py. -/
def coverage_snapshot_db (db : DB) (ws : WState) (_wstart : Int) : CoverageSnapshot :=
  { total_counts := fun d =>
      fd_variant_count db ws d "AM" + fd_variant_count db ws d "PM" +
        fd_variant_count db ws d "Audit"
    missing := fun d =>
      decide (fd_variant_count db ws d "AM" < 2) || decide (fd_variant_count db ws d "PM" < 2) ||
        decide (fd_variant_count db ws d "Audit" < 2)
    required := 6
    counts := fun d variant => fd_variant_count db ws d variant
    sh_missing := fun d =>
      decide (sh_variant_count db ws d "AM" < 1) || decide (sh_variant_count db ws d "Midday" < 1) ||
        decide (sh_variant_count db ws d "PM" < 1) || decide (sh_variant_count db ws d "Crew" < 1)
    sh_required := 4
    sh_counts := fun d variant => sh_variant_count db ws d variant
    bb_missing := fun d =>
      decide (bb_variant_count db ws d "5AM–12PM" < 1) ||
        decide (bb_variant_count db ws d "6AM–12PM" < 1) ||
        decide (bb_variant_count db ws d "7AM–12PM" < 1)
    bb_required := 3
    bb_counts := fun d variant => bb_variant_count db ws d variant
    fd_duplicates := fun d => fd_duplicates_on db ws d }

/-- One component of the tuple literally returned by `coverage_snapshot_db`. -/
inductive CovField where
  | total_counts (f : Int → Nat)
  | missing (f : Int → Bool)
  | required (n : Nat)
  | counts (f : Int → String → Nat)
  | sh_missing (f : Int → Bool)
  | sh_required (n : Nat)
  | sh_counts (f : Int → String → Nat)
  | bb_missing (f : Int → Bool)
  | bb_required (n : Nat)
  | bb_counts (f : Int → String → Nat)
  | fd_duplicates (f : Int → Bool)

/-- The tuple returned by `coverage_snapshot_db` (src/app.py line 458): 11 components. -/
def coverage_snapshot_return (db : DB) (ws : WState) (wstart : Int) : List CovField :=
  let c := coverage_snapshot_db db ws wstart
  [CovField.total_counts c.total_counts, CovField.missing c.missing,
   CovField.required c.required, CovField.counts c.counts,
   CovField.sh_missing c.sh_missing, CovField.sh_required c.sh_required,
   CovField.sh_counts c.sh_counts, CovField.bb_missing c.bb_missing,
   CovField.bb_required c.bb_required, CovField.bb_counts c.bb_counts,
   CovField.fd_duplicates c.fd_duplicates]

/-- Python tuple unpacking of a sequence into `k` names: raises `ValueError`
unless the sequence has exactly `k` elements. -/
def pyUnpack (k : Nat) (xs : List α) : Except String (List α) :=
  if xs.length == k then Except.ok xs else Except.error "ValueError"

/-- The `item` dictionary built by `toggle_timeoff` after its commit. -/
structure ToggleItem where
  id : Nat
  name : String
  roleName : String
  from_date : Int
  to_date : Int
  approved : Bool
deriving DecidableEq

/-- Outcome of `/timeoff/toggle`: a handled 404, an uncaught exception escaping
the handler, or a success JSON. -/
inductive ToggleResp where
  | notFoundResp
  | crash (msg : String)
  | success (item : ToggleItem)
deriving DecidableEq

/-- The `to.approved = approved` mutation of `toggle_timeoff`. -/
def set_timeoff_approved (ts : List TimeOffReq) (tid : Nat) (b : Bool) : List TimeOffReq :=
  ts.map (fun t => if t.id == tid then { t with approved := b } else t)

/-- The assignment-update loop of `toggle_timeoff` over the current primary week. -/
def toggle_week_update (db : DB) (wstart : Int) (t : TimeOffReq) (approved : Bool)
    (ws : WState) : WState :=
  match db.employees.find? (fun e => e.name == t.name) with
  | none => ws
  | some emp =>
      (daterange wstart 7).foldl (fun ws1 d =>
        let in_range := decide (t.from_date ≤ d) && decide (d ≤ t.to_date)
        if approved && in_range then
          { ws1 with value := vset ws1.value emp.id d TIME_OFF_LABEL }
        else if !approved && (vget ws1.value emp.id d == TIME_OFF_LABEL) && in_range then
          { ws1 with value := vset ws1.value emp.id d "Set" }
        else ws1) ws

/-- The `/timeoff/toggle` route from src/app.py: on a found request the approval
flag and the primary week's assignments are mutated and committed, and then the
coverage snapshot's 11-component tuple is unpacked into 10 names, which raises
`ValueError` before any success response can be built (the response would also
reference the never-assigned `fd_duplicates` name).  The returned pair carries the
post-commit database state alongside the response. -/
def toggle_timeoff (db : DB) (wstart : Int) (ws : WState) (tid : Nat) (approved : Bool) :
    (List TimeOffReq × WState) × ToggleResp :=
  match db.timeoff.find? (fun t => t.id == tid) with
  | none => ((db.timeoff, ws), ToggleResp.notFoundResp)
  | some t =>
      let ts' := set_timeoff_approved db.timeoff tid approved
      let ws' := toggle_week_update db wstart t approved ws
      match pyUnpack 10 (coverage_snapshot_return db ws' wstart) with
      | Except.error msg => ((ts', ws'), ToggleResp.crash msg)
      | Except.ok _ =>
          ((ts', ws'),
           ToggleResp.success
             { id := t.id, name := t.name, roleName := t.roleName,
               from_date := t.from_date, to_date := t.to_date, approved := approved })

/-! ### Claim-side definitions and concrete inputs -/

/-- The two concrete Front Desk AM stagger labels. -/
def FD_AM_LABELS : List String := ["AM (6:00AM–2:00PM)", "AM (6:15AM–2:15PM)"]

/-- The two concrete Front Desk PM stagger labels. -/
def FD_PM_LABELS : List String := ["PM (2:00PM–10:00PM)", "PM (2:15PM–10:15PM)"]

/-- The two concrete Front Desk Audit stagger labels. -/
def FD_AUDIT_LABELS : List String := ["Audit (10:00PM–6:00AM)", "Audit (10:15PM–6:15AM)"]

def SH_AM_LABEL : String := "AM (3:30AM–11:30AM)"

def SH_MIDDAY_LABEL : String := "Midday (10:30AM–6:30PM)"

def SH_PM_LABEL : String := "PM (5:30PM–1:30AM)"

def SH_CREW_LABEL : String := "Crew (5:45PM–1:45AM)"

/-- The rest rule of the specification, on a pair of consecutive-day values:
no AM-variant reception shift the day after a PM-variant reception shift; no
PM-variant reception shift the day after an Audit-variant reception shift; no
shuttle AM the day after a shuttle PM or Crew; no shuttle Midday the day after
a Crew. -/
def restViolation (prev next : String) : Bool :=
  (FD_PM_LABELS.contains prev && FD_AM_LABELS.contains next) ||
  (FD_AUDIT_LABELS.contains prev && FD_PM_LABELS.contains next) ||
  ((prev == SH_PM_LABEL || prev == SH_CREW_LABEL) && next == SH_AM_LABEL) ||
  (prev == SH_CREW_LABEL && next == SH_MIDDAY_LABEL)

/-- Count of the non-placeholder, non-leave assignments of one worker over one
week of the schedule (the quantity bounded by the weekly-cap claim). -/
def week_active_count (σ : VMap) (start_d : Int) (e : Nat) : Nat :=
  ((daterange start_d 7).filter (fun d =>
    !(vget σ e d == "" || vget σ e d == "Set" || vget σ e d == TIME_OFF_LABEL))).length

/-- Count of one worker's assignments over one week whose value lies in a given
label list (used to count one department's shifts). -/
def week_label_count (σ : VMap) (start_d : Int) (e : Nat) (labels : List String) : Nat :=
  ((daterange start_d 7).filter (fun d => labels.contains (vget σ e d))).length

/-- The empty pre-existing assignment state (no rows materialized yet). -/
def emptyW : WState := { value := [], dismissed := [], assigned_counts := [], last_token := [] }

/-- Shorthand for building a concrete employee row. -/
def mkEmp (i : Nat) (nm : String) (role : String) : Employee :=
  { id := i, name := nm, roleName := role, seniority := none,
    preferred_shift := none, preferred_shifts_per_week := none, max_shifts_per_week := none }

/-- Concrete input for the C3 counterexample: two Front Desk workers who tie on
the first three ranking criteria and differ only in numeric seniority (1 vs 2). -/
def dbC3 : DB :=
  { employees := [{ id := 1, name := "Amy", roleName := "Front Desk", seniority := some 1,
                    preferred_shift := none, preferred_shifts_per_week := none,
                    max_shifts_per_week := none },
                  { id := 2, name := "Bob", roleName := "Front Desk", seniority := some 2,
                    preferred_shift := none, preferred_shifts_per_week := none,
                    max_shifts_per_week := none }],
    roles := [], availability := [], timeoff := [] }

/-- Concrete input for the C2 counterexample: worker 1 ("Walt") is primary Front
Desk (no explicit weekly maximum, so the effective Front Desk cap is 5) with a
secondary Breakfast Bar capability; six further Front Desk workers cover all
three variants on the week's last day so that the reservation mechanism does not
shield Walt there. -/
def dbC2 : DB :=
  { employees := [mkEmp 1 "Walt" "Front Desk", mkEmp 2 "Ann" "Front Desk",
                  mkEmp 3 "Ben" "Front Desk", mkEmp 4 "Carl" "Front Desk",
                  mkEmp 5 "Dana" "Front Desk", mkEmp 6 "Ed" "Front Desk",
                  mkEmp 7 "Fay" "Front Desk"],
    roles := [{ employee_id := 1, section_name := "Breakfast Bar" }],
    availability :=
      [{ employee_id := 1, day_of_week := 3, shift_label := "AM", allowed := true },
       { employee_id := 1, day_of_week := 4, shift_label := "AM", allowed := true },
       { employee_id := 1, day_of_week := 5, shift_label := "AM", allowed := true },
       { employee_id := 1, day_of_week := 6, shift_label := "AM", allowed := true },
       { employee_id := 1, day_of_week := 0, shift_label := "AM", allowed := true },
       { employee_id := 1, day_of_week := 2, shift_label := "5AM–12PM", allowed := true },
       { employee_id := 2, day_of_week := 2, shift_label := "AM", allowed := true },
       { employee_id := 3, day_of_week := 2, shift_label := "AM", allowed := true },
       { employee_id := 4, day_of_week := 2, shift_label := "PM", allowed := true },
       { employee_id := 5, day_of_week := 2, shift_label := "PM", allowed := true },
       { employee_id := 6, day_of_week := 2, shift_label := "Audit", allowed := true },
       { employee_id := 7, day_of_week := 2, shift_label := "Audit", allowed := true }],
    timeoff := [] }

/-- Concrete input for the C7 counterexample: one Front Desk worker with Monday
AM availability and an approved leave request covering the first generated day. -/
def dbC7 : DB :=
  { employees := [mkEmp 1 "Walt" "Front Desk"],
    roles := [],
    availability := [{ employee_id := 1, day_of_week := 0, shift_label := "AM", allowed := true }],
    timeoff := [{ id := 1, name := "Walt", roleName := "Front Desk", from_date := 0, to_date := 0,
                  approved := true, vacation := false }] }

/-- A minimal concrete database for witnesses: one Front Desk worker with
Monday AM availability and one approved leave request on day 2. -/
def dbW : DB :=
  { employees := [mkEmp 1 "Walt" "Front Desk"],
    roles := [],
    availability := [{ employee_id := 1, day_of_week := 0, shift_label := "AM", allowed := true }],
    timeoff := [{ id := 1, name := "Walt", roleName := "Front Desk", from_date := 2, to_date := 2,
                  approved := true, vacation := false }] }

/-- The ids of the employees table. -/
def EmpIds (db : DB) : List Nat := db.employees.map (fun e => e.id)

/-- The rest rule holds for every worker across every consecutive-day pair of
the week starting at `s` (including the pair reaching back to the last day of
the previous week). -/
def GoodW (db : DB) (s : Int) (σ : VMap) : Prop :=
  ∀ e ∈ EmpIds db, ∀ i : Nat, i ≤ 6 →
    restViolation (vget σ e (s + (i : Int) - 1)) (vget σ e (s + (i : Int))) = false

/-- Every worker's cell from day `n` of the week on is still the placeholder. -/
def LaterSet (db : DB) (s : Int) (n : Nat) (σ : VMap) : Prop :=
  ∀ e ∈ EmpIds db, ∀ j : Nat, n ≤ j → j ≤ 6 → vget σ e (s + (j : Int)) = "Set"

/-- No worker's cell from day `n` of the week on holds a shuttle AM or Midday label. -/
def NoShMid (db : DB) (s : Int) (n : Nat) (σ : VMap) : Prop :=
  ∀ e ∈ EmpIds db, ∀ j : Nat, n ≤ j → j ≤ 6 →
    vget σ e (s + (j : Int)) ≠ SH_AM_LABEL ∧ vget σ e (s + (j : Int)) ≠ SH_MIDDAY_LABEL

/-- All six concrete reception-desk labels. -/
def FD_ALL_LABELS : List String := FD_AM_LABELS ++ FD_PM_LABELS ++ FD_AUDIT_LABELS

/-- All four concrete shuttle labels. -/
def SH_ALL_LABELS : List String :=
  [SH_AM_LABEL, SH_MIDDAY_LABEL, SH_PM_LABEL, SH_CREW_LABEL]

/-- The per-department cap invariant: for every worker, the number of week
cells holding a label of `labels` is bounded by the worker's running weekly
counter, and by the worker's effective cap for `role` whenever that cap is
finite. -/
def CapInv (db : DB) (s : Int) (labels : List String) (role : String) (ws : WState) : Prop :=
  ∀ e ∈ EmpIds db,
    week_label_count ws.value s e labels ≤ cget ws.assigned_counts e ∧
    (∀ m, _effective_max_for_role db e role = some m →
      week_label_count ws.value s e labels ≤ m)

/-! ### Basic lemmas about the association-list maps -/

theorem vget_vset_same (m : VMap) (e : Nat) (d : Int) (v : String) :
    vget (vset m e d v) e d = v := by
  simp [vget, vset, List.find?]

theorem vget_vset_ne (m : VMap) {e0 e : Nat} {d0 d : Int} (v : String)
    (h : ¬(e = e0 ∧ d = d0)) : vget (vset m e0 d0 v) e d = vget m e d := by
  have hb : (((e0, d0), v).1.1 == e && ((e0, d0), v).1.2 == d) = false := by
    simp only [beq_iff_eq, Bool.and_eq_false_iff, beq_eq_false_iff_ne, ne_eq]
    by_cases he : e = e0
    · right; intro hd; exact h ⟨he, hd.symm⟩
    · left; intro he'; exact he he'.symm
  simp [vget, vset, List.find?, hb]

theorem bget_bset_same (m : BMap) (e : Nat) (d : Int) (b : Bool) :
    bget (bset m e d b) e d = b := by
  simp [bget, bset, List.find?]

theorem bget_bset_ne (m : BMap) {e0 e : Nat} {d0 d : Int} (b : Bool)
    (h : ¬(e = e0 ∧ d = d0)) : bget (bset m e0 d0 b) e d = bget m e d := by
  have hb : (((e0, d0), b).1.1 == e && ((e0, d0), b).1.2 == d) = false := by
    simp only [beq_iff_eq, Bool.and_eq_false_iff, beq_eq_false_iff_ne, ne_eq]
    by_cases he : e = e0
    · right; intro hd; exact h ⟨he, hd.symm⟩
    · left; intro he'; exact he he'.symm
  simp [bget, bset, List.find?, hb]

theorem cget_cset_same (m : CMap) (e : Nat) (n : Nat) :
    cget (cset m e n) e = n := by
  simp [cget, cset, List.find?]

theorem cget_cset_ne (m : CMap) {e0 e : Nat} (n : Nat) (h : e ≠ e0) :
    cget (cset m e0 n) e = cget m e := by
  have hb : ((e0, n).1 == e) = false := by
    simp only [beq_eq_false_iff_ne, ne_eq]
    exact fun he => h he.symm
  simp [cget, cset, List.find?, hb]

/-- Membership in a date range. -/
theorem mem_daterange {start : Int} {n : Nat} {d : Int} :
    d ∈ daterange start n ↔ start ≤ d ∧ d < start + (n : Int) := by
  constructor
  · intro h
    obtain ⟨i, hi, hf⟩ := List.mem_map.1 h
    rw [List.mem_range] at hi
    have hi' : (i : Int) < (n : Int) := by exact_mod_cast hi
    have h0 : (0 : Int) ≤ (i : Int) := Int.ofNat_nonneg i
    omega
  · rintro ⟨h1, h2⟩
    refine List.mem_map.2 ⟨(d - start).toNat, ?_, ?_⟩
    · rw [List.mem_range]
      have h0 : (0 : Int) ≤ d - start := by omega
      have hc : ((d - start).toNat : Int) = d - start := Int.toNat_of_nonneg h0
      omega
    · have h0 : (0 : Int) ≤ d - start := by omega
      have hc : ((d - start).toNat : Int) = d - start := Int.toNat_of_nonneg h0
      omega

/-! ### Lemmas about the lexicographic order and the stable sort -/

theorem lexLt_irrefl (a : List Int) : lexLt a a = false := by
  induction a with
  | nil => rfl
  | cons x xs ih => simp [lexLt, ih]

theorem lexLt_asymm {a b : List Int} (h : lexLt a b = true) : lexLt b a = false := by
  induction a generalizing b with
  | nil => cases b <;> simp [lexLt] at h
  | cons x xs ih =>
      cases b with
      | nil => simp [lexLt] at h
      | cons y ys =>
          simp only [lexLt, Bool.or_eq_true, decide_eq_true_eq, Bool.and_eq_true,
            beq_iff_eq] at h ⊢
          rcases h with h | ⟨rfl, h⟩
          · simp only [Bool.or_eq_false_iff, decide_eq_false_iff_not, not_lt,
              Bool.and_eq_false_iff, beq_eq_false_iff_ne, ne_eq]
            exact ⟨by omega, Or.inl (by omega)⟩
          · simp only [Bool.or_eq_false_iff, decide_eq_false_iff_not, not_lt,
              Bool.and_eq_false_iff, beq_eq_false_iff_ne, ne_eq]
            exact ⟨le_refl x, Or.inr (ih h)⟩

theorem lexLt_neg_trans {a b c : List Int} (hl1 : a.length = b.length)
    (hl2 : b.length = c.length) (hab : lexLt a b = false)
    (hbc : lexLt b c = false) : lexLt a c = false := by
  induction a generalizing b c with
  | nil => cases c <;> rfl
  | cons x xs ih =>
      cases b with
      | nil => simp at hl1
      | cons y ys =>
          cases c with
          | nil => simp at hl2
          | cons z zs =>
              simp only [lexLt, Bool.or_eq_false_iff, decide_eq_false_iff_not, not_lt,
                Bool.and_eq_false_iff, beq_eq_false_iff_ne, ne_eq] at hab hbc ⊢
              obtain ⟨hyx, hab2⟩ := hab
              obtain ⟨hzy, hbc2⟩ := hbc
              refine ⟨by omega, ?_⟩
              rcases hab2 with h | h
              · left; omega
              · rcases hbc2 with h2 | h2
                · left; omega
                · by_cases hzx : x = z
                  · right
                    have hyz : y = z := by omega
                    subst hzx
                    subst hyz
                    exact ih (by simpa using hl1) (by simpa using hl2) h h2
                  · left; exact hzx

theorem stableSortBy_cons (key : α → List Int) (y : α) (ys : List α) :
    stableSortBy key (y :: ys) = sortedInsert key y (stableSortBy key ys) := rfl

theorem mem_sortedInsert (key : α → List Int) (x : α) (l : List α) (z : α) :
    z ∈ sortedInsert key x l ↔ z = x ∨ z ∈ l := by
  induction l with
  | nil => simp [sortedInsert]
  | cons y ys ih =>
      rw [sortedInsert]
      by_cases h : lexLt (key y) (key x)
      · rw [if_pos h]
        simp only [List.mem_cons, ih]
        tauto
      · rw [if_neg h]
        simp only [List.mem_cons]

theorem mem_stableSortBy (key : α → List Int) (l : List α) (z : α) :
    z ∈ stableSortBy key l ↔ z ∈ l := by
  induction l with
  | nil => simp [stableSortBy]
  | cons y ys ih =>
      rw [stableSortBy_cons, mem_sortedInsert, ih, List.mem_cons]

theorem length_sortedInsert (key : α → List Int) (x : α) (l : List α) :
    (sortedInsert key x l).length = l.length + 1 := by
  induction l with
  | nil => rfl
  | cons y ys ih =>
      rw [sortedInsert]
      by_cases h : lexLt (key y) (key x)
      · rw [if_pos h, List.length_cons, ih, List.length_cons]
      · rw [if_neg h, List.length_cons, List.length_cons]

theorem length_stableSortBy (key : α → List Int) (l : List α) :
    (stableSortBy key l).length = l.length := by
  induction l with
  | nil => rfl
  | cons y ys ih => rw [stableSortBy_cons, length_sortedInsert, ih]; rfl

theorem stableSortBy_head_min (key : α → List Int)
    (hkl : ∀ z1 z2 : α, (key z1).length = (key z2).length) (l : List α) {h : α} {t : List α}
    (hs : stableSortBy key l = h :: t) :
    ∀ z ∈ l, lexLt (key z) (key h) = false := by
  induction l generalizing h t with
  | nil => simp [stableSortBy] at hs
  | cons y ys ih =>
      rw [stableSortBy_cons] at hs
      rcases hsy : stableSortBy key ys with _ | ⟨h', t'⟩
      · rw [hsy] at hs
        rw [sortedInsert] at hs
        injection hs with hh ht
        subst hh
        have hys : ys = [] := by
          have hl := length_stableSortBy key ys
          rw [hsy] at hl
          exact List.length_eq_zero.1 hl.symm
        subst hys
        intro z hz
        simp only [List.mem_cons, List.not_mem_nil, or_false] at hz
        subst hz
        exact lexLt_irrefl _
      · rw [hsy] at hs
        rw [sortedInsert] at hs
        by_cases hcmp : lexLt (key h') (key y)
        · rw [if_pos hcmp] at hs
          injection hs with hh ht
          subst hh
          intro z hz
          rcases List.mem_cons.1 hz with rfl | hz'
          · exact lexLt_asymm hcmp
          · exact ih hsy z hz'
        · rw [if_neg hcmp] at hs
          injection hs with hh ht
          subst hh
          intro z hz
          rcases List.mem_cons.1 hz with rfl | hz'
          · exact lexLt_irrefl _
          · have h1 : lexLt (key z) (key h') = false := ih hsy z hz'
            have h2 : lexLt (key h') (key y) = false := by
              exact Bool.eq_false_iff.2 hcmp
            exact lexLt_neg_trans (hkl _ _) (hkl _ _) h1 h2

theorem head?_mem {l : List α} {x : α} (h : l.head? = some x) : x ∈ l := by
  cases l with
  | nil => simp at h
  | cons y ys =>
      simp only [List.head?] at h
      injection h with h
      subst h
      exact List.mem_cons_self _ _

/-- A selected `pick_best` winner is one of the candidates and passed both the
weekly-max filter and the rest filter. -/
theorem pick_best_mem {db : DB} {ws : WState} {dte : Int} {cand : List Nat}
    {role label : String} {p : Nat} (h : pick_best db ws dte cand role label = some p) :
    p ∈ cand ∧
      ((match _effective_max_for_role db p role with
        | some maxw => decide (cget ws.assigned_counts p < maxw)
        | none => true) && rest_ok ws.value p dte role label) = true := by
  unfold pick_best at h
  have hp := head?_mem h
  rw [mem_stableSortBy] at hp
  have hf := List.mem_filter.1 hp
  exact ⟨hf.1, hf.2⟩

/-! ### Disjointness of the three departments' label sets (claim C9) -/

theorem bb_fd_disjoint {v : String} (h1 : v ∈ BREAKFAST_SHIFTS) (h2 : v ∈ FRONT_DESK_SHIFTS) :
    v = "Set" ∨ v = TIME_OFF_LABEL := by
  simp only [BREAKFAST_SHIFTS, TIME_OFF_LABEL, List.mem_cons, List.not_mem_nil, or_false] at h1
  rcases h1 with rfl | rfl | rfl | rfl | rfl
  · left; rfl
  · right; rfl
  · exact absurd h2 (by decide)
  · exact absurd h2 (by decide)
  · exact absurd h2 (by decide)

theorem bb_sh_disjoint {v : String} (h1 : v ∈ BREAKFAST_SHIFTS) (h2 : v ∈ SHUTTLE_SHIFTS) :
    v = "Set" ∨ v = TIME_OFF_LABEL := by
  simp only [BREAKFAST_SHIFTS, TIME_OFF_LABEL, List.mem_cons, List.not_mem_nil, or_false] at h1
  rcases h1 with rfl | rfl | rfl | rfl | rfl
  · left; rfl
  · right; rfl
  · exact absurd h2 (by decide)
  · exact absurd h2 (by decide)
  · exact absurd h2 (by decide)

theorem fd_sh_disjoint {v : String} (h1 : v ∈ FRONT_DESK_SHIFTS) (h2 : v ∈ SHUTTLE_SHIFTS) :
    v = "Set" ∨ v = TIME_OFF_LABEL := by
  simp only [FRONT_DESK_SHIFTS, TIME_OFF_LABEL, List.mem_cons, List.not_mem_nil, or_false] at h1
  rcases h1 with rfl | rfl | rfl | rfl | rfl | rfl | rfl | rfl
  · left; rfl
  · right; rfl
  · exact absurd h2 (by decide)
  · exact absurd h2 (by decide)
  · exact absurd h2 (by decide)
  · exact absurd h2 (by decide)
  · exact absurd h2 (by decide)
  · exact absurd h2 (by decide)

/-- A `section_shifts` list is nonempty only for the three section names. -/
theorem section_shifts_cases {n : String} {v : String} (h : v ∈ section_shifts n) :
    n = "Breakfast Bar" ∨ n = "Front Desk" ∨ n = "Shuttle" := by
  by_cases h1 : n = "Breakfast Bar"
  · exact Or.inl h1
  by_cases h2 : n = "Front Desk"
  · exact Or.inr (Or.inl h2)
  by_cases h3 : n = "Shuttle"
  · exact Or.inr (Or.inr h3)
  exfalso
  unfold section_shifts at h
  rw [if_neg (by simpa using h1), if_neg (by simpa using h2), if_neg (by simpa using h3)] at h
  simp at h

theorem filter_length_le_one {p : α → Bool} {l : List α} (hnd : l.Nodup)
    (huniq : ∀ a ∈ l, ∀ b ∈ l, p a = true → p b = true → a = b) :
    (l.filter p).length ≤ 1 := by
  induction l with
  | nil => simp
  | cons a l ih =>
      rw [List.nodup_cons] at hnd
      by_cases hp : p a
      · rw [List.filter_cons_of_pos hp]
        have hemp : l.filter p = [] := by
          rw [List.filter_eq_nil_iff]
          intro b hb hpb
          have : a = b := huniq a (List.mem_cons_self a l) b (List.mem_cons_of_mem a hb) hp hpb
          exact hnd.1 (this ▸ hb)
        rw [hemp]
        exact le_refl 1
      · rw [List.filter_cons_of_neg hp]
        exact ih hnd.2 (fun x hx y hy hpx hpy =>
          huniq x (List.mem_cons_of_mem a hx) y (List.mem_cons_of_mem a hy) hpx hpy)

/-- A non-placeholder value lies in the shift list of at most one section name. -/
theorem active_section_unique {v : String} (hset : v ≠ "Set") (hto : v ≠ TIME_OFF_LABEL)
    {n1 n2 : String} (h1 : v ∈ section_shifts n1) (h2 : v ∈ section_shifts n2) : n1 = n2 := by
  rcases section_shifts_cases h1 with rfl | rfl | rfl <;>
    rcases section_shifts_cases h2 with rfl | rfl | rfl
  · rfl
  · simp only [section_shifts, if_pos, if_neg] at h1 h2
    rcases bb_fd_disjoint (by simpa using h1) (by simpa using h2) with h | h
    · exact absurd h hset
    · exact absurd h hto
  · simp only [section_shifts] at h1 h2
    rcases bb_sh_disjoint (by simpa using h1) (by simpa using h2) with h | h
    · exact absurd h hset
    · exact absurd h hto
  · simp only [section_shifts] at h1 h2
    rcases bb_fd_disjoint (by simpa using h2) (by simpa using h1) with h | h
    · exact absurd h hset
    · exact absurd h hto
  · rfl
  · simp only [section_shifts] at h1 h2
    rcases fd_sh_disjoint (by simpa using h1) (by simpa using h2) with h | h
    · exact absurd h hset
    · exact absurd h hto
  · simp only [section_shifts] at h1 h2
    rcases bb_sh_disjoint (by simpa using h2) (by simpa using h1) with h | h
    · exact absurd h hset
    · exact absurd h hto
  · simp only [section_shifts] at h1 h2
    rcases fd_sh_disjoint (by simpa using h2) (by simpa using h1) with h | h
    · exact absurd h hset
    · exact absurd h hto
  · rfl

/-- A fold whose step fixes every accumulator is the identity. -/
theorem foldl_fixed {l : List β} {f : α → β → α} (h : ∀ acc b, b ∈ l → f acc b = acc)
    (a : α) : l.foldl f a = a := by
  induction l generalizing a with
  | nil => rfl
  | cons x xs ih =>
      rw [List.foldl_cons, h a x (List.mem_cons_self x xs)]
      exact ih (fun acc b hb => h acc b (List.mem_cons_of_mem x hb)) a

/-- The double-booked "active sections" count of one employee on one day is at
most 1 whenever the assignment value is a real shift label. -/
theorem active_le_one (db : DB) (ws : WState) (emp : Employee) (d : Int)
    (hset : vget ws.value emp.id d ≠ "Set") (hto : vget ws.value emp.id d ≠ TIME_OFF_LABEL) :
    ((emp_sections db emp.id).filter (fun sec_name =>
        sec_name != "" && (section_shifts sec_name).contains (vget ws.value emp.id d))).length ≤ 1 := by
  apply filter_length_le_one
  · exact List.nodup_dedup _
  · intro a _ b _ hpa hpb
    simp only [Bool.and_eq_true, bne_iff_ne, ne_eq] at hpa hpb
    have hma : vget ws.value emp.id d ∈ section_shifts a := by simpa using hpa.2
    have hmb : vget ws.value emp.id d ∈ section_shifts b := by simpa using hpb.2
    exact active_section_unique hset hto hma hmb

/-- Because the label sets are disjoint, no double-booked entry is ever produced. -/
theorem double_booked_snapshot_empty (db : DB) (ws : WState) (wstart : Int) :
    double_booked_snapshot db ws wstart = [] := by
  unfold double_booked_snapshot
  apply foldl_fixed
  intro acc emp _
  by_cases hmulti : 1 < ((emp_sections db emp.id).filter (fun n => n != "")).length
  · rw [if_pos hmulti]
    apply foldl_fixed
    intro acc2 d _
    by_cases hph : (vget ws.value emp.id d == "" || vget ws.value emp.id d == "Set" ||
        vget ws.value emp.id d == TIME_OFF_LABEL) = true
    · simp only [hph, if_pos]
    · simp only [hph, Bool.false_eq_true, if_neg, if_false]
      have hset : vget ws.value emp.id d ≠ "Set" := by
        simp only [Bool.or_eq_true, beq_iff_eq] at hph
        intro hc; exact hph (Or.inl (Or.inr hc))
      have hto : vget ws.value emp.id d ≠ TIME_OFF_LABEL := by
        simp only [Bool.or_eq_true, beq_iff_eq] at hph
        intro hc; exact hph (Or.inr hc)
      have hle := active_le_one db ws emp d hset hto
      rw [if_neg (by omega)]
  · rw [if_neg hmulti]

/-- Claim C9: the three departments' shift-label lists are pairwise disjoint
outside the shared placeholders "Set" and "TIME OFF" (stated as a decidable
check over the concrete lists), and consequently `double_booked_snapshot`
reports no worker for any week and any assignment state. -/
theorem C9_disjoint_no_double_booking :
    ((BREAKFAST_SHIFTS.filter (fun v => !(v == "Set" || v == TIME_OFF_LABEL))).all
        (fun v => !(FRONT_DESK_SHIFTS.contains v) && !(SHUTTLE_SHIFTS.contains v)) = true ∧
      (FRONT_DESK_SHIFTS.filter (fun v => !(v == "Set" || v == TIME_OFF_LABEL))).all
        (fun v => !(SHUTTLE_SHIFTS.contains v)) = true) ∧
    ∀ (db : DB) (ws : WState) (wstart : Int), double_booked_snapshot db ws wstart = [] := by
  refine ⟨⟨by decide, by decide⟩, ?_⟩
  intro db ws wstart
  exact double_booked_snapshot_empty db ws wstart

/-! ### Claim C8: manual assignment against approved leave -/

/-- Claim C8: a `/assign` request that resolves (week found, known section, known
employee with capability for it, date inside the week) for a worker with an
approved leave request covering the requested date never stores the requested
value: the assignment is forced to `TIME OFF` and a rejection reporting the
override is returned, whatever value was requested. -/
theorem C8_assign_leave_override (db : DB) (weeks : List (Nat × Int)) (baseline : Int)
    (ws : WState) (sectionName employeeName : String) (dte : Int) (value : String)
    (wid : Nat) (w : Nat × Int) (emp : Employee)
    (hfind : weeks.find? (fun p => p.1 == wid) = some w)
    (hsec : sectionName ∈ SECTION_NAMES)
    (hemp : db.employees.find? (fun e => e.name == employeeName) = some emp)
    (hallowed : (emp.roleName == sectionName ||
      db.roles.any (fun r => r.employee_id == emp.id && r.section_name == sectionName)) = true)
    (hdte : dte ∈ daterange w.2 7)
    (hto : has_approved_timeoff emp.name dte db.timeoff = true) :
    assign db weeks baseline ws sectionName employeeName dte value (some wid) =
      ({ ws with value := vset ws.value emp.id dte TIME_OFF_LABEL },
       AssignResp.timeoffRejection TIME_OFF_LABEL) ∧
    vget (assign db weeks baseline ws sectionName employeeName dte value (some wid)).1.value
      emp.id dte = TIME_OFF_LABEL := by
  have hmain : assign db weeks baseline ws sectionName employeeName dte value (some wid) =
      ({ ws with value := vset ws.value emp.id dte TIME_OFF_LABEL },
       AssignResp.timeoffRejection TIME_OFF_LABEL) := by
    unfold assign
    dsimp only
    rw [hfind]
    have hsec' : SECTION_NAMES.contains sectionName = true := by simpa using hsec
    rw [hsec']
    simp only [Bool.not_true, Bool.false_eq_true, if_false]
    rw [hemp]
    dsimp only
    rw [hallowed]
    simp only [Bool.not_true, Bool.false_eq_true, if_false]
    have hdte' : (daterange w.2 7).contains dte = true := by simpa using hdte
    rw [hdte']
    simp only [Bool.not_true, Bool.false_eq_true, if_false]
    rw [hto]
    simp
  refine ⟨hmain, ?_⟩
  rw [hmain]
  exact vget_vset_same _ _ _ _

/-- Witness for C8 at a concrete request. -/
theorem C8_witness :
    ([(1, (0 : Int))].find? (fun p => p.1 == 1) = some (1, (0 : Int)) ∧
      "Front Desk" ∈ SECTION_NAMES ∧
      dbW.employees.find? (fun e => e.name == "Walt") = some (mkEmp 1 "Walt" "Front Desk") ∧
      ((mkEmp 1 "Walt" "Front Desk").roleName == "Front Desk" ||
        dbW.roles.any (fun r => r.employee_id == (mkEmp 1 "Walt" "Front Desk").id &&
          r.section_name == "Front Desk")) = true ∧
      (2 : Int) ∈ daterange (0 : Int) 7 ∧
      has_approved_timeoff (mkEmp 1 "Walt" "Front Desk").name 2 dbW.timeoff = true) ∧
    vget (assign dbW [(1, 0)] 0 emptyW "Front Desk" "Walt" 2 "AM (6:00AM–2:00PM)"
      (some 1)).1.value 1 2 = TIME_OFF_LABEL := by
  refine ⟨⟨by decide, by decide, by decide, by decide, by decide, by decide⟩, ?_⟩
  exact (C8_assign_leave_override dbW [(1, 0)] 0 emptyW "Front Desk" "Walt" 2
    "AM (6:00AM–2:00PM)" 1 (1, 0) (mkEmp 1 "Walt" "Front Desk")
    (by decide) (by decide) (by decide) (by decide) (by decide) (by decide)).2

/-! ### Claim C10: the time-off toggle endpoint crashes after committing -/

/-- Claim C10: toggling an existing time-off request always ends in an uncaught
`ValueError`: the coverage snapshot returns 11 components while the handler
unpacks 10 names.  The mutation (approval flag and the primary week's assignment
values) is already committed when the exception is raised, so the returned state
is the mutated one while no success response is produced. -/
theorem C10_toggle_crash (db : DB) (wstart : Int) (ws : WState) (tid : Nat)
    (approved : Bool) (t : TimeOffReq)
    (hfind : db.timeoff.find? (fun t2 => t2.id == tid) = some t) :
    toggle_timeoff db wstart ws tid approved =
      ((set_timeoff_approved db.timeoff tid approved,
        toggle_week_update db wstart t approved ws), ToggleResp.crash "ValueError") ∧
    (coverage_snapshot_return db (toggle_week_update db wstart t approved ws) wstart).length
      = 11 ∧
    (set_timeoff_approved db.timeoff tid approved).all
      (fun t2 => t2.id != tid || t2.approved == approved) = true := by
  refine ⟨?_, rfl, ?_⟩
  · unfold toggle_timeoff
    rw [hfind]
    rfl
  · rw [List.all_eq_true]
    intro t2 ht2
    unfold set_timeoff_approved at ht2
    obtain ⟨t3, _, hmap⟩ := List.mem_map.1 ht2
    by_cases hid : t3.id == tid
    · rw [if_pos hid] at hmap
      subst hmap
      simp
    · rw [if_neg hid] at hmap
      subst hmap
      simp only [Bool.or_eq_true, bne_iff_ne, ne_eq]
      left
      simpa using hid

/-- Witness for C10 at a concrete request. -/
theorem C10_toggle_crash_witness :
    (dbW.timeoff.find? (fun t2 => t2.id == 1) =
      some { id := 1, name := "Walt", roleName := "Front Desk", from_date := 2, to_date := 2,
             approved := true, vacation := false }) ∧
    (toggle_timeoff dbW 0 emptyW 1 false).2 = ToggleResp.crash "ValueError" := by
  refine ⟨by decide, ?_⟩
  rw [(C10_toggle_crash dbW 0 emptyW 1 false
    { id := 1, name := "Walt", roleName := "Front Desk", from_date := 2, to_date := 2,
      approved := true, vacation := false } (by decide)).1]

/-! ### Claim C5: stagger-label placement by seniority -/

theorem lexLt_single (a b : Int) : lexLt [a] [b] = decide (a < b) := by
  simp [lexLt]

theorem stableSortBy_pair_of_not_lt (key : α → List Int) (a b : α)
    (h : lexLt (key b) (key a) = false) : stableSortBy key [a, b] = [a, b] := by
  unfold stableSortBy
  simp only [List.foldr, sortedInsert, h, Bool.false_eq_true, if_false]

theorem stableSortBy_pair_of_lt (key : α → List Int) (a b : α)
    (h : lexLt (key b) (key a) = true) : stableSortBy key [a, b] = [b, a] := by
  unfold stableSortBy
  simp only [List.foldr, sortedInsert, h, if_true]

theorem list_index_lt_length {l : List String} {nm : String} {i : Nat}
    (h : list_index l nm = some i) : i < l.length := by
  induction l generalizing i with
  | nil => simp [list_index] at h
  | cons x xs ih =>
      rw [list_index] at h
      by_cases hx : x == nm
      · rw [if_pos hx] at h
        injection h with h
        subst h
        simp
      · rw [if_neg hx] at h
        rcases hm : list_index xs nm with _ | j
        · rw [hm] at h; simp at h
        · rw [hm] at h
          simp only [Option.map_some'] at h
          injection h with h
          subst h
          have := ih hm
          simp only [List.length_cons]
          omega

/-- The rank of the named exception "Ryan". -/
theorem _seniority_rank_ryan {names : Nat → String} {eid : Nat} (h : names eid = "Ryan") :
    _seniority_rank names eid = 10000 := by
  unfold _seniority_rank
  rw [if_pos (by simpa using h)]

/-- Anyone other than "Ryan" ranks strictly below 10000. -/
theorem _seniority_rank_lt_ryan {names : Nat → String} {eid : Nat} (h : names eid ≠ "Ryan") :
    _seniority_rank names eid < 10000 := by
  unfold _seniority_rank
  rw [if_neg (by simpa using h)]
  rcases hm : list_index SENIORITY_ORDER (names eid) with _ | i
  · dsimp only
    omega
  · dsimp only
    have := list_index_lt_length hm
    have h12 : SENIORITY_ORDER.length = 12 := by decide
    omega

/-- Claim C5: when the Front Desk pass has selected two workers for a variant,
the pair is re-sorted by `_seniority_rank` and the more senior (lower rank)
worker receives the earlier stagger label `opts[0]`, the other the later
`opts[1]`, whatever the pick order was; the named exception "Ryan" (rank 10000)
therefore always receives the later label when paired with anyone else, and
also receives the later label when selected alone. -/
theorem C5_stagger_seniority (names : Nat → String) (e1 e2 : Nat) (opts : List String)
    (hlen : opts.length = 2) :
    (_seniority_rank names e1 < _seniority_rank names e2 →
      fd_stagger_labels names [e1, e2] opts = [(e1, opts.getD 0 ""), (e2, opts.getD 1 "")] ∧
      fd_stagger_labels names [e2, e1] opts = [(e1, opts.getD 0 ""), (e2, opts.getD 1 "")]) ∧
    (names e1 = "Ryan" → fd_stagger_labels names [e1] opts = [(e1, opts.getD 1 "")]) ∧
    (names e1 = "Ryan" → names e2 ≠ "Ryan" →
      fd_stagger_labels names [e1, e2] opts = [(e2, opts.getD 0 ""), (e1, opts.getD 1 "")]) := by
  rcases opts with _ | ⟨o1, opts2⟩
  · simp at hlen
  rcases opts2 with _ | ⟨o2, opts3⟩
  · simp at hlen
  rcases opts3 with _ | ⟨o3, opts4⟩
  swap
  · simp at hlen
  refine ⟨?_, ?_, ?_⟩
  · intro h
    have hlt : lexLt [((_seniority_rank names e2 : Nat) : Int)]
        [((_seniority_rank names e1 : Nat) : Int)] = false := by
      rw [lexLt_single]
      simp only [decide_eq_false_iff_not, not_lt]
      exact_mod_cast Nat.le_of_lt h
    have hlt2 : lexLt [((_seniority_rank names e1 : Nat) : Int)]
        [((_seniority_rank names e2 : Nat) : Int)] = true := by
      rw [lexLt_single]
      simp only [decide_eq_true_eq]
      exact_mod_cast h
    constructor
    · unfold fd_stagger_labels
      rw [stableSortBy_pair_of_not_lt _ _ _ hlt]
      rfl
    · unfold fd_stagger_labels
      rw [stableSortBy_pair_of_lt _ _ _ hlt2]
      rfl
  · intro hR
    unfold fd_stagger_labels
    have hsingle : stableSortBy (fun e => [((_seniority_rank names e : Nat) : Int)]) [e1] = [e1] :=
      rfl
    rw [hsingle]
    simp [hR]
  · intro hR hNR
    have h : _seniority_rank names e2 < _seniority_rank names e1 := by
      rw [_seniority_rank_ryan hR]
      exact _seniority_rank_lt_ryan hNR
    have hlt2 : lexLt [((_seniority_rank names e2 : Nat) : Int)]
        [((_seniority_rank names e1 : Nat) : Int)] = true := by
      rw [lexLt_single]
      simp only [decide_eq_true_eq]
      exact_mod_cast h
    unfold fd_stagger_labels
    rw [stableSortBy_pair_of_lt _ _ _ hlt2]
    rfl

/-- Witness for C5 with concrete names and labels. -/
theorem C5_stagger_seniority_witness :
    ((["PM (2:00PM–10:00PM)", "PM (2:15PM–10:15PM)"] : List String).length = 2 ∧
      _seniority_rank (fun i => if i = 1 then "Cindy" else "Jordan") 1 <
        _seniority_rank (fun i => if i = 1 then "Cindy" else "Jordan") 2) ∧
    fd_stagger_labels (fun i => if i = 1 then "Cindy" else "Jordan") [2, 1]
        ["PM (2:00PM–10:00PM)", "PM (2:15PM–10:15PM)"] =
      [(1, "PM (2:00PM–10:00PM)"), (2, "PM (2:15PM–10:15PM)")] := by
  refine ⟨⟨by decide, by decide⟩, ?_⟩
  exact ((C5_stagger_seniority (fun i => if i = 1 then "Cindy" else "Jordan") 1 2
    ["PM (2:00PM–10:00PM)", "PM (2:15PM–10:15PM)"] (by decide)).1 (by decide)).2

/-! ### Claim C3: the seniority tie-break direction of the Candidate Ranker -/

theorem lexLt_cons_self (x : Int) (as bs : List Int) :
    lexLt (x :: as) (x :: bs) = lexLt as bs := by
  simp [lexLt]

/-- Counterexample to claim C3 as stated: workers 1 and 2 tie on the first three
ranking criteria and carry numeric seniority ranks 1 and 2.  The claim predicts
that the lower rank (worker 1, rank 1 — "more senior") is ordered first and
selected, but `pick_best` selects worker 2: `key_fn` uses the *negated* numeric
seniority in an ascending sort, so the higher numeric value sorts first. -/
theorem C3_counterexample :
    (emp_info dbC3 1).seniority = 1 ∧ (emp_info dbC3 2).seniority = 2 ∧
    (key_fn dbC3 emptyW "Front Desk" "AM" 1).take 3 =
      (key_fn dbC3 emptyW "Front Desk" "AM" 2).take 3 ∧
    pick_best dbC3 emptyW 0 [1, 2] "Front Desk" "AM" = some 2 := by decide

/-- Claim C3, amended: among eligible candidates that tie on the first three
ranking criteria, the Candidate Ranker orders workers by *descending* numeric
seniority value (`key_fn` carries the negated seniority), so the selected worker
has the greatest numeric seniority among such tied candidates; workers with no
numeric rank are keyed as 0 and hence sort after every positively-ranked tied
worker. -/
theorem C3_seniority_amended (db : DB) (ws : WState) (dte : Int) (cand : List Nat)
    (role label : String) (p e : Nat)
    (hpick : pick_best db ws dte cand role label = some p)
    (he : e ∈ cand)
    (hfilter : ((match _effective_max_for_role db e role with
        | some maxw => decide (cget ws.assigned_counts e < maxw)
        | none => true) && rest_ok ws.value e dte role label) = true)
    (htie : (key_fn db ws role label e).take 3 = (key_fn db ws role label p).take 3) :
    (emp_info db e).seniority ≤ (emp_info db p).seniority := by
  unfold pick_best at hpick
  dsimp only at hpick
  rcases hsort : stableSortBy (key_fn db ws role label)
      (cand.filter (fun eid =>
        (match _effective_max_for_role db eid role with
         | some maxw => decide (cget ws.assigned_counts eid < maxw)
         | none => true)
        && rest_ok ws.value eid dte role label)) with _ | ⟨h0, t0⟩
  · rw [hsort] at hpick
    simp at hpick
  · rw [hsort] at hpick
    simp only [List.head?] at hpick
    injection hpick with hp
    subst hp
    have hmem : e ∈ cand.filter (fun eid =>
        (match _effective_max_for_role db eid role with
         | some maxw => decide (cget ws.assigned_counts eid < maxw)
         | none => true)
        && rest_ok ws.value eid dte role label) := List.mem_filter.2 ⟨he, hfilter⟩
    have hmin := stableSortBy_head_min (key_fn db ws role label)
      (fun z1 z2 => by simp [key_fn]) _ hsort e hmem
    revert hmin
    unfold key_fn
    dsimp only
    unfold key_fn at htie
    simp only [List.take] at htie
    simp only [List.cons.injEq, and_true] at htie
    obtain ⟨h1, h2, h3⟩ := htie
    rw [h1, h2, h3]
    rw [lexLt_cons_self, lexLt_cons_self, lexLt_cons_self]
    intro hmin
    simp only [lexLt, Bool.or_eq_false_iff, decide_eq_false_iff_not, not_lt,
      Bool.and_eq_false_iff, beq_eq_false_iff_ne, ne_eq] at hmin
    omega

/-- Witness for the amended C3 at the concrete counterexample input. -/
theorem C3_seniority_amended_witness :
    (pick_best dbC3 emptyW 0 [1, 2] "Front Desk" "AM" = some 2 ∧
      1 ∈ [1, 2] ∧
      ((match _effective_max_for_role dbC3 1 "Front Desk" with
        | some maxw => decide (cget emptyW.assigned_counts 1 < maxw)
        | none => true) && rest_ok emptyW.value 1 0 "Front Desk" "AM") = true ∧
      (key_fn dbC3 emptyW "Front Desk" "AM" 1).take 3 =
        (key_fn dbC3 emptyW "Front Desk" "AM" 2).take 3) ∧
    (emp_info dbC3 1).seniority ≤ (emp_info dbC3 2).seniority := by
  refine ⟨⟨by decide, by decide, by decide, by decide⟩, ?_⟩
  exact C3_seniority_amended dbC3 emptyW 0 [1, 2] "Front Desk" "AM" 2 1
    (by decide) (by decide) (by decide) (by decide)

/-! ### Rest-rule safety of single writes -/

theorem restViolation_next_false {next : String}
    (h1 : next ∉ FD_AM_LABELS) (h2 : next ∉ FD_PM_LABELS)
    (h3 : next ≠ SH_AM_LABEL) (h4 : next ≠ SH_MIDDAY_LABEL)
    (p : String) : restViolation p next = false := by
  simp [restViolation, h1, h2, h3, h4]

theorem restViolation_prev_false {prev : String}
    (h1 : prev ∉ FD_PM_LABELS) (h2 : prev ∉ FD_AUDIT_LABELS)
    (h3 : prev ≠ SH_PM_LABEL) (h4 : prev ≠ SH_CREW_LABEL)
    (next : String) : restViolation prev next = false := by
  simp [restViolation, h1, h2, h3, h4]

theorem restViolation_set_next (p : String) : restViolation p "Set" = false :=
  restViolation_next_false (by decide) (by decide) (by decide) (by decide) p

theorem restViolation_timeoff_next (p : String) : restViolation p TIME_OFF_LABEL = false :=
  restViolation_next_false (by decide) (by decide) (by decide) (by decide) p

theorem restViolation_bb_next {L : String} (hL : L ∈ bb_shift_list) (p : String) :
    restViolation p L = false := by
  simp only [bb_shift_list, List.mem_cons, List.not_mem_nil, or_false] at hL
  rcases hL with rfl | rfl | rfl
  · exact restViolation_next_false (by decide) (by decide) (by decide) (by decide) p
  · exact restViolation_next_false (by decide) (by decide) (by decide) (by decide) p
  · exact restViolation_next_false (by decide) (by decide) (by decide) (by decide) p

theorem restViolation_bb_prev {L : String} (hL : L ∈ bb_shift_list) (next : String) :
    restViolation L next = false := by
  simp only [bb_shift_list, List.mem_cons, List.not_mem_nil, or_false] at hL
  rcases hL with rfl | rfl | rfl
  · exact restViolation_prev_false (by decide) (by decide) (by decide) (by decide) next
  · exact restViolation_prev_false (by decide) (by decide) (by decide) (by decide) next
  · exact restViolation_prev_false (by decide) (by decide) (by decide) (by decide) next

/-- A Front Desk write is rest-safe against the previous day: the candidate
passed `rest_ok` for the variant, and the written label carries the same variant
word, so the pair cannot violate the rest rule. -/
theorem fd_write_rest_safe {σ : VMap} {e : Nat} {d : Int} {vp : String × List String}
    {L : String} (hvp : vp ∈ fd_variant_opts) (hL : L ∈ vp.2)
    (hok : rest_ok σ e d "Front Desk" vp.1 = true) :
    restViolation (vget σ e (d - 1)) L = false := by
  unfold rest_ok at hok
  dsimp only at hok
  by_cases htriv : (vget σ e (d - 1) == "" || vget σ e (d - 1) == "Set" ||
      vget σ e (d - 1) == TIME_OFF_LABEL) = true
  · simp only [Bool.or_eq_true, beq_iff_eq] at htriv
    rcases htriv with (h | h) | h <;> rw [h] <;>
      exact restViolation_prev_false (by decide) (by decide) (by decide) (by decide) L
  · rw [if_neg htriv] at hok
    simp only [fd_variant_opts, List.mem_cons, List.not_mem_nil, or_false] at hvp
    rcases hvp with rfl | rfl | rfl <;> dsimp only at hL hok <;>
      simp only [List.mem_cons, List.not_mem_nil, or_false] at hL
    · -- variant AM: rest_ok rules out a PM-prefixed previous value
      simp only [show ((("Front Desk" : String) == "Front Desk") = true) from rfl,
        show (strStartsWith "AM" "AM" = true) from rfl,
        show (strStartsWith "AM" "PM" = false) from rfl,
        show (strStartsWith "AM" "Midday" = false) from rfl,
        show ((("Front Desk" : String) == "Shuttle") = false) from rfl,
        Bool.true_and, Bool.false_and, Bool.and_false, if_false] at hok
      by_cases hpm : strStartsWith (vget σ e (d - 1)) "PM"
      · rw [if_pos hpm] at hok; exact absurd hok (by decide)
      · have h1 : vget σ e (d - 1) ≠ "PM (2:00PM–10:00PM)" := by
          intro hc; rw [hc] at hpm; exact hpm (by decide)
        have h2 : vget σ e (d - 1) ≠ "PM (2:15PM–10:15PM)" := by
          intro hc; rw [hc] at hpm; exact hpm (by decide)
        rcases hL with rfl | rfl <;>
          simp [restViolation, h1, h2, FD_AM_LABELS, FD_PM_LABELS, FD_AUDIT_LABELS,
            SH_AM_LABEL, SH_MIDDAY_LABEL]
    · -- variant PM: rest_ok rules out an Audit-prefixed previous value
      simp only [show ((("Front Desk" : String) == "Front Desk") = true) from rfl,
        show (strStartsWith "PM" "AM" = false) from rfl,
        show (strStartsWith "PM" "PM" = true) from rfl,
        show (strStartsWith "PM" "Midday" = false) from rfl,
        show ((("Front Desk" : String) == "Shuttle") = false) from rfl,
        Bool.true_and, Bool.false_and, Bool.and_false, if_false] at hok
      by_cases hau : strStartsWith (vget σ e (d - 1)) "Audit"
      · rw [if_pos hau] at hok; exact absurd hok (by decide)
      · have h1 : vget σ e (d - 1) ≠ "Audit (10:00PM–6:00AM)" := by
          intro hc; rw [hc] at hau; exact hau (by decide)
        have h2 : vget σ e (d - 1) ≠ "Audit (10:15PM–6:15AM)" := by
          intro hc; rw [hc] at hau; exact hau (by decide)
        rcases hL with rfl | rfl <;>
          simp [restViolation, h1, h2, FD_AM_LABELS, FD_PM_LABELS, FD_AUDIT_LABELS,
            SH_AM_LABEL, SH_MIDDAY_LABEL]
    · -- variant Audit: an Audit label is never the "next" of any rest rule
      rcases hL with rfl | rfl <;>
        exact restViolation_next_false (by decide) (by decide) (by decide) (by decide) _

/-- A Shuttle write is rest-safe against the previous day. -/
theorem sh_write_rest_safe {σ : VMap} {e : Nat} {d : Int} {v : String}
    (hv : v ∈ sh_variant_list) (hok : rest_ok σ e d "Shuttle" v = true) :
    restViolation (vget σ e (d - 1)) v = false := by
  unfold rest_ok at hok
  dsimp only at hok
  by_cases htriv : (vget σ e (d - 1) == "" || vget σ e (d - 1) == "Set" ||
      vget σ e (d - 1) == TIME_OFF_LABEL) = true
  · simp only [Bool.or_eq_true, beq_iff_eq] at htriv
    rcases htriv with (h | h) | h <;> rw [h] <;>
      exact restViolation_prev_false (by decide) (by decide) (by decide) (by decide) v
  · rw [if_neg htriv] at hok
    simp only [sh_variant_list, List.mem_cons, List.not_mem_nil, or_false] at hv
    rcases hv with rfl | rfl | rfl | rfl
    · -- shuttle AM: rest_ok rules out PM- or Crew-prefixed previous values
      simp only [show ((("Shuttle" : String) == "Front Desk") = false) from rfl,
        show ((("Shuttle" : String) == "Shuttle") = true) from rfl,
        show (strStartsWith "AM (3:30AM–11:30AM)" "AM" = true) from rfl,
        show (strStartsWith "AM (3:30AM–11:30AM)" "Midday" = false) from rfl,
        Bool.true_and, Bool.false_and, Bool.and_false, if_false] at hok
      by_cases hlate : (strStartsWith (vget σ e (d - 1)) "PM" ||
          strStartsWith (vget σ e (d - 1)) "Crew") = true
      · rw [if_pos hlate] at hok; exact absurd hok (by decide)
      · simp only [Bool.or_eq_true, not_or] at hlate
        have h1 : vget σ e (d - 1) ≠ SH_PM_LABEL := by
          intro hc
          rw [hc] at hlate
          exact hlate.1 (by decide)
        have h2 : vget σ e (d - 1) ≠ SH_CREW_LABEL := by
          intro hc
          rw [hc] at hlate
          exact hlate.2 (by decide)
        simp [restViolation, h1, h2, FD_AM_LABELS, FD_PM_LABELS, FD_AUDIT_LABELS,
          SH_AM_LABEL, SH_MIDDAY_LABEL]
    · -- shuttle Midday: rest_ok rules out a Crew-prefixed previous value
      simp only [show ((("Shuttle" : String) == "Front Desk") = false) from rfl,
        show ((("Shuttle" : String) == "Shuttle") = true) from rfl,
        show (strStartsWith "Midday (10:30AM–6:30PM)" "AM" = false) from rfl,
        show (strStartsWith "Midday (10:30AM–6:30PM)" "Midday" = true) from rfl,
        Bool.true_and, Bool.false_and, Bool.and_false, if_false] at hok
      by_cases hcrew : strStartsWith (vget σ e (d - 1)) "Crew"
      · rw [if_pos hcrew] at hok; exact absurd hok (by decide)
      · have h2 : vget σ e (d - 1) ≠ SH_CREW_LABEL := by
          intro hc
          rw [hc] at hcrew
          exact hcrew (by decide)
        simp [restViolation, h2, FD_AM_LABELS, FD_PM_LABELS, FD_AUDIT_LABELS,
          SH_AM_LABEL, SH_MIDDAY_LABEL]
    · -- shuttle PM: never the "next" of any rest rule
      exact restViolation_next_false (by decide) (by decide) (by decide) (by decide) _
    · -- shuttle Crew: never the "next" of any rest rule
      exact restViolation_next_false (by decide) (by decide) (by decide) (by decide) _

/-- A Shuttle label written on day `d` is rest-safe towards day `d + 1` as long
as that later cell holds no shuttle AM or Midday label. -/
theorem sh_prev_safe {v next : String} (hv : v ∈ sh_variant_list)
    (h1 : next ≠ SH_AM_LABEL) (h2 : next ≠ SH_MIDDAY_LABEL) :
    restViolation v next = false := by
  simp only [SH_AM_LABEL] at h1
  simp only [SH_MIDDAY_LABEL] at h2
  simp only [sh_variant_list, List.mem_cons, List.not_mem_nil, or_false] at hv
  rcases hv with rfl | rfl | rfl | rfl <;>
    simp [restViolation, h1, h2, FD_AM_LABELS, FD_PM_LABELS, FD_AUDIT_LABELS,
      SH_AM_LABEL, SH_MIDDAY_LABEL, SH_PM_LABEL, SH_CREW_LABEL]

/-- A Front Desk label (from any variant's options) is never a shuttle AM or
Midday label. -/
theorem fd_opts_not_sh {vp : String × List String} {L : String}
    (hvp : vp ∈ fd_variant_opts) (hL : L ∈ vp.2) :
    L ≠ SH_AM_LABEL ∧ L ≠ SH_MIDDAY_LABEL := by
  simp only [fd_variant_opts, List.mem_cons, List.not_mem_nil, or_false] at hvp
  rcases hvp with rfl | rfl | rfl <;> dsimp only at hL <;>
    simp only [List.mem_cons, List.not_mem_nil, or_false] at hL <;>
    rcases hL with rfl | rfl <;> exact ⟨by decide, by decide⟩

/-! ### Bulk-write and reset-week characterization -/

theorem vget_vset_all_ne (eid : Nat) (c : String) :
    ∀ (ds : List Int) (m : VMap) (x : Nat) (d : Int), (x ≠ eid ∨ d ∉ ds) →
      vget (vset_all eid c ds m) x d = vget m x d := by
  intro ds
  induction ds with
  | nil => intro m x d _; rfl
  | cons dd tl ih =>
      intro m x d h
      have hstep : vset_all eid c (dd :: tl) m = vset_all eid c tl (vset m eid dd c) := rfl
      have h' : x ≠ eid ∨ d ∉ tl := by
        rcases h with h | h
        · exact Or.inl h
        · exact Or.inr (fun hm => h (List.mem_cons_of_mem _ hm))
      rw [hstep, ih _ _ _ h']
      refine vget_vset_ne _ _ ?_
      rintro ⟨rfl, rfl⟩
      rcases h with h | h
      · exact h rfl
      · exact h (List.mem_cons_self _ _)

theorem vget_vset_all_mem (eid : Nat) (c : String) :
    ∀ (ds : List Int) (m : VMap) (d : Int), d ∈ ds →
      vget (vset_all eid c ds m) eid d = c := by
  intro ds
  induction ds with
  | nil => intro m d h; exact absurd h (List.not_mem_nil d)
  | cons dd tl ih =>
      intro m d h
      have hstep : vset_all eid c (dd :: tl) m = vset_all eid c tl (vset m eid dd c) := rfl
      by_cases hm : d ∈ tl
      · rw [hstep]; exact ih _ _ hm
      · have hd : d = dd := by
          rcases List.mem_cons.1 h with h' | h'
          · exact h'
          · exact absurd h' hm
        rw [hstep, vget_vset_all_ne eid c tl _ eid d (Or.inr hm), hd]
        exact vget_vset_same _ _ _ _

theorem reset_fold_value_ne (c : String) (ds : List Int) :
    ∀ (emps : List Employee) (m : VMap) (x : Nat) (d : Int),
      (x ∉ emps.map (fun e => e.id) ∨ d ∉ ds) →
      vget (emps.foldl (fun m emp => vset_all emp.id c ds m) m) x d = vget m x d := by
  intro emps
  induction emps with
  | nil => intro m x d _; rfl
  | cons emp tl ih =>
      intro m x d h
      have h' : x ∉ tl.map (fun e => e.id) ∨ d ∉ ds := by
        rcases h with h | h
        · exact Or.inl (fun hm => h (by simp only [List.map_cons, List.mem_cons]; exact Or.inr hm))
        · exact Or.inr h
      rw [List.foldl_cons, ih _ _ _ h']
      refine vget_vset_all_ne _ _ _ _ _ _ ?_
      rcases h with h | h
      · exact Or.inl (fun hx => h (by simp [hx]))
      · exact Or.inr h

theorem reset_fold_value_mem (c : String) (ds : List Int) :
    ∀ (emps : List Employee) (m : VMap) (x : Nat) (d : Int),
      x ∈ emps.map (fun e => e.id) → d ∈ ds →
      vget (emps.foldl (fun m emp => vset_all emp.id c ds m) m) x d = c := by
  intro emps
  induction emps with
  | nil => intro m x d h _; exact absurd h (List.not_mem_nil x)
  | cons emp tl ih =>
      intro m x d h hd
      rw [List.foldl_cons]
      by_cases hm : x ∈ tl.map (fun e => e.id)
      · exact ih _ _ _ hm hd
      · have hx : x = emp.id := by
          simp only [List.map_cons, List.mem_cons] at h
          rcases h with h' | h'
          · exact h'
          · exact absurd h' hm
        rw [reset_fold_value_ne c ds tl _ x d (Or.inl hm), hx]
        exact vget_vset_all_mem _ _ _ _ _ hd

/-- After the week reset, every employee's cell in the week reads `"Set"`. -/
theorem reset_week_vget_set {db : DB} {s : Int} {ws : WState} {e : Nat} {d : Int}
    (he : e ∈ EmpIds db) (h1 : s ≤ d) (h2 : d < s + 7) :
    vget (reset_week db s ws).value e d = "Set" := by
  unfold reset_week
  exact reset_fold_value_mem _ _ _ _ _ _ he (mem_daterange.2 ⟨h1, by exact_mod_cast h2⟩)

/-- The week reset leaves cells outside the week untouched. -/
theorem reset_week_vget_out {db : DB} {s : Int} {ws : WState} {e : Nat} {d : Int}
    (h : d < s ∨ s + 7 ≤ d) :
    vget (reset_week db s ws).value e d = vget ws.value e d := by
  unfold reset_week
  refine reset_fold_value_ne _ _ _ _ _ _ (Or.inr ?_)
  intro hm
  rw [mem_daterange] at hm
  rcases h with h | h
  · omega
  · have : d < s + (7 : Nat) := hm.2
    have h7 : ((7 : Nat) : Int) = 7 := rfl
    omega

/-! ### Invariant preservation by one cell write -/

/-- A single value write preserves the week's rest-rule invariant as soon as it
is rest-safe against the previous day's current value and, for an employee of
the database writing inside the week, safe towards the next day's current
value. -/
theorem GoodW_vset_safe {db : DB} {s : Int} {σ : VMap} {eid : Nat} {d : Int} {L : String}
    (hb : restViolation (vget σ eid (d - 1)) L = false)
    (hf : eid ∈ EmpIds db → d < s + 6 → restViolation L (vget σ eid (d + 1)) = false)
    (hG : GoodW db s σ) : GoodW db s (vset σ eid d L) := by
  intro e he i hi
  by_cases hnext : e = eid ∧ s + (i : Int) = d
  · obtain ⟨rfl, hd⟩ := hnext
    have h1 : vget (vset σ e d L) e (s + (i : Int) - 1) = vget σ e (s + (i : Int) - 1) :=
      vget_vset_ne _ _ (by rintro ⟨-, hc⟩; omega)
    have h2 : vget (vset σ e d L) e (s + (i : Int)) = L := by
      rw [hd]; exact vget_vset_same _ _ _ _
    rw [h1, h2, show s + (i : Int) - 1 = d - 1 by omega]
    exact hb
  · by_cases hprev : e = eid ∧ s + (i : Int) - 1 = d
    · obtain ⟨rfl, hd⟩ := hprev
      have h1 : vget (vset σ e d L) e (s + (i : Int) - 1) = L := by
        rw [hd]; exact vget_vset_same _ _ _ _
      have h2 : vget (vset σ e d L) e (s + (i : Int)) = vget σ e (s + (i : Int)) :=
        vget_vset_ne _ _ (by rintro ⟨-, hc⟩; omega)
      rw [h1, h2, show s + (i : Int) = d + 1 by omega]
      have hd6 : d < s + 6 := by
        have : (i : Int) ≤ 6 := by exact_mod_cast hi
        omega
      exact hf he hd6
    · have h1 : vget (vset σ eid d L) e (s + (i : Int) - 1) = vget σ e (s + (i : Int) - 1) :=
        vget_vset_ne _ _ (fun hc => hprev hc)
      have h2 : vget (vset σ eid d L) e (s + (i : Int)) = vget σ e (s + (i : Int)) :=
        vget_vset_ne _ _ (fun hc => hnext hc)
      rw [h1, h2]
      exact hG e he i hi

/-- Writing a non-shuttle-morning label anywhere preserves the no-shuttle-
morning invariant. -/
theorem NoShMid_vset {db : DB} {s : Int} {n : Nat} {σ : VMap} {eid : Nat} {d : Int}
    {L : String} (hL1 : L ≠ SH_AM_LABEL) (hL2 : L ≠ SH_MIDDAY_LABEL)
    (h : NoShMid db s n σ) : NoShMid db s n (vset σ eid d L) := by
  intro e he j hj1 hj2
  by_cases hc : e = eid ∧ s + (j : Int) = d
  · obtain ⟨rfl, hd⟩ := hc
    have h1 : vget (vset σ e d L) e (s + (j : Int)) = L := by
      rw [hd]; exact vget_vset_same _ _ _ _
    rw [h1]
    exact ⟨hL1, hL2⟩
  · rw [vget_vset_ne _ _ hc]
    exact h e he j hj1 hj2

/-- Writing at a date before the still-placeholder range preserves that range. -/
theorem LaterSet_vset_away {db : DB} {s : Int} {n : Nat} {σ : VMap} {eid : Nat} {d : Int}
    {L : String} (hd : ∀ j : Nat, n ≤ j → j ≤ 6 → s + (j : Int) ≠ d)
    (h : LaterSet db s n σ) : LaterSet db s n (vset σ eid d L) := by
  intro e he j hj1 hj2
  rw [vget_vset_ne _ _ (fun hc => hd j hj1 hj2 hc.2)]
  exact h e he j hj1 hj2

/-- Writing at a date before the shuttle-clean range preserves that range. -/
theorem NoShMid_vset_away {db : DB} {s : Int} {n : Nat} {σ : VMap} {eid : Nat} {d : Int}
    {L : String} (hd : ∀ j : Nat, n ≤ j → j ≤ 6 → s + (j : Int) ≠ d)
    (h : NoShMid db s n σ) : NoShMid db s n (vset σ eid d L) := by
  intro e he j hj1 hj2
  rw [vget_vset_ne _ _ (fun hc => hd j hj1 hj2 hc.2)]
  exact h e he j hj1 hj2

/-! ### The collection loops never change the value column -/

theorem fd_collect_step_value (ctx : GenCtx) (d : Int) (variant : String)
    (acc : List Nat × WState) (eid : Nat) :
    (fd_collect_step ctx d variant acc eid).2.value = acc.2.value := by
  unfold fd_collect_step _mark_dismissed
  dsimp only
  repeat' split
  all_goals rfl

theorem fd_collect_fold_value (ctx : GenCtx) (d : Int) (variant : String) :
    ∀ (pool : List Nat) (acc : List Nat × WState),
      (pool.foldl (fd_collect_step ctx d variant) acc).2.value = acc.2.value := by
  intro pool
  induction pool with
  | nil => intro acc; rfl
  | cons x xs ih =>
      intro acc
      rw [List.foldl_cons, ih, fd_collect_step_value]

theorem fd_collect_value (ctx : GenCtx) (ws : WState) (d : Int) (variant : String)
    (pool : List Nat) : (fd_collect ctx ws d variant pool).2.value = ws.value :=
  fd_collect_fold_value ctx d variant pool ([], ws)

theorem bb_collect_step_value (ctx : GenCtx) (reserved : Int → List Nat) (d : Int)
    (shift : String) (acc : List Nat × WState) (eid : Nat) :
    (bb_collect_step ctx reserved d shift acc eid).2.value = acc.2.value := by
  unfold bb_collect_step _mark_dismissed
  dsimp only
  repeat' split
  all_goals rfl

theorem bb_collect_value (ctx : GenCtx) (reserved : Int → List Nat) (ws : WState) (d : Int)
    (shift : String) (pool : List Nat) :
    (bb_collect ctx reserved ws d shift pool).2.value = ws.value := by
  unfold bb_collect
  generalize hacc : (([], ws) : List Nat × WState) = acc
  have hval : acc.2.value = ws.value := by rw [← hacc]
  clear hacc
  induction pool generalizing acc with
  | nil => exact hval
  | cons x xs ih =>
      rw [List.foldl_cons]
      exact ih _ (by rw [bb_collect_step_value]; exact hval)

theorem sh_collect_step_value (ctx : GenCtx) (reserved : Int → List Nat) (d : Int)
    (v : String) (acc : List Nat × WState) (eid : Nat) :
    (sh_collect_step ctx reserved d v acc eid).2.value = acc.2.value := by
  unfold sh_collect_step _mark_dismissed
  dsimp only
  repeat' split
  all_goals rfl

theorem sh_collect_value (ctx : GenCtx) (reserved : Int → List Nat) (ws : WState) (d : Int)
    (v : String) (pool : List Nat) :
    (sh_collect ctx reserved ws d v pool).2.value = ws.value := by
  unfold sh_collect
  generalize hacc : (([], ws) : List Nat × WState) = acc
  have hval : acc.2.value = ws.value := by rw [← hacc]
  clear hacc
  induction pool generalizing acc with
  | nil => exact hval
  | cons x xs ih =>
      rw [List.foldl_cons]
      exact ih _ (by rw [sh_collect_step_value]; exact hval)

/-! ### Membership facts for the picking and stagger steps -/

theorem getD_mem_of_lt (l : List String) (n : Nat) (d : String) (h : n < l.length) :
    l.getD n d ∈ l := by
  induction l generalizing n with
  | nil => simp at h
  | cons x xs ih =>
      cases n with
      | zero => simp
      | succ k =>
          rw [List.getD_cons_succ]
          exact List.mem_cons_of_mem _ (ih k (by simpa using h))

theorem getLastD_mem (l : List String) (d : String) (h : l ≠ []) : l.getLastD d ∈ l := by
  induction l with
  | nil => exact absurd rfl h
  | cons x xs ih =>
      cases xs with
      | nil => simp [List.getLastD]
      | cons y ys =>
          have hstep : (x :: y :: ys).getLastD d = (y :: ys).getLastD d := by
            simp [List.getLastD]
          rw [hstep]
          exact List.mem_cons_of_mem _ (ih (by simp))

theorem snd_mem_of_mem_enumFrom {α : Type} :
    ∀ (l : List α) (n : Nat) (p : Nat × α), p ∈ l.enumFrom n → p.2 ∈ l := by
  intro l
  induction l with
  | nil => intro n p h; simp [List.enumFrom] at h
  | cons x xs ih =>
      intro n p h
      rw [List.enumFrom] at h
      rcases List.mem_cons.1 h with rfl | h'
      · exact List.mem_cons_self _ _
      · exact List.mem_cons_of_mem _ (ih (n + 1) p h')

theorem snd_mem_of_mem_enum {α : Type} {l : List α} {p : Nat × α} (h : p ∈ l.enum) :
    p.2 ∈ l := snd_mem_of_mem_enumFrom l 0 p h

/-- Every pair produced by the stagger-label placement pairs one of the picks
with one of the variant's concrete labels. -/
theorem fd_stagger_mem {names : Nat → String} {picks : List Nat} {opts : List String}
    {pr : Nat × String} (hop : opts ≠ []) (h : pr ∈ fd_stagger_labels names picks opts) :
    pr.1 ∈ picks ∧ pr.2 ∈ opts := by
  unfold fd_stagger_labels at h
  dsimp only at h
  obtain ⟨p, hp, hpr⟩ := List.mem_map.1 h
  have hp2 : p.2 ∈ stableSortBy (fun e => [(_seniority_rank names e : Int)]) picks :=
    snd_mem_of_mem_enum hp
  rw [mem_stableSortBy] at hp2
  subst hpr
  refine ⟨hp2, ?_⟩
  dsimp only
  by_cases h1 : ((stableSortBy (fun e => [(_seniority_rank names e : Int)]) picks).length == 1
      && names p.2 == "Ryan" && decide (1 < opts.length)) = true
  · rw [if_pos h1]
    have hlt : 1 < opts.length := by
      simp only [Bool.and_eq_true, decide_eq_true_eq] at h1
      exact h1.2
    exact getD_mem_of_lt _ _ _ hlt
  · rw [if_neg h1]
    by_cases h2 : decide (p.1 < opts.length) = true
    · rw [if_pos h2]
      exact getD_mem_of_lt _ _ _ (by simpa using h2)
    · rw [if_neg h2]
      exact getLastD_mem _ _ hop

/-- A `pick_best` winner passed the rest-rule filter on the current state. -/
theorem pick_best_rest {db : DB} {ws : WState} {dte : Int} {cand : List Nat}
    {role label : String} {p : Nat} (h : pick_best db ws dte cand role label = some p) :
    p ∈ cand ∧ rest_ok ws.value p dte role label = true := by
  have hm := pick_best_mem h
  refine ⟨hm.1, ?_⟩
  have := hm.2
  rw [Bool.and_eq_true] at this
  exact this.2

/-- Every pick of the Front Desk two-slot loop passed the rest-rule filter. -/
theorem fd_picks_rest {db : DB} {ws : WState} {d : Int} {variant : String}
    {cand : List Nat} {q : Nat} (hq : q ∈ fd_picks db ws d variant cand) :
    rest_ok ws.value q d "Front Desk" variant = true := by
  unfold fd_picks at hq
  rcases h1 : pick_best db ws d cand "Front Desk" variant with _ | p1
  · rw [h1] at hq; simp at hq
  · rw [h1] at hq
    dsimp only at hq
    rcases h2 : pick_best db ws d (cand.filter (fun e => e != p1)) "Front Desk" variant
        with _ | p2
    · rw [h2] at hq
      dsimp only at hq
      simp only [List.mem_cons, List.not_mem_nil, or_false] at hq
      subst hq
      exact (pick_best_rest h1).2
    · rw [h2] at hq
      dsimp only at hq
      simp only [List.mem_cons, List.not_mem_nil, or_false] at hq
      rcases hq with rfl | rfl
      · exact (pick_best_rest h1).2
      · exact (pick_best_rest h2).2

/-! ### Front Desk pass: invariant preservation -/

theorem LaterSet_mono {db : DB} {s : Int} {σ : VMap} {n m : Nat} (h : n ≤ m)
    (hL : LaterSet db s n σ) : LaterSet db s m σ :=
  fun e he j hj1 hj2 => hL e he j (le_trans h hj1) hj2

theorem NoShMid_mono {db : DB} {s : Int} {σ : VMap} {n m : Nat} (h : n ≤ m)
    (hL : NoShMid db s n σ) : NoShMid db s m σ :=
  fun e he j hj1 hj2 => hL e he j (le_trans h hj1) hj2

theorem fd_variant_opts_ne_nil : ∀ vp ∈ fd_variant_opts, vp.2 ≠ [] := by decide

/-- The write loop of one Front Desk (day, variant) step preserves the three
invariants, provided every queued assignment is rest-safe against the fixed
pre-write state and writes no shuttle-morning label. -/
theorem fd_fold_inv (db : DB) (s : Int) (n : Nat) (variant : String) (σ0 : VMap) :
    ∀ (assigns : List (Nat × String)),
      (∀ pr ∈ assigns, restViolation (vget σ0 pr.1 (s + (n : Int) - 1)) pr.2 = false) →
      (∀ pr ∈ assigns, pr.2 ≠ SH_AM_LABEL ∧ pr.2 ≠ SH_MIDDAY_LABEL) →
      ∀ (acc : List Nat × WState),
      (∀ (x : Nat) (dd : Int), dd ≠ s + (n : Int) → vget acc.2.value x dd = vget σ0 x dd) →
      GoodW db s acc.2.value → LaterSet db s (n + 1) acc.2.value →
      NoShMid db s 0 acc.2.value →
      GoodW db s ((assigns.foldl (fd_write_step (s + (n : Int)) variant) acc).2.value) ∧
      LaterSet db s (n + 1)
        ((assigns.foldl (fd_write_step (s + (n : Int)) variant) acc).2.value) ∧
      NoShMid db s 0 ((assigns.foldl (fd_write_step (s + (n : Int)) variant) acc).2.value) := by
  intro assigns
  induction assigns with
  | nil =>
      intro _ _ acc _ hG hLS hNS
      exact ⟨hG, hLS, hNS⟩
  | cons pr tl ih =>
      intro hbA hLA acc hagree hG hLS hNS
      rw [List.foldl_cons]
      have hv : (fd_write_step (s + (n : Int)) variant acc pr).2.value
          = vset acc.2.value pr.1 (s + (n : Int)) pr.2 := rfl
      have hb : restViolation (vget acc.2.value pr.1 (s + (n : Int) - 1)) pr.2 = false := by
        rw [hagree _ _ (by omega)]
        exact hbA pr (List.mem_cons_self _ _)
      have hG' : GoodW db s (fd_write_step (s + (n : Int)) variant acc pr).2.value := by
        rw [hv]
        refine GoodW_vset_safe hb ?_ hG
        intro hm hd
        have hn6 : n + 1 ≤ 6 := by omega
        have hset : vget acc.2.value pr.1 (s + ((n + 1 : Nat) : Int)) = "Set" :=
          hLS pr.1 hm (n + 1) le_rfl hn6
        rw [show s + (n : Int) + 1 = s + ((n + 1 : Nat) : Int) by push_cast; ring, hset]
        exact restViolation_set_next _
      have hLS' : LaterSet db s (n + 1) (fd_write_step (s + (n : Int)) variant acc pr).2.value := by
        rw [hv]
        exact LaterSet_vset_away (by intro j h1 h2 hc; omega) hLS
      have hNS' : NoShMid db s 0 (fd_write_step (s + (n : Int)) variant acc pr).2.value := by
        rw [hv]
        exact NoShMid_vset (hLA pr (List.mem_cons_self _ _)).1
          (hLA pr (List.mem_cons_self _ _)).2 hNS
      have hagree' : ∀ (x : Nat) (dd : Int), dd ≠ s + (n : Int) →
          vget (fd_write_step (s + (n : Int)) variant acc pr).2.value x dd = vget σ0 x dd := by
        intro x dd hdd
        rw [hv, vget_vset_ne _ _ (fun hc => hdd hc.2)]
        exact hagree x dd hdd
      exact ih (fun q hq => hbA q (List.mem_cons_of_mem _ hq))
        (fun q hq => hLA q (List.mem_cons_of_mem _ hq)) _ hagree' hG' hLS' hNS'

/-- One Front Desk (day, variant) step preserves the three invariants. -/
theorem fd_process_variant_inv (ctx : GenCtx) (s : Int) (n : Nat) (hn : n ≤ 6)
    (acc : List Nat × WState) (vp : String × List String) (hvp : vp ∈ fd_variant_opts)
    (hG : GoodW ctx.db s acc.2.value) (hLS : LaterSet ctx.db s (n + 1) acc.2.value)
    (hNS : NoShMid ctx.db s 0 acc.2.value) :
    GoodW ctx.db s ((fd_process_variant ctx (s + (n : Int)) acc vp).2.value) ∧
    LaterSet ctx.db s (n + 1) ((fd_process_variant ctx (s + (n : Int)) acc vp).2.value) ∧
    NoShMid ctx.db s 0 ((fd_process_variant ctx (s + (n : Int)) acc vp).2.value) := by
  unfold fd_process_variant
  dsimp only
  have hcv : (fd_collect ctx acc.2 (s + (n : Int)) vp.1 acc.1).2.value = acc.2.value :=
    fd_collect_value ctx acc.2 (s + (n : Int)) vp.1 acc.1
  split
  · rw [hcv]
    exact ⟨hG, hLS, hNS⟩
  · refine fd_fold_inv ctx.db s n vp.1 acc.2.value _ ?_ ?_ _ ?_ ?_ ?_ ?_
    · intro pr hpr
      obtain ⟨hp, hl⟩ := fd_stagger_mem (fd_variant_opts_ne_nil vp hvp) hpr
      have hro := fd_picks_rest hp
      rw [hcv] at hro
      exact fd_write_rest_safe hvp hl hro
    · intro pr hpr
      obtain ⟨hp, hl⟩ := fd_stagger_mem (fd_variant_opts_ne_nil vp hvp) hpr
      exact fd_opts_not_sh hvp hl
    · intro x dd _
      exact congrFun (congrFun (congrArg vget hcv) x) dd
    · rw [hcv]; exact hG
    · rw [hcv]; exact hLS
    · rw [hcv]; exact hNS

/-! ### Front Desk pass: locality and day/pass composition -/

theorem fd_write_fold_vget_ne (d : Int) (variant : String) :
    ∀ (assigns : List (Nat × String)) (acc : List Nat × WState) (x : Nat) (dd : Int),
      dd ≠ d →
      vget ((assigns.foldl (fd_write_step d variant) acc).2.value) x dd
        = vget acc.2.value x dd := by
  intro assigns
  induction assigns with
  | nil => intro acc x dd _; rfl
  | cons pr tl ih =>
      intro acc x dd h
      rw [List.foldl_cons, ih _ _ _ h]
      exact vget_vset_ne _ _ (fun hc => h hc.2)

theorem fd_process_variant_vget_ne (ctx : GenCtx) (d : Int) (acc : List Nat × WState)
    (vp : String × List String) (x : Nat) (dd : Int) (h : dd ≠ d) :
    vget ((fd_process_variant ctx d acc vp).2.value) x dd = vget acc.2.value x dd := by
  unfold fd_process_variant
  dsimp only
  split
  · rw [fd_collect_value]
  · rw [fd_write_fold_vget_ne d vp.1 _ _ _ _ h]
    rw [show ((acc.1, (fd_collect ctx acc.2 d vp.1 acc.1).2) : List Nat × WState).2.value
        = (fd_collect ctx acc.2 d vp.1 acc.1).2.value from rfl, fd_collect_value]

theorem fd_vps_fold_vget_ne (ctx : GenCtx) (d : Int) :
    ∀ (vps : List (String × List String)) (acc : List Nat × WState) (x : Nat) (dd : Int),
      dd ≠ d →
      vget ((vps.foldl (fd_process_variant ctx d) acc).2.value) x dd
        = vget acc.2.value x dd := by
  intro vps
  induction vps with
  | nil => intro acc x dd _; rfl
  | cons vp tl ih =>
      intro acc x dd h
      rw [List.foldl_cons, ih _ _ _ h, fd_process_variant_vget_ne ctx d acc vp x dd h]

theorem fd_day_vget_ne (ctx : GenCtx) (d : Int) (ws : WState) (x : Nat) (dd : Int)
    (h : dd ≠ d) : vget (fd_day ctx d ws).value x dd = vget ws.value x dd := by
  unfold fd_day
  exact fd_vps_fold_vget_ne ctx d fd_variant_opts (ctx.fd_emp_ids, ws) x dd h

theorem fd_vps_fold_inv (ctx : GenCtx) (s : Int) (n : Nat) (hn : n ≤ 6) :
    ∀ (vps : List (String × List String)), (∀ vp ∈ vps, vp ∈ fd_variant_opts) →
    ∀ (acc : List Nat × WState),
      GoodW ctx.db s acc.2.value → LaterSet ctx.db s (n + 1) acc.2.value →
      NoShMid ctx.db s 0 acc.2.value →
      GoodW ctx.db s ((vps.foldl (fd_process_variant ctx (s + (n : Int))) acc).2.value) ∧
      LaterSet ctx.db s (n + 1)
        ((vps.foldl (fd_process_variant ctx (s + (n : Int))) acc).2.value) ∧
      NoShMid ctx.db s 0 ((vps.foldl (fd_process_variant ctx (s + (n : Int))) acc).2.value) := by
  intro vps
  induction vps with
  | nil => intro _ acc hG hLS hNS; exact ⟨hG, hLS, hNS⟩
  | cons vp tl ih =>
      intro hsub acc hG hLS hNS
      rw [List.foldl_cons]
      obtain ⟨hG1, hLS1, hNS1⟩ :=
        fd_process_variant_inv ctx s n hn acc vp (hsub vp (List.mem_cons_self _ _)) hG hLS hNS
      exact ih (fun q hq => hsub q (List.mem_cons_of_mem _ hq)) _ hG1 hLS1 hNS1

/-- One Front Desk day preserves the rest invariant and advances the
still-placeholder range by one day. -/
theorem fd_day_inv (ctx : GenCtx) (s : Int) (n : Nat) (hn : n ≤ 6) (ws : WState)
    (hG : GoodW ctx.db s ws.value) (hLS : LaterSet ctx.db s n ws.value)
    (hNS : NoShMid ctx.db s 0 ws.value) :
    GoodW ctx.db s (fd_day ctx (s + (n : Int)) ws).value ∧
    LaterSet ctx.db s (n + 1) (fd_day ctx (s + (n : Int)) ws).value ∧
    NoShMid ctx.db s 0 (fd_day ctx (s + (n : Int)) ws).value := by
  unfold fd_day
  exact fd_vps_fold_inv ctx s n hn fd_variant_opts (fun vp h => h) (ctx.fd_emp_ids, ws)
    hG (LaterSet_mono (Nat.le_succ n) hLS) hNS

/-- The whole Front Desk pass preserves the rest invariant. -/
theorem fd_pass_inv (ctx : GenCtx) (s : Int) :
    ∀ (n : Nat), n ≤ 7 → ∀ (ws : WState),
      GoodW ctx.db s ws.value → LaterSet ctx.db s 0 ws.value → NoShMid ctx.db s 0 ws.value →
      GoodW ctx.db s (fd_pass ctx s n ws).value ∧
      LaterSet ctx.db s n (fd_pass ctx s n ws).value ∧
      NoShMid ctx.db s 0 (fd_pass ctx s n ws).value := by
  intro n
  induction n with
  | zero => intro _ ws hG hLS hNS; exact ⟨hG, hLS, hNS⟩
  | succ n ih =>
      intro hn ws hG hLS hNS
      obtain ⟨hG1, hLS1, hNS1⟩ := ih (by omega) ws hG hLS hNS
      exact fd_day_inv ctx s n (by omega) (fd_pass ctx s n ws) hG1 hLS1 hNS1

/-! ### Breakfast Bar pass: invariant preservation and locality -/

theorem bb_not_sh : ∀ L ∈ bb_shift_list, L ≠ SH_AM_LABEL ∧ L ≠ SH_MIDDAY_LABEL := by decide

theorem bb_process_shift_inv (ctx : GenCtx) (reserved : Int → List Nat) {s : Int} (d : Int)
    (acc : List Nat × WState) (shift : String) (hsh : shift ∈ bb_shift_list)
    (hG : GoodW ctx.db s acc.2.value) (hNS : NoShMid ctx.db s 0 acc.2.value) :
    GoodW ctx.db s ((bb_process_shift ctx reserved d acc shift).2.value) ∧
    NoShMid ctx.db s 0 ((bb_process_shift ctx reserved d acc shift).2.value) := by
  unfold bb_process_shift
  dsimp only
  have hcv : (bb_collect ctx reserved acc.2 d shift acc.1).2.value = acc.2.value :=
    bb_collect_value ctx reserved acc.2 d shift acc.1
  have hGc : GoodW ctx.db s (bb_collect ctx reserved acc.2 d shift acc.1).2.value := by
    rw [hcv]; exact hG
  have hNSc : NoShMid ctx.db s 0 (bb_collect ctx reserved acc.2 d shift acc.1).2.value := by
    rw [hcv]; exact hNS
  split
  · exact ⟨hGc, hNSc⟩
  · constructor
    · exact GoodW_vset_safe (restViolation_bb_next hsh _)
        (fun _ _ => restViolation_bb_prev hsh _) hGc
    · exact NoShMid_vset (bb_not_sh _ hsh).1 (bb_not_sh _ hsh).2 hNSc

theorem bb_process_shift_vget_ne (ctx : GenCtx) (reserved : Int → List Nat) (d : Int)
    (acc : List Nat × WState) (shift : String) (x : Nat) (dd : Int) (h : dd ≠ d) :
    vget ((bb_process_shift ctx reserved d acc shift).2.value) x dd
      = vget acc.2.value x dd := by
  unfold bb_process_shift
  dsimp only
  have hcv : (bb_collect ctx reserved acc.2 d shift acc.1).2.value = acc.2.value :=
    bb_collect_value ctx reserved acc.2 d shift acc.1
  split
  · exact congrFun (congrFun (congrArg vget hcv) x) dd
  · rw [show vget ((apply_assignment (bb_collect ctx reserved acc.2 d shift acc.1).2 _ d shift
        "Breakfast Bar" (_pref_token "Breakfast Bar" shift)).value) x dd
        = vget (vset (bb_collect ctx reserved acc.2 d shift acc.1).2.value _ d shift) x dd
        from rfl, vget_vset_ne _ _ (fun hc => h hc.2)]
    exact congrFun (congrFun (congrArg vget hcv) x) dd

theorem bb_day_inv (ctx : GenCtx) (reserved : Int → List Nat) {s : Int} (d : Int)
    (ws : WState) (hG : GoodW ctx.db s ws.value) (hNS : NoShMid ctx.db s 0 ws.value) :
    GoodW ctx.db s (bb_day ctx reserved d ws).value ∧
    NoShMid ctx.db s 0 (bb_day ctx reserved d ws).value := by
  unfold bb_day
  have hgen : ∀ (shifts : List String), (∀ L ∈ shifts, L ∈ bb_shift_list) →
      ∀ (acc : List Nat × WState), GoodW ctx.db s acc.2.value →
      NoShMid ctx.db s 0 acc.2.value →
      GoodW ctx.db s ((shifts.foldl (bb_process_shift ctx reserved d) acc).2.value) ∧
      NoShMid ctx.db s 0 ((shifts.foldl (bb_process_shift ctx reserved d) acc).2.value) := by
    intro shifts
    induction shifts with
    | nil => intro _ acc h1 h2; exact ⟨h1, h2⟩
    | cons L tl ih =>
        intro hsub acc h1 h2
        rw [List.foldl_cons]
        obtain ⟨h1', h2'⟩ := bb_process_shift_inv ctx reserved d acc L
          (hsub L (List.mem_cons_self _ _)) h1 h2
        exact ih (fun q hq => hsub q (List.mem_cons_of_mem _ hq)) _ h1' h2'
  exact hgen bb_shift_list (fun L h => h) (ctx.bb_emp_ids, ws) hG hNS

theorem bb_day_vget_ne (ctx : GenCtx) (reserved : Int → List Nat) (d : Int) (ws : WState)
    (x : Nat) (dd : Int) (h : dd ≠ d) :
    vget (bb_day ctx reserved d ws).value x dd = vget ws.value x dd := by
  unfold bb_day
  have hgen : ∀ (shifts : List String) (acc : List Nat × WState),
      vget ((shifts.foldl (bb_process_shift ctx reserved d) acc).2.value) x dd
        = vget acc.2.value x dd := by
    intro shifts
    induction shifts with
    | nil => intro acc; rfl
    | cons L tl ih =>
        intro acc
        rw [List.foldl_cons, ih, bb_process_shift_vget_ne ctx reserved d acc L x dd h]
  exact hgen bb_shift_list (ctx.bb_emp_ids, ws)

theorem bb_pass_inv (ctx : GenCtx) (reserved : Int → List Nat) {s : Int} :
    ∀ (n : Nat) (ws : WState), GoodW ctx.db s ws.value → NoShMid ctx.db s 0 ws.value →
      GoodW ctx.db s (bb_pass ctx reserved s n ws).value ∧
      NoShMid ctx.db s 0 (bb_pass ctx reserved s n ws).value := by
  intro n
  induction n with
  | zero => intro ws h1 h2; exact ⟨h1, h2⟩
  | succ n ih =>
      intro ws h1 h2
      obtain ⟨h1', h2'⟩ := ih ws h1 h2
      exact bb_day_inv ctx reserved (s + (n : Int)) _ h1' h2'

/-! ### Shuttle pass: invariant preservation and locality -/

theorem sh_process_variant_inv (ctx : GenCtx) (reserved : Int → List Nat) (s : Int)
    (n : Nat) (hn : n ≤ 6) (acc : List Nat × WState) (v : String) (hv : v ∈ sh_variant_list)
    (hG : GoodW ctx.db s acc.2.value) (hNS : NoShMid ctx.db s (n + 1) acc.2.value) :
    GoodW ctx.db s ((sh_process_variant ctx reserved (s + (n : Int)) acc v).2.value) ∧
    NoShMid ctx.db s (n + 1)
      ((sh_process_variant ctx reserved (s + (n : Int)) acc v).2.value) := by
  unfold sh_process_variant
  dsimp only
  have hcv : (sh_collect ctx reserved acc.2 (s + (n : Int)) v acc.1).2.value = acc.2.value :=
    sh_collect_value ctx reserved acc.2 (s + (n : Int)) v acc.1
  have hGc : GoodW ctx.db s (sh_collect ctx reserved acc.2 (s + (n : Int)) v acc.1).2.value := by
    rw [hcv]; exact hG
  have hNSc : NoShMid ctx.db s (n + 1)
      (sh_collect ctx reserved acc.2 (s + (n : Int)) v acc.1).2.value := by
    rw [hcv]; exact hNS
  split
  · exact ⟨hGc, hNSc⟩
  · rename_i p heq
    have hok := (pick_best_rest heq).2
    constructor
    · refine GoodW_vset_safe (sh_write_rest_safe hv hok) ?_ hGc
      intro hm hd
      have hn6 : n + 1 ≤ 6 := by omega
      obtain ⟨h1, h2⟩ := hNSc p hm (n + 1) le_rfl hn6
      rw [show s + (n : Int) + 1 = s + ((n + 1 : Nat) : Int) by push_cast; ring]
      exact sh_prev_safe hv h1 h2
    · exact NoShMid_vset_away (by intro j h1 h2 hc; omega) hNSc

theorem sh_process_variant_vget_ne (ctx : GenCtx) (reserved : Int → List Nat) (d : Int)
    (acc : List Nat × WState) (v : String) (x : Nat) (dd : Int) (h : dd ≠ d) :
    vget ((sh_process_variant ctx reserved d acc v).2.value) x dd
      = vget acc.2.value x dd := by
  unfold sh_process_variant
  dsimp only
  have hcv : (sh_collect ctx reserved acc.2 d v acc.1).2.value = acc.2.value :=
    sh_collect_value ctx reserved acc.2 d v acc.1
  split
  · exact congrFun (congrFun (congrArg vget hcv) x) dd
  · rw [show vget ((apply_assignment (sh_collect ctx reserved acc.2 d v acc.1).2 _ d v
        "Shuttle" (_pref_token "Shuttle" v)).value) x dd
        = vget (vset (sh_collect ctx reserved acc.2 d v acc.1).2.value _ d v) x dd
        from rfl, vget_vset_ne _ _ (fun hc => h hc.2)]
    exact congrFun (congrFun (congrArg vget hcv) x) dd

theorem sh_day_inv (ctx : GenCtx) (reserved : Int → List Nat) (s : Int) (n : Nat)
    (hn : n ≤ 6) (ws : WState) (hG : GoodW ctx.db s ws.value)
    (hNS : NoShMid ctx.db s n ws.value) :
    GoodW ctx.db s (sh_day ctx reserved (s + (n : Int)) ws).value ∧
    NoShMid ctx.db s (n + 1) (sh_day ctx reserved (s + (n : Int)) ws).value := by
  unfold sh_day
  have hgen : ∀ (vars : List String), (∀ v ∈ vars, v ∈ sh_variant_list) →
      ∀ (acc : List Nat × WState), GoodW ctx.db s acc.2.value →
      NoShMid ctx.db s (n + 1) acc.2.value →
      GoodW ctx.db s
        ((vars.foldl (sh_process_variant ctx reserved (s + (n : Int))) acc).2.value) ∧
      NoShMid ctx.db s (n + 1)
        ((vars.foldl (sh_process_variant ctx reserved (s + (n : Int))) acc).2.value) := by
    intro vars
    induction vars with
    | nil => intro _ acc h1 h2; exact ⟨h1, h2⟩
    | cons v tl ih =>
        intro hsub acc h1 h2
        rw [List.foldl_cons]
        obtain ⟨h1', h2'⟩ := sh_process_variant_inv ctx reserved s n hn acc v
          (hsub v (List.mem_cons_self _ _)) h1 h2
        exact ih (fun q hq => hsub q (List.mem_cons_of_mem _ hq)) _ h1' h2'
  exact hgen sh_variant_list (fun v h => h) (ctx.sh_emp_ids, ws) hG
    (NoShMid_mono (Nat.le_succ n) hNS)

theorem sh_day_vget_ne (ctx : GenCtx) (reserved : Int → List Nat) (d : Int) (ws : WState)
    (x : Nat) (dd : Int) (h : dd ≠ d) :
    vget (sh_day ctx reserved d ws).value x dd = vget ws.value x dd := by
  unfold sh_day
  have hgen : ∀ (vars : List String) (acc : List Nat × WState),
      vget ((vars.foldl (sh_process_variant ctx reserved d) acc).2.value) x dd
        = vget acc.2.value x dd := by
    intro vars
    induction vars with
    | nil => intro acc; rfl
    | cons v tl ih =>
        intro acc
        rw [List.foldl_cons, ih, sh_process_variant_vget_ne ctx reserved d acc v x dd h]
  exact hgen sh_variant_list (ctx.sh_emp_ids, ws)

theorem sh_pass_inv (ctx : GenCtx) (reserved : Int → List Nat) (s : Int) :
    ∀ (n : Nat), n ≤ 7 → ∀ (ws : WState),
      GoodW ctx.db s ws.value → NoShMid ctx.db s 0 ws.value →
      GoodW ctx.db s (sh_pass ctx reserved s n ws).value ∧
      NoShMid ctx.db s n (sh_pass ctx reserved s n ws).value := by
  intro n
  induction n with
  | zero => intro _ ws h1 h2; exact ⟨h1, h2⟩
  | succ n ih =>
      intro hn ws h1 h2
      obtain ⟨h1', h2'⟩ := ih (by omega) ws h1 h2
      exact sh_day_inv ctx reserved s n (by omega) _ h1' h2'

/-! ### Time-off sync and week reset: invariants -/

theorem sync_day_goodW (db' : DB) (nm : String) (eid : Nat) {db : DB} {s : Int}
    (ws2 : WState) (d : Int) (hG : GoodW db s ws2.value) :
    GoodW db s (sync_day db' nm eid ws2 d).value := by
  unfold sync_day
  split
  · exact GoodW_vset_safe (restViolation_timeoff_next _)
      (fun _ _ => restViolation_prev_false (by decide) (by decide) (by decide) (by decide) _) hG
  · exact hG

theorem sync_day_vget_ne (db' : DB) (nm : String) (eid : Nat) (ws2 : WState) (d : Int)
    (x : Nat) (dd : Int) (h : dd ≠ d) :
    vget (sync_day db' nm eid ws2 d).value x dd = vget ws2.value x dd := by
  unfold sync_day
  split
  · exact vget_vset_ne _ _ (fun hc => h hc.2)
  · rfl

theorem sync_fold_days_goodW (db' : DB) (nm : String) (eid : Nat) {db : DB} {s : Int} :
    ∀ (ds : List Int) (ws1 : WState), GoodW db s ws1.value →
      GoodW db s ((ds.foldl (sync_day db' nm eid) ws1).value) := by
  intro ds
  induction ds with
  | nil => intro ws1 h; exact h
  | cons d tl ih =>
      intro ws1 h
      rw [List.foldl_cons]
      exact ih _ (sync_day_goodW db' nm eid ws1 d h)

theorem sync_fold_days_vget_ne (db' : DB) (nm : String) (eid : Nat) (x : Nat) (dd : Int) :
    ∀ (ds : List Int) (ws1 : WState), (∀ d ∈ ds, dd ≠ d) →
      vget ((ds.foldl (sync_day db' nm eid) ws1).value) x dd = vget ws1.value x dd := by
  intro ds
  induction ds with
  | nil => intro ws1 _; rfl
  | cons d tl ih =>
      intro ws1 h
      rw [List.foldl_cons, ih _ (fun q hq => h q (List.mem_cons_of_mem _ hq)),
        sync_day_vget_ne db' nm eid ws1 d x dd (h d (List.mem_cons_self _ _))]

theorem sync_goodW (db' : DB) (s' : Int) {db : DB} {s : Int} (ws : WState)
    (hG : GoodW db s ws.value) :
    GoodW db s (sync_timeoff_to_assignments db' s' ws).value := by
  unfold sync_timeoff_to_assignments
  have hgen : ∀ (emps : List Employee) (ws1 : WState), GoodW db s ws1.value →
      GoodW db s ((emps.foldl (fun ws1 emp =>
        (daterange s' 7).foldl (sync_day db' emp.name emp.id) ws1) ws1).value) := by
    intro emps
    induction emps with
    | nil => intro ws1 h; exact h
    | cons emp tl ih =>
        intro ws1 h
        rw [List.foldl_cons]
        exact ih _ (sync_fold_days_goodW db' emp.name emp.id _ ws1 h)
  exact hgen db'.employees ws hG

theorem sync_vget_lt (db' : DB) (s' : Int) (ws : WState) (x : Nat) (dd : Int)
    (h : dd < s') :
    vget (sync_timeoff_to_assignments db' s' ws).value x dd = vget ws.value x dd := by
  unfold sync_timeoff_to_assignments
  have hds : ∀ d ∈ daterange s' 7, dd ≠ d := by
    intro d hdm
    have := mem_daterange.1 hdm
    omega
  have hgen : ∀ (emps : List Employee) (ws1 : WState),
      vget ((emps.foldl (fun ws1 emp =>
        (daterange s' 7).foldl (sync_day db' emp.name emp.id) ws1) ws1).value) x dd
        = vget ws1.value x dd := by
    intro emps
    induction emps with
    | nil => intro ws1; rfl
    | cons emp tl ih =>
        intro ws1
        rw [List.foldl_cons, ih, sync_fold_days_vget_ne db' emp.name emp.id x dd _ ws1 hds]
  exact hgen db'.employees ws

/-- The week reset establishes all three invariants outright. -/
theorem reset_week_inv (db : DB) (s : Int) (ws : WState) :
    GoodW db s (reset_week db s ws).value ∧ LaterSet db s 0 (reset_week db s ws).value ∧
    NoShMid db s 0 (reset_week db s ws).value := by
  refine ⟨?_, ?_, ?_⟩
  · intro e he i hi
    have h2 : vget (reset_week db s ws).value e (s + (i : Int)) = "Set" :=
      reset_week_vget_set he (by omega) (by omega)
    rw [h2]
    exact restViolation_set_next _
  · intro e he j _ hj2
    exact reset_week_vget_set he (by omega) (by omega)
  · intro e he j _ hj2
    rw [reset_week_vget_set he (by omega) (by omega)]
    exact ⟨by decide, by decide⟩

/-! ### One processed week satisfies the rest invariant; later weeks keep it -/

theorem processWeek_goodW (ctx : GenCtx) (s : Int) (ws : WState) :
    GoodW ctx.db s (processWeek ctx s ws).value := by
  unfold processWeek week_after_fd
  dsimp only
  obtain ⟨hG0, hLS0, hNS0⟩ := reset_week_inv ctx.db s ws
  obtain ⟨hG1, hLS1, hNS1⟩ := fd_pass_inv ctx s 7 (by omega) _ hG0 hLS0 hNS0
  obtain ⟨hG2, hNS2⟩ := bb_pass_inv ctx _ 7 _ hG1 hNS1
  obtain ⟨hG3, _⟩ := sh_pass_inv ctx _ s 7 (by omega) _ hG2 hNS2
  exact sync_goodW ctx.db s _ hG3

theorem fd_pass_vget_lt (ctx : GenCtx) (s : Int) :
    ∀ (n : Nat) (ws : WState) (x : Nat) (dd : Int), dd < s →
      vget (fd_pass ctx s n ws).value x dd = vget ws.value x dd := by
  intro n
  induction n with
  | zero => intro ws x dd _; rfl
  | succ n ih =>
      intro ws x dd h
      have hstep : fd_pass ctx s (n + 1) ws = fd_day ctx (s + (n : Int)) (fd_pass ctx s n ws) :=
        rfl
      rw [hstep, fd_day_vget_ne ctx (s + (n : Int)) _ x dd (by omega), ih ws x dd h]

theorem bb_pass_vget_lt (ctx : GenCtx) (reserved : Int → List Nat) (s : Int) :
    ∀ (n : Nat) (ws : WState) (x : Nat) (dd : Int), dd < s →
      vget (bb_pass ctx reserved s n ws).value x dd = vget ws.value x dd := by
  intro n
  induction n with
  | zero => intro ws x dd _; rfl
  | succ n ih =>
      intro ws x dd h
      have hstep : bb_pass ctx reserved s (n + 1) ws
          = bb_day ctx reserved (s + (n : Int)) (bb_pass ctx reserved s n ws) := rfl
      rw [hstep, bb_day_vget_ne ctx reserved (s + (n : Int)) _ x dd (by omega), ih ws x dd h]

theorem sh_pass_vget_lt (ctx : GenCtx) (reserved : Int → List Nat) (s : Int) :
    ∀ (n : Nat) (ws : WState) (x : Nat) (dd : Int), dd < s →
      vget (sh_pass ctx reserved s n ws).value x dd = vget ws.value x dd := by
  intro n
  induction n with
  | zero => intro ws x dd _; rfl
  | succ n ih =>
      intro ws x dd h
      have hstep : sh_pass ctx reserved s (n + 1) ws
          = sh_day ctx reserved (s + (n : Int)) (sh_pass ctx reserved s n ws) := rfl
      rw [hstep, sh_day_vget_ne ctx reserved (s + (n : Int)) _ x dd (by omega), ih ws x dd h]

theorem processWeek_vget_lt (ctx : GenCtx) (s : Int) (ws : WState) (x : Nat) (dd : Int)
    (h : dd < s) :
    vget (processWeek ctx s ws).value x dd = vget ws.value x dd := by
  unfold processWeek week_after_fd
  dsimp only
  rw [sync_vget_lt ctx.db s _ x dd h, sh_pass_vget_lt ctx _ s 7 _ x dd h,
    bb_pass_vget_lt ctx _ s 7 _ x dd h, fd_pass_vget_lt ctx s 7 _ x dd h,
    reset_week_vget_out (Or.inl h)]

theorem gen_weeks_vget_lt (ctx : GenCtx) (base : Int) (j : Nat) :
    ∀ (k : Nat), j ≤ k → ∀ (ws : WState) (x : Nat) (d : Int), d < base + 7 * (j : Int) →
      vget (gen_weeks ctx base k ws).value x d = vget (gen_weeks ctx base j ws).value x d := by
  intro k
  induction k with
  | zero =>
      intro hj ws x d _
      have : j = 0 := by omega
      subst this
      rfl
  | succ k ih =>
      intro hj ws x d hd
      by_cases hjk : j = k + 1
      · subst hjk; rfl
      · have hjk' : j ≤ k := by omega
        have hstep : gen_weeks ctx base (k + 1) ws
            = processWeek ctx (base + 7 * (k : Int)) (gen_weeks ctx base k ws) := rfl
        rw [hstep, processWeek_vget_lt ctx _ _ x d (by omega), ih hjk' ws x d hd]

theorem gen_weeks_goodW (ctx : GenCtx) (base : Int) (k w : Nat) (hw : w < k) (ws : WState) :
    GoodW ctx.db (base + 7 * (w : Int)) (gen_weeks ctx base k ws).value := by
  have hweek : GoodW ctx.db (base + 7 * (w : Int)) (gen_weeks ctx base (w + 1) ws).value :=
    processWeek_goodW ctx (base + 7 * (w : Int)) (gen_weeks ctx base w ws)
  intro e he i hi
  have hb1 : base + 7 * (w : Int) + (i : Int) - 1 < base + 7 * ((w + 1 : Nat) : Int) := by
    omega
  have hb2 : base + 7 * (w : Int) + (i : Int) < base + 7 * ((w + 1 : Nat) : Int) := by
    omega
  rw [gen_weeks_vget_lt ctx base (w + 1) k hw ws e _ hb1,
    gen_weeks_vget_lt ctx base (w + 1) k hw ws e _ hb2]
  exact hweek e he i hi

/-- C1: in every schedule produced by the 4-week generator, the rest rule holds
for every worker across every pair of consecutive dates of the 28-day horizon
(including pairs straddling a week boundary): no reception AM variant the day
after a reception PM variant, no reception PM variant the day after a reception
Audit variant, no shuttle AM the day after a shuttle PM or Crew, and no shuttle
Midday the day after a Crew. -/
theorem C1_rest_rule (db : DB) (base : Int) (ws0 : WState) (e : Nat) (he : e ∈ EmpIds db)
    (k : Nat) (hk : k ≤ 26) :
    restViolation
      (vget (generate_4_week_schedule db base ws0).value e (base + (k : Int)))
      (vget (generate_4_week_schedule db base ws0).value e (base + (k : Int) + 1)) = false := by
  obtain ⟨w, i, hdm, hi7⟩ : ∃ w i, 7 * w + i = k + 1 ∧ i < 7 :=
    ⟨(k + 1) / 7, (k + 1) % 7, Nat.div_add_mod (k + 1) 7, Nat.mod_lt _ (by omega)⟩
  have hw4 : w < 4 := by omega
  have hG := gen_weeks_goodW (mkCtx db) base 4 w hw4 ws0
  have h := hG e he i (by omega)
  unfold generate_4_week_schedule
  have e2 : base + 7 * (w : Int) + (i : Int) = base + (k : Int) + 1 := by omega
  have e1 : base + 7 * (w : Int) + (i : Int) - 1 = base + (k : Int) := by omega
  rw [← e2, ← e1]
  exact h

/-- Closed-form instantiation of `C1_rest_rule` on a concrete database, worker
and day pair. -/
theorem C1_rest_rule_witness :
    1 ∈ EmpIds dbW ∧ (0 : Nat) ≤ 26 ∧
    restViolation
      (vget (generate_4_week_schedule dbW 0 emptyW).value 1 (0 + ((0 : Nat) : Int)))
      (vget (generate_4_week_schedule dbW 0 emptyW).value 1 (0 + ((0 : Nat) : Int) + 1))
      = false :=
  ⟨by decide, by decide, C1_rest_rule dbW 0 emptyW 1 (by decide) 0 (by decide)⟩

/-! ### Claim C2: the weekly cap across departments -/

theorem week_active_count_congr {σ1 σ2 : VMap} {s : Int} {e : Nat}
    (h : ∀ d ∈ daterange s 7, vget σ1 e d = vget σ2 e d) :
    week_active_count σ1 s e = week_active_count σ2 s e := by
  unfold week_active_count
  congr 1
  apply List.filter_congr
  intro d hd
  rw [h d hd]

theorem week_label_count_congr {σ1 σ2 : VMap} {s : Int} {e : Nat} {labels : List String}
    (h : ∀ d ∈ daterange s 7, vget σ1 e d = vget σ2 e d) :
    week_label_count σ1 s e labels = week_label_count σ2 s e labels := by
  unfold week_label_count
  congr 1
  apply List.filter_congr
  intro d hd
  rw [h d hd]

/-- C2 counterexample: worker 1 of `dbC2` is a reception-desk worker with no
explicit maximum, so the claimed effective weekly cap is 5; yet the generator
gives the worker 6 non-placeholder, non-leave assignments in the first week
(five reception shifts plus one food-bar shift obtained through the worker's
secondary capability, which the food-bar pass does not count against the
reception cap). -/
theorem C2_counterexample :
    1 ∈ EmpIds dbC2 ∧
    _effective_max_for_role dbC2 1 "Front Desk" = some 5 ∧
    week_active_count (generate_4_week_schedule dbC2 3 emptyW).value 3 1 = 6 := by
  refine ⟨by decide, by decide, ?_⟩
  have htr : week_active_count (generate_4_week_schedule dbC2 3 emptyW).value 3 1
      = week_active_count (processWeek (mkCtx dbC2) 3 emptyW).value 3 1 := by
    apply week_active_count_congr
    intro d hd
    have hb := mem_daterange.1 hd
    have hlt : d < 3 + 7 * ((1 : Nat) : Int) := by
      have h2 := hb.2
      omega
    exact gen_weeks_vget_lt (mkCtx dbC2) 3 1 4 (by omega) emptyW 1 d hlt
  rw [htr]
  rfl

theorem daterange_nodup (s : Int) (n : Nat) : (daterange s n).Nodup := by
  unfold daterange
  refine List.Nodup.map ?_ (List.nodup_range n)
  intro i j h
  dsimp only at h
  omega

theorem filter_length_le_succ {l : List Int} (hl : l.Nodup) (d : Int) (p q : Int → Bool)
    (hagree : ∀ x ∈ l, x ≠ d → p x = q x) :
    (l.filter p).length ≤ (l.filter q).length + 1 := by
  induction l with
  | nil => simp
  | cons x xs ih =>
      have hx : x ∉ xs := (List.nodup_cons.1 hl).1
      have hxs : xs.Nodup := (List.nodup_cons.1 hl).2
      by_cases hxd : x = d
      · subst hxd
        have heq : xs.filter p = xs.filter q :=
          List.filter_congr (fun y hy =>
            hagree y (List.mem_cons_of_mem _ hy) (fun hyd => hx (hyd ▸ hy)))
        have hlen : (xs.filter p).length = (xs.filter q).length := by rw [heq]
        rw [List.filter_cons, List.filter_cons]
        by_cases hp : p x = true <;> by_cases hq : q x = true <;>
          simp [hp, hq] <;> omega
      · have hpq : p x = q x := hagree x (List.mem_cons_self _ _) hxd
        have hih := ih hxs (fun y hy => hagree y (List.mem_cons_of_mem _ hy))
        rw [List.filter_cons, List.filter_cons, hpq]
        by_cases hq : q x = true <;> simp [hq] <;> omega

theorem filter_length_le_of_false {l : List Int} (hl : l.Nodup) (d : Int) (p q : Int → Bool)
    (hagree : ∀ x ∈ l, x ≠ d → p x = q x) (hpd : p d = false) :
    (l.filter p).length ≤ (l.filter q).length := by
  induction l with
  | nil => simp
  | cons x xs ih =>
      have hx : x ∉ xs := (List.nodup_cons.1 hl).1
      have hxs : xs.Nodup := (List.nodup_cons.1 hl).2
      by_cases hxd : x = d
      · subst hxd
        have heq : xs.filter p = xs.filter q :=
          List.filter_congr (fun y hy =>
            hagree y (List.mem_cons_of_mem _ hy) (fun hyd => hx (hyd ▸ hy)))
        have hlen : (xs.filter p).length = (xs.filter q).length := by rw [heq]
        rw [List.filter_cons, List.filter_cons, hpd]
        by_cases hq : q x = true <;> simp [hq] <;> omega
      · have hpq : p x = q x := hagree x (List.mem_cons_self _ _) hxd
        have hih := ih hxs (fun y hy => hagree y (List.mem_cons_of_mem _ hy))
        rw [List.filter_cons, List.filter_cons, hpq]
        by_cases hq : q x = true <;> simp [hq] <;> omega

theorem week_label_count_vset_le {σ : VMap} {s : Int} {e : Nat} {d : Int} {L : String}
    {labels : List String} :
    week_label_count (vset σ e d L) s e labels ≤ week_label_count σ s e labels + 1 := by
  unfold week_label_count
  refine filter_length_le_succ (daterange_nodup s 7) d _ _ ?_
  intro x _ hxd
  rw [vget_vset_ne _ _ (fun hc => hxd hc.2)]

theorem week_label_count_vset_notin {σ : VMap} {s : Int} {e : Nat} {d : Int} {L : String}
    {labels : List String} (hL : L ∉ labels) :
    week_label_count (vset σ e d L) s e labels ≤ week_label_count σ s e labels := by
  unfold week_label_count
  refine filter_length_le_of_false (daterange_nodup s 7) d _ _ ?_ ?_
  · intro x _ hxd
    rw [vget_vset_ne _ _ (fun hc => hxd hc.2)]
  · rw [vget_vset_same]
    cases hb : labels.contains L
    · rfl
    · exact absurd (by simpa using hb) hL

theorem week_label_count_other {σ : VMap} {s : Int} {e e0 : Nat} {d : Int} {L : String}
    {labels : List String} (hne : e ≠ e0) :
    week_label_count (vset σ e0 d L) s e labels = week_label_count σ s e labels := by
  apply week_label_count_congr
  intro dd _
  exact vget_vset_ne _ _ (fun hc => hne hc.1)

/-- One recorded assignment preserves the cap invariant when the written label
is outside the tracked set or the worker's counter is strictly under every
finite effective cap for the tracked role. -/
theorem CapInv_apply {db : DB} {s : Int} {labels : List String} {role : String}
    {ws : WState} {e0 : Nat} {d : Int} {L role' token : String}
    (hL : L ∉ labels ∨ (∀ m, _effective_max_for_role db e0 role = some m →
        cget ws.assigned_counts e0 < m))
    (h : CapInv db s labels role ws) :
    CapInv db s labels role (apply_assignment ws e0 d L role' token) := by
  intro e he
  obtain ⟨hA, hB⟩ := h e he
  by_cases hne : e = e0
  · subst hne
    have hc : cget (apply_assignment ws e d L role' token).assigned_counts e
        = cget ws.assigned_counts e + 1 := cget_cset_same _ _ _
    have hv : week_label_count (apply_assignment ws e d L role' token).value s e labels
        ≤ week_label_count ws.value s e labels + 1 := week_label_count_vset_le
    constructor
    · rw [hc]
      omega
    · intro m hm
      rcases hL with hL | hguard
      · exact le_trans (week_label_count_vset_notin hL) (hB m hm)
      · have hg := hguard m hm
        omega
  · have hc : cget (apply_assignment ws e0 d L role' token).assigned_counts e
        = cget ws.assigned_counts e := cget_cset_ne _ _ hne
    have hv : week_label_count (apply_assignment ws e0 d L role' token).value s e labels
        = week_label_count ws.value s e labels := week_label_count_other hne
    rw [hv, hc]
    exact ⟨hA, hB⟩

/-! ### The collection loops never change the weekly counters -/

theorem fd_collect_step_counts (ctx : GenCtx) (d : Int) (variant : String)
    (acc : List Nat × WState) (eid : Nat) :
    (fd_collect_step ctx d variant acc eid).2.assigned_counts = acc.2.assigned_counts := by
  unfold fd_collect_step _mark_dismissed
  dsimp only
  repeat' split
  all_goals rfl

theorem fd_collect_counts (ctx : GenCtx) (ws : WState) (d : Int) (variant : String)
    (pool : List Nat) :
    (fd_collect ctx ws d variant pool).2.assigned_counts = ws.assigned_counts := by
  unfold fd_collect
  generalize hacc : (([], ws) : List Nat × WState) = acc
  have hval : acc.2.assigned_counts = ws.assigned_counts := by rw [← hacc]
  clear hacc
  induction pool generalizing acc with
  | nil => exact hval
  | cons x xs ih =>
      rw [List.foldl_cons]
      exact ih _ (by rw [fd_collect_step_counts]; exact hval)

theorem bb_collect_step_counts (ctx : GenCtx) (reserved : Int → List Nat) (d : Int)
    (shift : String) (acc : List Nat × WState) (eid : Nat) :
    (bb_collect_step ctx reserved d shift acc eid).2.assigned_counts
      = acc.2.assigned_counts := by
  unfold bb_collect_step _mark_dismissed
  dsimp only
  repeat' split
  all_goals rfl

theorem bb_collect_counts (ctx : GenCtx) (reserved : Int → List Nat) (ws : WState)
    (d : Int) (shift : String) (pool : List Nat) :
    (bb_collect ctx reserved ws d shift pool).2.assigned_counts = ws.assigned_counts := by
  unfold bb_collect
  generalize hacc : (([], ws) : List Nat × WState) = acc
  have hval : acc.2.assigned_counts = ws.assigned_counts := by rw [← hacc]
  clear hacc
  induction pool generalizing acc with
  | nil => exact hval
  | cons x xs ih =>
      rw [List.foldl_cons]
      exact ih _ (by rw [bb_collect_step_counts]; exact hval)

theorem sh_collect_step_counts (ctx : GenCtx) (reserved : Int → List Nat) (d : Int)
    (v : String) (acc : List Nat × WState) (eid : Nat) :
    (sh_collect_step ctx reserved d v acc eid).2.assigned_counts
      = acc.2.assigned_counts := by
  unfold sh_collect_step _mark_dismissed
  dsimp only
  repeat' split
  all_goals rfl

theorem sh_collect_counts (ctx : GenCtx) (reserved : Int → List Nat) (ws : WState)
    (d : Int) (v : String) (pool : List Nat) :
    (sh_collect ctx reserved ws d v pool).2.assigned_counts = ws.assigned_counts := by
  unfold sh_collect
  generalize hacc : (([], ws) : List Nat × WState) = acc
  have hval : acc.2.assigned_counts = ws.assigned_counts := by rw [← hacc]
  clear hacc
  induction pool generalizing acc with
  | nil => exact hval
  | cons x xs ih =>
      rw [List.foldl_cons]
      exact ih _ (by rw [sh_collect_step_counts]; exact hval)

/-- A `pick_best` winner's weekly counter is under every finite effective cap. -/
theorem pick_best_cap {db : DB} {ws : WState} {dte : Int} {cand : List Nat}
    {role label : String} {p : Nat} (h : pick_best db ws dte cand role label = some p) :
    ∀ m, _effective_max_for_role db p role = some m → cget ws.assigned_counts p < m := by
  intro m hm
  have hmem := (pick_best_mem h).2
  rw [Bool.and_eq_true] at hmem
  have h1 := hmem.1
  rw [hm] at h1
  simpa using h1

/-- Every Front Desk pick's counter is under every finite reception cap. -/
theorem fd_picks_cap {db : DB} {ws : WState} {d : Int} {variant : String}
    {cand : List Nat} {q : Nat} (hq : q ∈ fd_picks db ws d variant cand) :
    ∀ m, _effective_max_for_role db q "Front Desk" = some m →
      cget ws.assigned_counts q < m := by
  unfold fd_picks at hq
  rcases h1 : pick_best db ws d cand "Front Desk" variant with _ | p1
  · rw [h1] at hq; simp at hq
  · rw [h1] at hq
    dsimp only at hq
    rcases h2 : pick_best db ws d (cand.filter (fun e => e != p1)) "Front Desk" variant
        with _ | p2
    · rw [h2] at hq
      dsimp only at hq
      simp only [List.mem_cons, List.not_mem_nil, or_false] at hq
      subst hq
      exact pick_best_cap h1
    · rw [h2] at hq
      dsimp only at hq
      simp only [List.mem_cons, List.not_mem_nil, or_false] at hq
      rcases hq with rfl | rfl
      · exact pick_best_cap h1
      · exact pick_best_cap h2

/-! ### The stable sort is a permutation; distinctness of the stagger writes -/

theorem sortedInsert_perm (key : α → List Int) (x : α) (l : List α) :
    (sortedInsert key x l).Perm (x :: l) := by
  induction l with
  | nil => exact List.Perm.refl _
  | cons y ys ih =>
      rw [sortedInsert]
      by_cases h : lexLt (key y) (key x)
      · rw [if_pos h]
        exact (ih.cons y).trans (List.Perm.swap x y ys)
      · rw [if_neg h]

theorem stableSortBy_perm (key : α → List Int) (l : List α) :
    (stableSortBy key l).Perm l := by
  induction l with
  | nil => exact List.Perm.refl _
  | cons y ys ih =>
      rw [stableSortBy_cons]
      exact (sortedInsert_perm key y (stableSortBy key ys)).trans (ih.cons y)

theorem stableSortBy_nodup (key : α → List Int) {l : List α} (h : l.Nodup) :
    (stableSortBy key l).Nodup := ((stableSortBy_perm key l).nodup_iff).2 h

theorem fd_stagger_firsts (names : Nat → String) (picks : List Nat) (opts : List String) :
    (fd_stagger_labels names picks opts).map (fun pr => pr.1)
      = stableSortBy (fun e => [(_seniority_rank names e : Int)]) picks := by
  unfold fd_stagger_labels
  dsimp only
  rw [List.map_map]
  have h : ∀ (l : List Nat), (l.enum.map fun p => ((fun pr : Nat × String => pr.1)
      ((p.2, if l.length == 1 && names p.2 == "Ryan" && decide (1 < opts.length) then
        opts.getD 1 "" else if decide (p.1 < opts.length) then opts.getD p.1 ""
        else opts.getLastD "")))) = l := by
    intro l
    have h2 : ∀ (st : Nat) (l2 : List Nat) (f : Nat × Nat → Nat),
        (∀ p : Nat × Nat, f p = p.2) → (l2.enumFrom st).map f = l2 := by
      intro st l2
      induction l2 generalizing st with
      | nil => intro f _; rfl
      | cons a as ih =>
          intro f hf
          rw [List.enumFrom, List.map_cons, hf, ih (st + 1) f hf]
    exact h2 0 l _ (fun p => rfl)
  exact h (stableSortBy (fun e => [(_seniority_rank names e : Int)]) picks)

theorem fd_picks_nodup (db : DB) (ws : WState) (d : Int) (variant : String)
    (cand : List Nat) : (fd_picks db ws d variant cand).Nodup := by
  unfold fd_picks
  rcases h1 : pick_best db ws d cand "Front Desk" variant with _ | p1
  · simp
  · dsimp only
    rcases h2 : pick_best db ws d (cand.filter (fun e => e != p1)) "Front Desk" variant
        with _ | p2
    · simp
    · have hf := List.mem_filter.1 (pick_best_mem h2).1
      have hne : p2 ≠ p1 := by simpa using hf.2
      simp only [List.nodup_cons, List.mem_cons, List.not_mem_nil, or_false,
        List.not_mem_nil, not_false_iff, List.nodup_nil, and_true]
      exact fun hc => hne hc.symm

/-! ### Cap invariant through the Front Desk pass -/

theorem CapInv_fd_fold (db : DB) (s : Int) (labels : List String) (role : String)
    (d : Int) (variant : String) :
    ∀ (assigns : List (Nat × String)) (acc : List Nat × WState),
      (assigns.map (fun pr => pr.1)).Nodup →
      (∀ pr ∈ assigns, pr.2 ∉ labels ∨
        (∀ m, _effective_max_for_role db pr.1 role = some m →
          cget acc.2.assigned_counts pr.1 < m)) →
      CapInv db s labels role acc.2 →
      CapInv db s labels role ((assigns.foldl (fd_write_step d variant) acc).2) := by
  intro assigns
  induction assigns with
  | nil => intro acc _ _ h; exact h
  | cons pr tl ih =>
      intro acc hnd hguard hI
      rw [List.foldl_cons]
      have hnd' : (tl.map (fun pr => pr.1)).Nodup := (List.nodup_cons.1 hnd).2
      have hpr1 : pr.1 ∉ tl.map (fun pr => pr.1) := (List.nodup_cons.1 hnd).1
      refine ih _ hnd' ?_ ?_
      · intro q hq
        rcases hguard q (List.mem_cons_of_mem _ hq) with hL | hg
        · exact Or.inl hL
        · refine Or.inr ?_
          intro m hm
          have hqne : q.1 ≠ pr.1 := fun hc => hpr1 (hc ▸ List.mem_map_of_mem _ hq)
          have hcg : cget (fd_write_step d variant acc pr).2.assigned_counts q.1
              = cget acc.2.assigned_counts q.1 := cget_cset_ne _ _ hqne
          rw [hcg]
          exact hg m hm
      · rcases hguard pr (List.mem_cons_self _ _) with hL | hg
        · exact CapInv_apply (Or.inl hL) hI
        · exact CapInv_apply (Or.inr hg) hI

theorem CapInv_fd_process_variant (ctx : GenCtx) (s : Int) (labels : List String)
    (role : String) (d : Int) (acc : List Nat × WState) (vp : String × List String)
    (hvp : vp ∈ fd_variant_opts)
    (hcase : (∀ L ∈ vp.2, L ∉ labels) ∨ role = "Front Desk")
    (hI : CapInv ctx.db s labels role acc.2) :
    CapInv ctx.db s labels role (fd_process_variant ctx d acc vp).2 := by
  unfold fd_process_variant
  dsimp only
  have hcc : (fd_collect ctx acc.2 d vp.1 acc.1).2.assigned_counts
      = acc.2.assigned_counts := fd_collect_counts ctx acc.2 d vp.1 acc.1
  have hcv : (fd_collect ctx acc.2 d vp.1 acc.1).2.value = acc.2.value :=
    fd_collect_value ctx acc.2 d vp.1 acc.1
  have hI1 : CapInv ctx.db s labels role (fd_collect ctx acc.2 d vp.1 acc.1).2 := by
    intro e he
    obtain ⟨hA, hB⟩ := hI e he
    rw [hcc, hcv]
    exact ⟨hA, hB⟩
  split
  · exact hI1
  · refine CapInv_fd_fold ctx.db s labels role d vp.1 _ _ ?_ ?_ hI1
    · rw [fd_stagger_firsts]
      exact stableSortBy_nodup _ (fd_picks_nodup _ _ _ _ _)
    · intro pr hpr
      obtain ⟨hp, hl⟩ := fd_stagger_mem (fd_variant_opts_ne_nil vp hvp) hpr
      rcases hcase with hnl | hrole
      · exact Or.inl (hnl pr.2 hl)
      · subst hrole
        exact Or.inr (fd_picks_cap hp)

theorem CapInv_fd_day (ctx : GenCtx) (s : Int) (labels : List String) (role : String)
    (d : Int) (ws : WState)
    (hcase : (∀ vp ∈ fd_variant_opts, ∀ L ∈ vp.2, L ∉ labels) ∨ role = "Front Desk")
    (hI : CapInv ctx.db s labels role ws) :
    CapInv ctx.db s labels role (fd_day ctx d ws) := by
  unfold fd_day
  have hgen : ∀ (vps : List (String × List String)), (∀ vp ∈ vps, vp ∈ fd_variant_opts) →
      ∀ (acc : List Nat × WState), CapInv ctx.db s labels role acc.2 →
      CapInv ctx.db s labels role ((vps.foldl (fd_process_variant ctx d) acc).2) := by
    intro vps
    induction vps with
    | nil => intro _ acc h; exact h
    | cons vp tl ih =>
        intro hsub acc h
        rw [List.foldl_cons]
        have hvp := hsub vp (List.mem_cons_self _ _)
        have hcase' : (∀ L ∈ vp.2, L ∉ labels) ∨ role = "Front Desk" := by
          rcases hcase with hc | hc
          · exact Or.inl (hc vp hvp)
          · exact Or.inr hc
        exact ih (fun q hq => hsub q (List.mem_cons_of_mem _ hq)) _
          (CapInv_fd_process_variant ctx s labels role d acc vp hvp hcase' h)
  exact hgen fd_variant_opts (fun vp h => h) (ctx.fd_emp_ids, ws) hI

theorem CapInv_fd_pass (ctx : GenCtx) (s : Int) (labels : List String) (role : String)
    (hcase : (∀ vp ∈ fd_variant_opts, ∀ L ∈ vp.2, L ∉ labels) ∨ role = "Front Desk") :
    ∀ (n : Nat) (ws : WState), CapInv ctx.db s labels role ws →
      CapInv ctx.db s labels role (fd_pass ctx s n ws) := by
  intro n
  induction n with
  | zero => intro ws h; exact h
  | succ n ih =>
      intro ws h
      exact CapInv_fd_day ctx s labels role (s + (n : Int)) _ hcase (ih ws h)

/-! ### Cap invariant through the other passes, the sync and the reset -/

theorem CapInv_bb_process_shift (ctx : GenCtx) (reserved : Int → List Nat) (s : Int)
    (labels : List String) (role : String) (d : Int) (acc : List Nat × WState)
    (shift : String) (hshift : shift ∉ labels)
    (hI : CapInv ctx.db s labels role acc.2) :
    CapInv ctx.db s labels role (bb_process_shift ctx reserved d acc shift).2 := by
  unfold bb_process_shift
  dsimp only
  have hcc : (bb_collect ctx reserved acc.2 d shift acc.1).2.assigned_counts
      = acc.2.assigned_counts := bb_collect_counts ctx reserved acc.2 d shift acc.1
  have hcv : (bb_collect ctx reserved acc.2 d shift acc.1).2.value = acc.2.value :=
    bb_collect_value ctx reserved acc.2 d shift acc.1
  have hI1 : CapInv ctx.db s labels role (bb_collect ctx reserved acc.2 d shift acc.1).2 := by
    intro e he
    obtain ⟨hA, hB⟩ := hI e he
    rw [hcc, hcv]
    exact ⟨hA, hB⟩
  split
  · exact hI1
  · exact CapInv_apply (Or.inl hshift) hI1

theorem CapInv_bb_day (ctx : GenCtx) (reserved : Int → List Nat) (s : Int)
    (labels : List String) (role : String) (d : Int) (ws : WState)
    (hbb : ∀ L ∈ bb_shift_list, L ∉ labels)
    (hI : CapInv ctx.db s labels role ws) :
    CapInv ctx.db s labels role (bb_day ctx reserved d ws) := by
  unfold bb_day
  have hgen : ∀ (shifts : List String), (∀ L ∈ shifts, L ∉ labels) →
      ∀ (acc : List Nat × WState), CapInv ctx.db s labels role acc.2 →
      CapInv ctx.db s labels role ((shifts.foldl (bb_process_shift ctx reserved d) acc).2) := by
    intro shifts
    induction shifts with
    | nil => intro _ acc h; exact h
    | cons L tl ih =>
        intro hsub acc h
        rw [List.foldl_cons]
        exact ih (fun q hq => hsub q (List.mem_cons_of_mem _ hq)) _
          (CapInv_bb_process_shift ctx reserved s labels role d acc L
            (hsub L (List.mem_cons_self _ _)) h)
  exact hgen bb_shift_list hbb (ctx.bb_emp_ids, ws) hI

theorem CapInv_bb_pass (ctx : GenCtx) (reserved : Int → List Nat) (s : Int)
    (labels : List String) (role : String) (hbb : ∀ L ∈ bb_shift_list, L ∉ labels) :
    ∀ (n : Nat) (ws : WState), CapInv ctx.db s labels role ws →
      CapInv ctx.db s labels role (bb_pass ctx reserved s n ws) := by
  intro n
  induction n with
  | zero => intro ws h; exact h
  | succ n ih =>
      intro ws h
      exact CapInv_bb_day ctx reserved s labels role (s + (n : Int)) _ hbb (ih ws h)

theorem CapInv_sh_process_variant (ctx : GenCtx) (reserved : Int → List Nat) (s : Int)
    (labels : List String) (role : String) (d : Int) (acc : List Nat × WState)
    (v : String) (hcase : v ∉ labels ∨ role = "Shuttle")
    (hI : CapInv ctx.db s labels role acc.2) :
    CapInv ctx.db s labels role (sh_process_variant ctx reserved d acc v).2 := by
  unfold sh_process_variant
  dsimp only
  have hcc : (sh_collect ctx reserved acc.2 d v acc.1).2.assigned_counts
      = acc.2.assigned_counts := sh_collect_counts ctx reserved acc.2 d v acc.1
  have hcv : (sh_collect ctx reserved acc.2 d v acc.1).2.value = acc.2.value :=
    sh_collect_value ctx reserved acc.2 d v acc.1
  have hI1 : CapInv ctx.db s labels role (sh_collect ctx reserved acc.2 d v acc.1).2 := by
    intro e he
    obtain ⟨hA, hB⟩ := hI e he
    rw [hcc, hcv]
    exact ⟨hA, hB⟩
  split
  · exact hI1
  · rename_i p heq
    rcases hcase with hL | hrole
    · exact CapInv_apply (Or.inl hL) hI1
    · subst hrole
      exact CapInv_apply (Or.inr (pick_best_cap heq)) hI1

theorem CapInv_sh_day (ctx : GenCtx) (reserved : Int → List Nat) (s : Int)
    (labels : List String) (role : String) (d : Int) (ws : WState)
    (hcase : (∀ v ∈ sh_variant_list, v ∉ labels) ∨ role = "Shuttle")
    (hI : CapInv ctx.db s labels role ws) :
    CapInv ctx.db s labels role (sh_day ctx reserved d ws) := by
  unfold sh_day
  have hgen : ∀ (vars : List String), (∀ v ∈ vars, v ∈ sh_variant_list) →
      ∀ (acc : List Nat × WState), CapInv ctx.db s labels role acc.2 →
      CapInv ctx.db s labels role ((vars.foldl (sh_process_variant ctx reserved d) acc).2) := by
    intro vars
    induction vars with
    | nil => intro _ acc h; exact h
    | cons v tl ih =>
        intro hsub acc h
        rw [List.foldl_cons]
        have hcase' : v ∉ labels ∨ role = "Shuttle" := by
          rcases hcase with hc | hc
          · exact Or.inl (hc v (hsub v (List.mem_cons_self _ _)))
          · exact Or.inr hc
        exact ih (fun q hq => hsub q (List.mem_cons_of_mem _ hq)) _
          (CapInv_sh_process_variant ctx reserved s labels role d acc v hcase' h)
  exact hgen sh_variant_list (fun v h => h) (ctx.sh_emp_ids, ws) hI

theorem CapInv_sh_pass (ctx : GenCtx) (reserved : Int → List Nat) (s : Int)
    (labels : List String) (role : String)
    (hcase : (∀ v ∈ sh_variant_list, v ∉ labels) ∨ role = "Shuttle") :
    ∀ (n : Nat) (ws : WState), CapInv ctx.db s labels role ws →
      CapInv ctx.db s labels role (sh_pass ctx reserved s n ws) := by
  intro n
  induction n with
  | zero => intro ws h; exact h
  | succ n ih =>
      intro ws h
      exact CapInv_sh_day ctx reserved s labels role (s + (n : Int)) _ hcase (ih ws h)

theorem CapInv_sync_day (db' : DB) (nm : String) (eid : Nat) {db : DB} {s : Int}
    {labels : List String} {role : String} (hTO : TIME_OFF_LABEL ∉ labels)
    (ws2 : WState) (d : Int) (hI : CapInv db s labels role ws2) :
    CapInv db s labels role (sync_day db' nm eid ws2 d) := by
  unfold sync_day
  split
  · intro e he
    obtain ⟨hA, hB⟩ := hI e he
    have hc : cget ({ ws2 with value := vset ws2.value eid d TIME_OFF_LABEL } :
        WState).assigned_counts e = cget ws2.assigned_counts e := rfl
    by_cases hne : e = eid
    · subst hne
      have hv := week_label_count_vset_notin (σ := ws2.value) (s := s) (e := e) (d := d)
        (L := TIME_OFF_LABEL) hTO
      exact ⟨le_trans hv hA, fun m hm => le_trans hv (hB m hm)⟩
    · have hv : week_label_count (vset ws2.value eid d TIME_OFF_LABEL) s e labels
          = week_label_count ws2.value s e labels := week_label_count_other hne
      exact ⟨hv ▸ hA, fun m hm => hv ▸ hB m hm⟩
  · exact hI

theorem CapInv_sync (db' : DB) (s' : Int) {db : DB} {s : Int} {labels : List String}
    {role : String} (hTO : TIME_OFF_LABEL ∉ labels) (ws : WState)
    (hI : CapInv db s labels role ws) :
    CapInv db s labels role (sync_timeoff_to_assignments db' s' ws) := by
  unfold sync_timeoff_to_assignments
  have hdays : ∀ (nm : String) (eid : Nat) (ds : List Int) (ws1 : WState),
      CapInv db s labels role ws1 →
      CapInv db s labels role (ds.foldl (sync_day db' nm eid) ws1) := by
    intro nm eid ds
    induction ds with
    | nil => intro ws1 h; exact h
    | cons d tl ih =>
        intro ws1 h
        rw [List.foldl_cons]
        exact ih _ (CapInv_sync_day db' nm eid hTO ws1 d h)
  have hgen : ∀ (emps : List Employee) (ws1 : WState), CapInv db s labels role ws1 →
      CapInv db s labels role (emps.foldl (fun ws1 emp =>
        (daterange s' 7).foldl (sync_day db' emp.name emp.id) ws1) ws1) := by
    intro emps
    induction emps with
    | nil => intro ws1 h; exact h
    | cons emp tl ih =>
        intro ws1 h
        rw [List.foldl_cons]
        exact ih _ (hdays emp.name emp.id _ ws1 h)
  exact hgen db'.employees ws hI

/-- The week reset establishes the cap invariant outright. -/
theorem CapInv_reset (db : DB) (s : Int) (ws : WState) (labels : List String)
    (role : String) (hSet : "Set" ∉ labels) :
    CapInv db s labels role (reset_week db s ws) := by
  intro e he
  have h0 : week_label_count (reset_week db s ws).value s e labels = 0 := by
    unfold week_label_count
    rw [List.length_eq_zero, List.filter_eq_nil_iff]
    intro d hd
    have hm := mem_daterange.1 hd
    rw [reset_week_vget_set he hm.1 (by have := hm.2; omega)]
    intro hc
    exact hSet (by simpa using hc)
  have hcnt : cget (reset_week db s ws).assigned_counts e = 0 := rfl
  rw [h0, hcnt]
  exact ⟨le_refl 0, fun m _ => Nat.zero_le m⟩

/-- One processed week satisfies the cap invariant for any tracked label set
not containing the placeholder or the leave label, as long as the labels are
written only under the matching role's cap check. -/
theorem CapInv_processWeek (ctx : GenCtx) (s : Int) (ws : WState)
    (labels : List String) (role : String)
    (hSet : "Set" ∉ labels) (hTO : TIME_OFF_LABEL ∉ labels)
    (hfd : (∀ vp ∈ fd_variant_opts, ∀ L ∈ vp.2, L ∉ labels) ∨ role = "Front Desk")
    (hbb : ∀ L ∈ bb_shift_list, L ∉ labels)
    (hsh : (∀ v ∈ sh_variant_list, v ∉ labels) ∨ role = "Shuttle") :
    CapInv ctx.db s labels role (processWeek ctx s ws) := by
  unfold processWeek week_after_fd
  dsimp only
  have h0 := CapInv_reset ctx.db s ws labels role hSet
  have h1 := CapInv_fd_pass ctx s labels role hfd 7 _ h0
  have h2 := CapInv_bb_pass ctx
    (mk_reserved (fd_pass ctx s 7 (reset_week ctx.db s ws)).value ctx.fd_emp_ids)
    s labels role hbb 7 _ h1
  have h3 := CapInv_sh_pass ctx
    (mk_reserved (fd_pass ctx s 7 (reset_week ctx.db s ws)).value ctx.fd_emp_ids)
    s labels role hsh 7 _ h2
  exact CapInv_sync ctx.db s hTO _ h3

/-- C2 (amended): the weekly cap holds per department, not across departments:
in every generated week, a worker's reception-desk labels never exceed the
worker's effective reception cap and the worker's shuttle labels never exceed
the effective shuttle cap (the food bar is uncapped), but the total across
departments can exceed each cap, as `C2_counterexample` shows. -/
theorem C2_weekly_cap_amended (db : DB) (base : Int) (ws0 : WState) (e : Nat)
    (he : e ∈ EmpIds db) (w : Nat) (hw : w < 4) (m : Nat) :
    (_effective_max_for_role db e "Front Desk" = some m →
      week_label_count (generate_4_week_schedule db base ws0).value
        (base + 7 * (w : Int)) e FD_ALL_LABELS ≤ m) ∧
    (_effective_max_for_role db e "Shuttle" = some m →
      week_label_count (generate_4_week_schedule db base ws0).value
        (base + 7 * (w : Int)) e SH_ALL_LABELS ≤ m) := by
  have htr : ∀ (labels : List String),
      week_label_count (generate_4_week_schedule db base ws0).value
        (base + 7 * (w : Int)) e labels
      = week_label_count (processWeek (mkCtx db) (base + 7 * (w : Int))
          (gen_weeks (mkCtx db) base w ws0)).value (base + 7 * (w : Int)) e labels := by
    intro labels
    apply week_label_count_congr
    intro d hd
    have hm2 := (mem_daterange.1 hd).2
    have hlt : d < base + 7 * ((w + 1 : Nat) : Int) := by omega
    exact gen_weeks_vget_lt (mkCtx db) base (w + 1) 4 hw ws0 e d hlt
  constructor
  · intro hm
    have hI := CapInv_processWeek (mkCtx db) (base + 7 * (w : Int))
      (gen_weeks (mkCtx db) base w ws0) FD_ALL_LABELS "Front Desk"
      (by decide) (by decide) (Or.inr rfl) (by decide) (Or.inl (by decide))
    have hb := (hI e he).2 m hm
    rw [htr FD_ALL_LABELS]
    exact hb
  · intro hm
    have hI := CapInv_processWeek (mkCtx db) (base + 7 * (w : Int))
      (gen_weeks (mkCtx db) base w ws0) SH_ALL_LABELS "Shuttle"
      (by decide) (by decide) (Or.inl (by decide)) (by decide) (Or.inr rfl)
    have hb := (hI e he).2 m hm
    rw [htr SH_ALL_LABELS]
    exact hb

/-- Closed-form instantiation of `C2_weekly_cap_amended` on a concrete input. -/
theorem C2_weekly_cap_amended_witness :
    1 ∈ EmpIds dbW ∧ (0 : Nat) < 4 ∧
    ((_effective_max_for_role dbW 1 "Front Desk" = some 5 →
        week_label_count (generate_4_week_schedule dbW 0 emptyW).value
          (0 + 7 * ((0 : Nat) : Int)) 1 FD_ALL_LABELS ≤ 5) ∧
     (_effective_max_for_role dbW 1 "Shuttle" = some 5 →
        week_label_count (generate_4_week_schedule dbW 0 emptyW).value
          (0 + 7 * ((0 : Nat) : Int)) 1 SH_ALL_LABELS ≤ 5)) :=
  ⟨by decide, by decide, C2_weekly_cap_amended dbW 0 emptyW 1 (by decide) 0 (by decide) 5⟩

/-! ### Claim C7: when the dismissed flag is set -/

/-- C7 counterexample: `dbC7`'s only leave request is approved, yet the
generator sets worker 1's dismissed flag for the covered date (the reception
collection loop checks `has_any_timeoff`, not approval). -/
theorem C7_counterexample :
    (∀ t ∈ dbC7.timeoff, t.approved = true) ∧
    bget (generate_4_week_schedule dbC7 0 emptyW).dismissed 1 0 = true :=
  ⟨by decide, by rfl⟩

theorem fd_collect_step_dismissed (ctx : GenCtx) (d : Int) (variant : String)
    (acc : List Nat × WState) (eid e : Nat) (dd : Int) :
    bget (fd_collect_step ctx d variant acc eid).2.dismissed e dd = true ↔
      (bget acc.2.dismissed e dd = true ∨
        (e = eid ∧ dd = d ∧ vget acc.2.value eid d = "Set" ∧
         _is_available eid "Front Desk" variant d ctx.avail_idx = true ∧
         rest_ok acc.2.value eid d "Front Desk" variant = true ∧
         has_any_timeoff (emp_name ctx.db eid) d ctx.db.timeoff = true)) := by
  unfold fd_collect_step
  dsimp only
  by_cases h1 : (vget acc.2.value eid d != "Set") = true
  · rw [if_pos h1]
    have hns : ¬vget acc.2.value eid d = "Set" := by simpa using h1
    constructor
    · exact Or.inl
    · rintro (h | ⟨-, -, hset, -⟩)
      · exact h
      · exact absurd hset hns
  · rw [if_neg h1]
    have hset : vget acc.2.value eid d = "Set" := by simpa using h1
    by_cases h2 : (!_is_available eid "Front Desk" variant d ctx.avail_idx) = true
    · rw [if_pos h2]
      have hna : ¬_is_available eid "Front Desk" variant d ctx.avail_idx = true := by
        simpa using h2
      constructor
      · exact Or.inl
      · rintro (h | ⟨-, -, -, hav, -⟩)
        · exact h
        · exact absurd hav hna
    · rw [if_neg h2]
      have hav : _is_available eid "Front Desk" variant d ctx.avail_idx = true := by
        simpa using h2
      by_cases h3 : (!rest_ok acc.2.value eid d "Front Desk" variant) = true
      · rw [if_pos h3]
        have hnr : ¬rest_ok acc.2.value eid d "Front Desk" variant = true := by
          simpa using h3
        constructor
        · exact Or.inl
        · rintro (h | ⟨-, -, -, -, hr, -⟩)
          · exact h
          · exact absurd hr hnr
      · rw [if_neg h3]
        have hr : rest_ok acc.2.value eid d "Front Desk" variant = true := by simpa using h3
        by_cases h4 : has_any_timeoff (emp_name ctx.db eid) d ctx.db.timeoff = true
        · rw [if_pos h4]
          by_cases hed : e = eid ∧ dd = d
          · obtain ⟨rfl, rfl⟩ := hed
            have hb : bget (_mark_dismissed acc.2 e dd).dismissed e dd = true :=
              bget_bset_same _ _ _ _
            rw [hb]
            constructor
            · intro _
              exact Or.inr ⟨rfl, rfl, hset, hav, hr, h4⟩
            · intro _
              rfl
          · have hb : bget (_mark_dismissed acc.2 eid d).dismissed e dd
                = bget acc.2.dismissed e dd := bget_bset_ne _ _ hed
            rw [hb]
            constructor
            · exact Or.inl
            · rintro (h | ⟨he1, he2, -⟩)
              · exact h
              · exact absurd ⟨he1, he2⟩ hed
        · rw [if_neg h4]
          have hsame : ∀ r : List Nat × WState,
              r.2 = acc.2 → (bget r.2.dismissed e dd = true ↔
                (bget acc.2.dismissed e dd = true ∨
                  (e = eid ∧ dd = d ∧ vget acc.2.value eid d = "Set" ∧
                   _is_available eid "Front Desk" variant d ctx.avail_idx = true ∧
                   rest_ok acc.2.value eid d "Front Desk" variant = true ∧
                   has_any_timeoff (emp_name ctx.db eid) d ctx.db.timeoff = true))) := by
            intro r hre
            rw [hre]
            constructor
            · exact Or.inl
            · rintro (h | ⟨-, -, -, -, -, hto⟩)
              · exact h
              · exact absurd hto h4
          split
          · exact hsame _ rfl
          · exact hsame _ rfl

theorem fd_collect_dismissed (ctx : GenCtx) (d : Int) (variant : String) (e : Nat)
    (dd : Int) :
    ∀ (pool : List Nat) (acc : List Nat × WState),
      bget ((pool.foldl (fd_collect_step ctx d variant) acc).2).dismissed e dd = true ↔
        (bget acc.2.dismissed e dd = true ∨
          (e ∈ pool ∧ dd = d ∧ vget acc.2.value e d = "Set" ∧
           _is_available e "Front Desk" variant d ctx.avail_idx = true ∧
           rest_ok acc.2.value e d "Front Desk" variant = true ∧
           has_any_timeoff (emp_name ctx.db e) d ctx.db.timeoff = true)) := by
  intro pool
  induction pool with
  | nil =>
      intro acc
      simp
  | cons x xs ih =>
      intro acc
      rw [List.foldl_cons, ih (fd_collect_step ctx d variant acc x),
        fd_collect_step_value, fd_collect_step_dismissed]
      constructor
      · rintro (h | h)
        · rcases h with h | ⟨rfl, hdd, hconds⟩
          · exact Or.inl h
          · exact Or.inr ⟨List.mem_cons_self _ _, hdd, hconds⟩
        · obtain ⟨hmem, hrest⟩ := h
          exact Or.inr ⟨List.mem_cons_of_mem _ hmem, hrest⟩
      · rintro (h | ⟨hmem, hrest⟩)
        · exact Or.inl (Or.inl h)
        · rcases List.mem_cons.1 hmem with rfl | hmem'
          · exact Or.inl (Or.inr ⟨rfl, hrest⟩)
          · exact Or.inr ⟨hmem', hrest⟩

theorem bb_collect_step_dismissed (ctx : GenCtx) (reserved : Int → List Nat) (d : Int)
    (shift : String) (acc : List Nat × WState) (eid e : Nat) (dd : Int) :
    bget (bb_collect_step ctx reserved d shift acc eid).2.dismissed e dd = true ↔
      (bget acc.2.dismissed e dd = true ∨
        (e = eid ∧ dd = d ∧ (reserved d).contains eid = false ∧
         (fd_missing_on acc.2.value ctx.fd_emp_ids d && ctx.fd_emp_ids.contains eid) = false ∧
         vget acc.2.value eid d = "Set" ∧
         has_any_timeoff (emp_name ctx.db eid) d ctx.db.timeoff = true ∧
         _is_available eid "Breakfast Bar" shift d ctx.avail_idx = true ∧
         rest_ok acc.2.value eid d "Breakfast Bar" shift = true)) := by
  unfold bb_collect_step
  dsimp only
  by_cases h1 : ((reserved d).contains eid) = true
  · rw [if_pos h1]
    constructor
    · exact Or.inl
    · rintro (h | ⟨-, -, hres, -⟩)
      · exact h
      · rw [h1] at hres; exact absurd hres (by simp)
  · rw [if_neg h1]
    have hres : (reserved d).contains eid = false := by simpa using h1
    by_cases h2 : (fd_missing_on acc.2.value ctx.fd_emp_ids d
        && ctx.fd_emp_ids.contains eid) = true
    · rw [if_pos h2]
      constructor
      · exact Or.inl
      · rintro (h | ⟨-, -, -, hmiss, -⟩)
        · exact h
        · rw [h2] at hmiss; exact absurd hmiss (by simp)
    · rw [if_neg h2]
      have hmiss : (fd_missing_on acc.2.value ctx.fd_emp_ids d
          && ctx.fd_emp_ids.contains eid) = false := by simpa using h2
      by_cases h3 : (vget acc.2.value eid d != "Set") = true
      · rw [if_pos h3]
        have hns : ¬vget acc.2.value eid d = "Set" := by simpa using h3
        constructor
        · exact Or.inl
        · rintro (h | ⟨-, -, -, -, hset, -⟩)
          · exact h
          · exact absurd hset hns
      · rw [if_neg h3]
        have hset : vget acc.2.value eid d = "Set" := by simpa using h3
        by_cases h4 : has_any_timeoff (emp_name ctx.db eid) d ctx.db.timeoff = true
        · rw [if_pos h4]
          by_cases h5 : (_is_available eid "Breakfast Bar" shift d ctx.avail_idx &&
              rest_ok acc.2.value eid d "Breakfast Bar" shift) = true
          · rw [if_pos h5]
            rw [Bool.and_eq_true] at h5
            by_cases hed : e = eid ∧ dd = d
            · obtain ⟨rfl, rfl⟩ := hed
              have hb : bget (_mark_dismissed acc.2 e dd).dismissed e dd = true :=
                bget_bset_same _ _ _ _
              rw [hb]
              constructor
              · intro _
                exact Or.inr ⟨rfl, rfl, hres, hmiss, hset, h4, h5.1, h5.2⟩
              · intro _
                rfl
            · have hb : bget (_mark_dismissed acc.2 eid d).dismissed e dd
                  = bget acc.2.dismissed e dd := bget_bset_ne _ _ hed
              rw [hb]
              constructor
              · exact Or.inl
              · rintro (h | ⟨he1, he2, -⟩)
                · exact h
                · exact absurd ⟨he1, he2⟩ hed
          · rw [if_neg h5]
            constructor
            · exact Or.inl
            · rintro (h | ⟨-, -, -, -, -, -, hav, hr⟩)
              · exact h
              · exact absurd (by rw [hav, hr]; rfl) h5
        · rw [if_neg h4]
          have hsame : ∀ r : List Nat × WState,
              r.2 = acc.2 → (bget r.2.dismissed e dd = true ↔
                (bget acc.2.dismissed e dd = true ∨
                  (e = eid ∧ dd = d ∧ (reserved d).contains eid = false ∧
                   (fd_missing_on acc.2.value ctx.fd_emp_ids d &&
                     ctx.fd_emp_ids.contains eid) = false ∧
                   vget acc.2.value eid d = "Set" ∧
                   has_any_timeoff (emp_name ctx.db eid) d ctx.db.timeoff = true ∧
                   _is_available eid "Breakfast Bar" shift d ctx.avail_idx = true ∧
                   rest_ok acc.2.value eid d "Breakfast Bar" shift = true))) := by
            intro r hre
            rw [hre]
            constructor
            · exact Or.inl
            · rintro (h | ⟨-, -, -, -, -, hto, -⟩)
              · exact h
              · exact absurd hto h4
          split
          · exact hsame _ rfl
          · exact hsame _ rfl

theorem bb_collect_dismissed (ctx : GenCtx) (reserved : Int → List Nat) (d : Int)
    (shift : String) (e : Nat) (dd : Int) :
    ∀ (pool : List Nat) (acc : List Nat × WState),
      bget ((pool.foldl (bb_collect_step ctx reserved d shift) acc).2).dismissed e dd
          = true ↔
        (bget acc.2.dismissed e dd = true ∨
          (e ∈ pool ∧ dd = d ∧ (reserved d).contains e = false ∧
           (fd_missing_on acc.2.value ctx.fd_emp_ids d && ctx.fd_emp_ids.contains e) = false ∧
           vget acc.2.value e d = "Set" ∧
           has_any_timeoff (emp_name ctx.db e) d ctx.db.timeoff = true ∧
           _is_available e "Breakfast Bar" shift d ctx.avail_idx = true ∧
           rest_ok acc.2.value e d "Breakfast Bar" shift = true)) := by
  intro pool
  induction pool with
  | nil =>
      intro acc
      simp
  | cons x xs ih =>
      intro acc
      rw [List.foldl_cons, ih (bb_collect_step ctx reserved d shift acc x),
        bb_collect_step_value, bb_collect_step_dismissed]
      constructor
      · rintro (h | h)
        · rcases h with h | ⟨rfl, hdd, hconds⟩
          · exact Or.inl h
          · exact Or.inr ⟨List.mem_cons_self _ _, hdd, hconds⟩
        · obtain ⟨hmem, hrest⟩ := h
          exact Or.inr ⟨List.mem_cons_of_mem _ hmem, hrest⟩
      · rintro (h | ⟨hmem, hrest⟩)
        · exact Or.inl (Or.inl h)
        · rcases List.mem_cons.1 hmem with rfl | hmem'
          · exact Or.inl (Or.inr ⟨rfl, hrest⟩)
          · exact Or.inr ⟨hmem', hrest⟩

theorem sh_collect_step_dismissed (ctx : GenCtx) (reserved : Int → List Nat) (d : Int)
    (v : String) (acc : List Nat × WState) (eid e : Nat) (dd : Int) :
    bget (sh_collect_step ctx reserved d v acc eid).2.dismissed e dd = true ↔
      (bget acc.2.dismissed e dd = true ∨
        (e = eid ∧ dd = d ∧ (reserved d).contains eid = false ∧
         (fd_missing_on acc.2.value ctx.fd_emp_ids d && ctx.fd_emp_ids.contains eid) = false ∧
         vget acc.2.value eid d = "Set" ∧
         has_any_timeoff (emp_name ctx.db eid) d ctx.db.timeoff = true ∧
         rest_ok acc.2.value eid d "Shuttle" v = true)) := by
  unfold sh_collect_step
  dsimp only
  by_cases h1 : ((reserved d).contains eid) = true
  · rw [if_pos h1]
    constructor
    · exact Or.inl
    · rintro (h | ⟨-, -, hres, -⟩)
      · exact h
      · rw [h1] at hres; exact absurd hres (by simp)
  · rw [if_neg h1]
    have hres : (reserved d).contains eid = false := by simpa using h1
    by_cases h2 : (fd_missing_on acc.2.value ctx.fd_emp_ids d
        && ctx.fd_emp_ids.contains eid) = true
    · rw [if_pos h2]
      constructor
      · exact Or.inl
      · rintro (h | ⟨-, -, -, hmiss, -⟩)
        · exact h
        · rw [h2] at hmiss; exact absurd hmiss (by simp)
    · rw [if_neg h2]
      have hmiss : (fd_missing_on acc.2.value ctx.fd_emp_ids d
          && ctx.fd_emp_ids.contains eid) = false := by simpa using h2
      by_cases h3 : (vget acc.2.value eid d != "Set") = true
      · rw [if_pos h3]
        have hns : ¬vget acc.2.value eid d = "Set" := by simpa using h3
        constructor
        · exact Or.inl
        · rintro (h | ⟨-, -, -, -, hset, -⟩)
          · exact h
          · exact absurd hset hns
      · rw [if_neg h3]
        have hset : vget acc.2.value eid d = "Set" := by simpa using h3
        by_cases h4 : has_any_timeoff (emp_name ctx.db eid) d ctx.db.timeoff = true
        · rw [if_pos h4]
          by_cases h5 : rest_ok acc.2.value eid d "Shuttle" v = true
          · rw [if_pos h5]
            by_cases hed : e = eid ∧ dd = d
            · obtain ⟨rfl, rfl⟩ := hed
              have hb : bget (_mark_dismissed acc.2 e dd).dismissed e dd = true :=
                bget_bset_same _ _ _ _
              rw [hb]
              constructor
              · intro _
                exact Or.inr ⟨rfl, rfl, hres, hmiss, hset, h4, h5⟩
              · intro _
                rfl
            · have hb : bget (_mark_dismissed acc.2 eid d).dismissed e dd
                  = bget acc.2.dismissed e dd := bget_bset_ne _ _ hed
              rw [hb]
              constructor
              · exact Or.inl
              · rintro (h | ⟨he1, he2, -⟩)
                · exact h
                · exact absurd ⟨he1, he2⟩ hed
          · rw [if_neg h5]
            constructor
            · exact Or.inl
            · rintro (h | ⟨-, -, -, -, -, -, hr⟩)
              · exact h
              · exact absurd hr h5
        · rw [if_neg h4]
          have hsame : ∀ r : List Nat × WState,
              r.2 = acc.2 → (bget r.2.dismissed e dd = true ↔
                (bget acc.2.dismissed e dd = true ∨
                  (e = eid ∧ dd = d ∧ (reserved d).contains eid = false ∧
                   (fd_missing_on acc.2.value ctx.fd_emp_ids d &&
                     ctx.fd_emp_ids.contains eid) = false ∧
                   vget acc.2.value eid d = "Set" ∧
                   has_any_timeoff (emp_name ctx.db eid) d ctx.db.timeoff = true ∧
                   rest_ok acc.2.value eid d "Shuttle" v = true))) := by
            intro r hre
            rw [hre]
            constructor
            · exact Or.inl
            · rintro (h | ⟨-, -, -, -, -, hto, -⟩)
              · exact h
              · exact absurd hto h4
          split
          · exact hsame _ rfl
          · exact hsame _ rfl

theorem sh_collect_dismissed (ctx : GenCtx) (reserved : Int → List Nat) (d : Int)
    (v : String) (e : Nat) (dd : Int) :
    ∀ (pool : List Nat) (acc : List Nat × WState),
      bget ((pool.foldl (sh_collect_step ctx reserved d v) acc).2).dismissed e dd = true ↔
        (bget acc.2.dismissed e dd = true ∨
          (e ∈ pool ∧ dd = d ∧ (reserved d).contains e = false ∧
           (fd_missing_on acc.2.value ctx.fd_emp_ids d && ctx.fd_emp_ids.contains e) = false ∧
           vget acc.2.value e d = "Set" ∧
           has_any_timeoff (emp_name ctx.db e) d ctx.db.timeoff = true ∧
           rest_ok acc.2.value e d "Shuttle" v = true)) := by
  intro pool
  induction pool with
  | nil =>
      intro acc
      simp
  | cons x xs ih =>
      intro acc
      rw [List.foldl_cons, ih (sh_collect_step ctx reserved d v acc x),
        sh_collect_step_value, sh_collect_step_dismissed]
      constructor
      · rintro (h | h)
        · rcases h with h | ⟨rfl, hdd, hconds⟩
          · exact Or.inl h
          · exact Or.inr ⟨List.mem_cons_self _ _, hdd, hconds⟩
        · obtain ⟨hmem, hrest⟩ := h
          exact Or.inr ⟨List.mem_cons_of_mem _ hmem, hrest⟩
      · rintro (h | ⟨hmem, hrest⟩)
        · exact Or.inl (Or.inl h)
        · rcases List.mem_cons.1 hmem with rfl | hmem'
          · exact Or.inl (Or.inr ⟨rfl, hrest⟩)
          · exact Or.inr ⟨hmem', hrest⟩

/-- C7 (amended): a collection loop of the generator sets a worker's dismissed
flag for a date exactly when the worker is still on the placeholder for that
date, has a leave request covering it — approved or unapproved alike — and
passes the loop's remaining pre-checks: availability and rest for the reception
loop, reservation/shortfall exclusion plus availability and rest for the
food-bar loop, but only reservation/shortfall exclusion and rest (availability
is not consulted) for the shuttle loop. -/
theorem C7_dismissed_amended (ctx : GenCtx) (ws : WState) (reserved : Int → List Nat)
    (d : Int) (variant shift v : String) (pool : List Nat) (e : Nat) (dd : Int) :
    (bget (fd_collect ctx ws d variant pool).2.dismissed e dd = true ↔
      (bget ws.dismissed e dd = true ∨
        (e ∈ pool ∧ dd = d ∧ vget ws.value e d = "Set" ∧
         _is_available e "Front Desk" variant d ctx.avail_idx = true ∧
         rest_ok ws.value e d "Front Desk" variant = true ∧
         has_any_timeoff (emp_name ctx.db e) d ctx.db.timeoff = true))) ∧
    (bget (bb_collect ctx reserved ws d shift pool).2.dismissed e dd = true ↔
      (bget ws.dismissed e dd = true ∨
        (e ∈ pool ∧ dd = d ∧ (reserved d).contains e = false ∧
         (fd_missing_on ws.value ctx.fd_emp_ids d && ctx.fd_emp_ids.contains e) = false ∧
         vget ws.value e d = "Set" ∧
         has_any_timeoff (emp_name ctx.db e) d ctx.db.timeoff = true ∧
         _is_available e "Breakfast Bar" shift d ctx.avail_idx = true ∧
         rest_ok ws.value e d "Breakfast Bar" shift = true))) ∧
    (bget (sh_collect ctx reserved ws d v pool).2.dismissed e dd = true ↔
      (bget ws.dismissed e dd = true ∨
        (e ∈ pool ∧ dd = d ∧ (reserved d).contains e = false ∧
         (fd_missing_on ws.value ctx.fd_emp_ids d && ctx.fd_emp_ids.contains e) = false ∧
         vget ws.value e d = "Set" ∧
         has_any_timeoff (emp_name ctx.db e) d ctx.db.timeoff = true ∧
         rest_ok ws.value e d "Shuttle" v = true))) :=
  ⟨fd_collect_dismissed ctx d variant e dd pool ([], ws),
   bb_collect_dismissed ctx reserved d shift e dd pool ([], ws),
   sh_collect_dismissed ctx reserved d v e dd pool ([], ws)⟩

/-! ### Claim C6: leave synchronization forces and keeps the leave label -/

theorem sync_day_vget_cases (db' : DB) (nm : String) (eid : Nat) (ws2 : WState)
    (dd : Int) (x : Nat) (d : Int) :
    vget (sync_day db' nm eid ws2 dd).value x d = vget ws2.value x d ∨
    vget (sync_day db' nm eid ws2 dd).value x d = TIME_OFF_LABEL := by
  unfold sync_day
  split
  · by_cases h : x = eid ∧ d = dd
    · obtain ⟨rfl, rfl⟩ := h
      right
      exact vget_vset_same _ _ _ _
    · left
      exact vget_vset_ne _ _ h
  · left
    rfl

theorem sync_fold_days_cases (db' : DB) (nm : String) (eid : Nat) (x : Nat) (d : Int) :
    ∀ (ds : List Int) (ws1 : WState),
      vget ((ds.foldl (sync_day db' nm eid) ws1).value) x d = vget ws1.value x d ∨
      vget ((ds.foldl (sync_day db' nm eid) ws1).value) x d = TIME_OFF_LABEL := by
  intro ds
  induction ds with
  | nil => intro ws1; left; rfl
  | cons dd tl ih =>
      intro ws1
      rw [List.foldl_cons]
      rcases ih (sync_day db' nm eid ws1 dd) with h | h
      · rw [h]
        exact sync_day_vget_cases db' nm eid ws1 dd x d
      · right
        exact h

theorem sync_fold_days_forces (db' : DB) (nm : String) (eid : Nat) :
    ∀ (ds : List Int) (ws1 : WState) (d : Int), d ∈ ds →
      has_approved_timeoff nm d db'.timeoff = true →
      vget ((ds.foldl (sync_day db' nm eid) ws1).value) eid d = TIME_OFF_LABEL := by
  intro ds
  induction ds with
  | nil => intro ws1 d h; exact absurd h (List.not_mem_nil d)
  | cons dd tl ih =>
      intro ws1 d hmem hcov
      rw [List.foldl_cons]
      by_cases htl : d ∈ tl
      · exact ih _ d htl hcov
      · have hd : d = dd := by
          rcases List.mem_cons.1 hmem with h | h
          · exact h
          · exact absurd h htl
        subst hd
        have hw : vget (sync_day db' nm eid ws1 d).value eid d = TIME_OFF_LABEL := by
          unfold sync_day
          rw [if_pos hcov]
          exact vget_vset_same _ _ _ _
        rcases sync_fold_days_cases db' nm eid eid d tl (sync_day db' nm eid ws1 d)
            with h | h
        · rw [h, hw]
        · exact h

theorem sync_emps_cases (db' : DB) (s' : Int) (x : Nat) (d : Int) :
    ∀ (emps : List Employee) (ws1 : WState),
      vget ((emps.foldl (fun ws1 emp =>
        (daterange s' 7).foldl (sync_day db' emp.name emp.id) ws1) ws1).value) x d
        = vget ws1.value x d ∨
      vget ((emps.foldl (fun ws1 emp =>
        (daterange s' 7).foldl (sync_day db' emp.name emp.id) ws1) ws1).value) x d
        = TIME_OFF_LABEL := by
  intro emps
  induction emps with
  | nil => intro ws1; left; rfl
  | cons em tl ih =>
      intro ws1
      rw [List.foldl_cons]
      rcases ih ((daterange s' 7).foldl (sync_day db' em.name em.id) ws1) with h | h
      · rw [h]
        exact sync_fold_days_cases db' em.name em.id x d (daterange s' 7) ws1
      · right
        exact h

/-- The leave sync forces the leave label on every employee's covered in-week
date, whatever the incoming state. -/
theorem sync_forces (db' : DB) (s' : Int) (ws : WState) (emp : Employee)
    (hmem : emp ∈ db'.employees) (d : Int) (hd : d ∈ daterange s' 7)
    (hcov : has_approved_timeoff emp.name d db'.timeoff = true) :
    vget (sync_timeoff_to_assignments db' s' ws).value emp.id d = TIME_OFF_LABEL := by
  unfold sync_timeoff_to_assignments
  have hgen : ∀ (emps : List Employee) (ws1 : WState), emp ∈ emps →
      vget ((emps.foldl (fun ws1 emp =>
        (daterange s' 7).foldl (sync_day db' emp.name emp.id) ws1) ws1).value) emp.id d
        = TIME_OFF_LABEL := by
    intro emps
    induction emps with
    | nil => intro ws1 h; exact absurd h (List.not_mem_nil emp)
    | cons em tl ih =>
        intro ws1 hm
        rw [List.foldl_cons]
        by_cases htl : emp ∈ tl
        · exact ih _ htl
        · have hem : emp = em := by
            rcases List.mem_cons.1 hm with h | h
            · exact h
            · exact absurd h htl
          subst hem
          have hw := sync_fold_days_forces db' emp.name emp.id (daterange s' 7) ws1 d
            hd hcov
          rcases sync_emps_cases db' s' emp.id d tl
              ((daterange s' 7).foldl (sync_day db' emp.name emp.id) ws1) with h | h
          · rw [h, hw]
          · exact h
  exact hgen db'.employees ws hmem

/-- C6: leave synchronization is idempotent and order-independent: a covered
in-week date reads the leave label after one sync and after a second sync; the
4-week generator's output (which ends every week with the sync) also reads the
leave label on every covered horizon date, and re-running the sync on the
generator's output keeps it. -/
theorem C6_leave_sync (db : DB) (s : Int) (ws : WState) (base : Int) (ws0 : WState)
    (emp : Employee) (hemp : emp ∈ db.employees) (d : Int)
    (hcov : has_approved_timeoff emp.name d db.timeoff = true) :
    (d ∈ daterange s 7 →
      vget (sync_timeoff_to_assignments db s ws).value emp.id d = TIME_OFF_LABEL ∧
      vget (sync_timeoff_to_assignments db s
        (sync_timeoff_to_assignments db s ws)).value emp.id d = TIME_OFF_LABEL) ∧
    (∀ w : Nat, w < 4 → d ∈ daterange (base + 7 * (w : Int)) 7 →
      vget (generate_4_week_schedule db base ws0).value emp.id d = TIME_OFF_LABEL ∧
      vget (sync_timeoff_to_assignments db (base + 7 * (w : Int))
        (generate_4_week_schedule db base ws0)).value emp.id d = TIME_OFF_LABEL) := by
  constructor
  · intro hd
    exact ⟨sync_forces db s ws emp hemp d hd hcov,
      sync_forces db s _ emp hemp d hd hcov⟩
  · intro w hw hd
    constructor
    · have hweek : vget (processWeek (mkCtx db) (base + 7 * (w : Int))
          (gen_weeks (mkCtx db) base w ws0)).value emp.id d = TIME_OFF_LABEL := by
        unfold processWeek
        exact sync_forces db (base + 7 * (w : Int)) _ emp hemp d hd hcov
      have hm2 := (mem_daterange.1 hd).2
      have hlt : d < base + 7 * ((w + 1 : Nat) : Int) := by omega
      have htr := gen_weeks_vget_lt (mkCtx db) base (w + 1) 4 hw ws0 emp.id d hlt
      unfold generate_4_week_schedule
      rw [htr]
      exact hweek
    · exact sync_forces db (base + 7 * (w : Int)) _ emp hemp d hd hcov

/-- Closed-form instantiation of `C6_leave_sync` on a concrete database. -/
theorem C6_leave_sync_witness :
    (mkEmp 1 "Walt" "Front Desk") ∈ dbW.employees ∧
    has_approved_timeoff "Walt" 2 dbW.timeoff = true ∧
    vget (sync_timeoff_to_assignments dbW 0 emptyW).value 1 2 = TIME_OFF_LABEL ∧
    vget (generate_4_week_schedule dbW 0 emptyW).value 1 2 = TIME_OFF_LABEL :=
  ⟨by decide, by decide,
   ((C6_leave_sync dbW 0 emptyW 0 emptyW (mkEmp 1 "Walt" "Front Desk") (by decide) 2
      (by decide)).1 (by decide)).1,
   ((C6_leave_sync dbW 0 emptyW 0 emptyW (mkEmp 1 "Walt" "Front Desk") (by decide) 2
      (by decide)).2 0 (by decide) (by decide)).1⟩

/-! ### Claim C4: the reservation shields reception-capable workers -/

theorem sync_vget_cases_top (db' : DB) (s' : Int) (ws : WState) (x : Nat) (d : Int) :
    vget (sync_timeoff_to_assignments db' s' ws).value x d = vget ws.value x d ∨
    vget (sync_timeoff_to_assignments db' s' ws).value x d = TIME_OFF_LABEL := by
  unfold sync_timeoff_to_assignments
  exact sync_emps_cases db' s' x d db'.employees ws

theorem mk_reserved_mem {σ : VMap} {fd_ids : List Nat} {d : Int} {e : Nat}
    (hmiss : fd_missing_on σ fd_ids d = true) (hcap : e ∈ fd_ids)
    (hset : vget σ e d = "Set") : e ∈ mk_reserved σ fd_ids d := by
  unfold mk_reserved
  rw [if_pos hmiss]
  refine List.mem_filter.2 ⟨hcap, ?_⟩
  rw [hset]
  rfl

theorem bb_collect_step_pool (ctx : GenCtx) (reserved : Int → List Nat) (d : Int)
    (shift : String) (acc : List Nat × WState) (x : Nat) :
    (bb_collect_step ctx reserved d shift acc x).1 = acc.1 ∨
    ((bb_collect_step ctx reserved d shift acc x).1 = acc.1 ++ [x] ∧
      ((reserved d).contains x) = false) := by
  unfold bb_collect_step
  dsimp only
  by_cases h1 : ((reserved d).contains x) = true
  · rw [if_pos h1]
    exact Or.inl rfl
  · rw [if_neg h1]
    have hcf : ((reserved d).contains x) = false := by simpa using h1
    repeat' split
    all_goals first
      | exact Or.inl rfl
      | exact Or.inr ⟨rfl, hcf⟩

theorem bb_collect_excludes (ctx : GenCtx) (reserved : Int → List Nat) (d : Int)
    (shift : String) (e : Nat) (hres : ((reserved d).contains e) = true) :
    ∀ (pool : List Nat) (acc : List Nat × WState), e ∉ acc.1 →
      e ∉ (pool.foldl (bb_collect_step ctx reserved d shift) acc).1 := by
  intro pool
  induction pool with
  | nil => intro acc h; exact h
  | cons x xs ih =>
      intro acc hacc
      rw [List.foldl_cons]
      refine ih _ ?_
      rcases bb_collect_step_pool ctx reserved d shift acc x with h | ⟨h, hcf⟩
      · rw [h]; exact hacc
      · rw [h]
        intro hmem
        rcases List.mem_append.1 hmem with hm | hm
        · exact hacc hm
        · have hex : e = x := by simpa using hm
          rw [← hex, hres] at hcf
          exact absurd hcf (by simp)

theorem sh_collect_step_pool (ctx : GenCtx) (reserved : Int → List Nat) (d : Int)
    (v : String) (acc : List Nat × WState) (x : Nat) :
    (sh_collect_step ctx reserved d v acc x).1 = acc.1 ∨
    ((sh_collect_step ctx reserved d v acc x).1 = acc.1 ++ [x] ∧
      ((reserved d).contains x) = false) := by
  unfold sh_collect_step
  dsimp only
  by_cases h1 : ((reserved d).contains x) = true
  · rw [if_pos h1]
    exact Or.inl rfl
  · rw [if_neg h1]
    have hcf : ((reserved d).contains x) = false := by simpa using h1
    repeat' split
    all_goals first
      | exact Or.inl rfl
      | exact Or.inr ⟨rfl, hcf⟩

theorem sh_collect_excludes (ctx : GenCtx) (reserved : Int → List Nat) (d : Int)
    (v : String) (e : Nat) (hres : ((reserved d).contains e) = true) :
    ∀ (pool : List Nat) (acc : List Nat × WState), e ∉ acc.1 →
      e ∉ (pool.foldl (sh_collect_step ctx reserved d v) acc).1 := by
  intro pool
  induction pool with
  | nil => intro acc h; exact h
  | cons x xs ih =>
      intro acc hacc
      rw [List.foldl_cons]
      refine ih _ ?_
      rcases sh_collect_step_pool ctx reserved d v acc x with h | ⟨h, hcf⟩
      · rw [h]; exact hacc
      · rw [h]
        intro hmem
        rcases List.mem_append.1 hmem with hm | hm
        · exact hacc hm
        · have hex : e = x := by simpa using hm
          rw [← hex, hres] at hcf
          exact absurd hcf (by simp)

theorem bb_process_shift_shielded (ctx : GenCtx) (reserved : Int → List Nat) (d : Int)
    (acc : List Nat × WState) (shift : String) (e : Nat)
    (hres : ((reserved d).contains e) = true) :
    vget (bb_process_shift ctx reserved d acc shift).2.value e d
      = vget acc.2.value e d := by
  unfold bb_process_shift
  dsimp only
  have hcv : (bb_collect ctx reserved acc.2 d shift acc.1).2.value = acc.2.value :=
    bb_collect_value ctx reserved acc.2 d shift acc.1
  split
  · exact congrFun (congrFun (congrArg vget hcv) e) d
  · rename_i p heq
    have hp : p ∈ (bb_collect ctx reserved acc.2 d shift acc.1).1 := (pick_best_mem heq).1
    have hne : e ≠ p := by
      intro hc
      subst hc
      exact bb_collect_excludes ctx reserved d shift e hres acc.1 ([], acc.2)
        (List.not_mem_nil e) hp
    rw [show vget ((apply_assignment (bb_collect ctx reserved acc.2 d shift acc.1).2 p d
        shift "Breakfast Bar" (_pref_token "Breakfast Bar" shift)).value) e d
        = vget (vset (bb_collect ctx reserved acc.2 d shift acc.1).2.value p d shift) e d
        from rfl, vget_vset_ne _ _ (fun hc => hne hc.1)]
    exact congrFun (congrFun (congrArg vget hcv) e) d

theorem sh_process_variant_shielded (ctx : GenCtx) (reserved : Int → List Nat) (d : Int)
    (acc : List Nat × WState) (v : String) (e : Nat)
    (hres : ((reserved d).contains e) = true) :
    vget (sh_process_variant ctx reserved d acc v).2.value e d
      = vget acc.2.value e d := by
  unfold sh_process_variant
  dsimp only
  have hcv : (sh_collect ctx reserved acc.2 d v acc.1).2.value = acc.2.value :=
    sh_collect_value ctx reserved acc.2 d v acc.1
  split
  · exact congrFun (congrFun (congrArg vget hcv) e) d
  · rename_i p heq
    have hp : p ∈ (sh_collect ctx reserved acc.2 d v acc.1).1 := (pick_best_mem heq).1
    have hne : e ≠ p := by
      intro hc
      subst hc
      exact sh_collect_excludes ctx reserved d v e hres acc.1 ([], acc.2)
        (List.not_mem_nil e) hp
    rw [show vget ((apply_assignment (sh_collect ctx reserved acc.2 d v acc.1).2 p d
        v "Shuttle" (_pref_token "Shuttle" v)).value) e d
        = vget (vset (sh_collect ctx reserved acc.2 d v acc.1).2.value p d v) e d
        from rfl, vget_vset_ne _ _ (fun hc => hne hc.1)]
    exact congrFun (congrFun (congrArg vget hcv) e) d

theorem bb_day_shielded (ctx : GenCtx) (reserved : Int → List Nat) (d : Int)
    (ws : WState) (e : Nat) (hres : ((reserved d).contains e) = true) :
    vget (bb_day ctx reserved d ws).value e d = vget ws.value e d := by
  unfold bb_day
  have hgen : ∀ (shifts : List String) (acc : List Nat × WState),
      vget ((shifts.foldl (bb_process_shift ctx reserved d) acc).2.value) e d
        = vget acc.2.value e d := by
    intro shifts
    induction shifts with
    | nil => intro acc; rfl
    | cons L tl ih =>
        intro acc
        rw [List.foldl_cons, ih, bb_process_shift_shielded ctx reserved d acc L e hres]
  exact hgen bb_shift_list (ctx.bb_emp_ids, ws)

theorem sh_day_shielded (ctx : GenCtx) (reserved : Int → List Nat) (d : Int)
    (ws : WState) (e : Nat) (hres : ((reserved d).contains e) = true) :
    vget (sh_day ctx reserved d ws).value e d = vget ws.value e d := by
  unfold sh_day
  have hgen : ∀ (vars : List String) (acc : List Nat × WState),
      vget ((vars.foldl (sh_process_variant ctx reserved d) acc).2.value) e d
        = vget acc.2.value e d := by
    intro vars
    induction vars with
    | nil => intro acc; rfl
    | cons v tl ih =>
        intro acc
        rw [List.foldl_cons, ih, sh_process_variant_shielded ctx reserved d acc v e hres]
  exact hgen sh_variant_list (ctx.sh_emp_ids, ws)

theorem bb_pass_shielded (ctx : GenCtx) (reserved : Int → List Nat) (s : Int)
    (e : Nat) (d : Int) (hres : ((reserved d).contains e) = true) :
    ∀ (n : Nat) (ws : WState),
      vget (bb_pass ctx reserved s n ws).value e d = vget ws.value e d := by
  intro n
  induction n with
  | zero => intro ws; rfl
  | succ n ih =>
      intro ws
      have hstep : bb_pass ctx reserved s (n + 1) ws
          = bb_day ctx reserved (s + (n : Int)) (bb_pass ctx reserved s n ws) := rfl
      rw [hstep]
      by_cases hdn : d = s + (n : Int)
      · rw [← hdn, bb_day_shielded ctx reserved d _ e hres, ih ws]
      · rw [bb_day_vget_ne ctx reserved _ _ e d hdn, ih ws]

theorem sh_pass_shielded (ctx : GenCtx) (reserved : Int → List Nat) (s : Int)
    (e : Nat) (d : Int) (hres : ((reserved d).contains e) = true) :
    ∀ (n : Nat) (ws : WState),
      vget (sh_pass ctx reserved s n ws).value e d = vget ws.value e d := by
  intro n
  induction n with
  | zero => intro ws; rfl
  | succ n ih =>
      intro ws
      have hstep : sh_pass ctx reserved s (n + 1) ws
          = sh_day ctx reserved (s + (n : Int)) (sh_pass ctx reserved s n ws) := rfl
      rw [hstep]
      by_cases hdn : d = s + (n : Int)
      · rw [← hdn, sh_day_shielded ctx reserved d _ e hres, ih ws]
      · rw [sh_day_vget_ne ctx reserved _ _ e d hdn, ih ws]

/-- C4: on a generated-week day whose reception coverage is short after the
reception pass, every reception-capable worker still on the placeholder that
day is reserved, is excluded from the food-bar and shuttle candidate pools for
that date, and ends the week's processing with no working assignment on that
date (the cell stays the placeholder unless the leave sync stamps it). -/
theorem C4_reservation_shield (ctx : GenCtx) (s : Int) (ws : WState) (e : Nat)
    (d : Int)
    (hmiss : fd_missing_on (week_after_fd ctx s ws).value ctx.fd_emp_ids d = true)
    (hcap : e ∈ ctx.fd_emp_ids)
    (hset : vget (week_after_fd ctx s ws).value e d = "Set") :
    e ∈ mk_reserved (week_after_fd ctx s ws).value ctx.fd_emp_ids d ∧
    (∀ (ws' : WState) (shift : String) (pool : List Nat),
      e ∉ (bb_collect ctx (mk_reserved (week_after_fd ctx s ws).value ctx.fd_emp_ids)
        ws' d shift pool).1) ∧
    (∀ (ws' : WState) (v : String) (pool : List Nat),
      e ∉ (sh_collect ctx (mk_reserved (week_after_fd ctx s ws).value ctx.fd_emp_ids)
        ws' d v pool).1) ∧
    (vget (processWeek ctx s ws).value e d = "Set" ∨
     vget (processWeek ctx s ws).value e d = TIME_OFF_LABEL) := by
  have hmem : e ∈ mk_reserved (week_after_fd ctx s ws).value ctx.fd_emp_ids d :=
    mk_reserved_mem hmiss hcap hset
  have hres : ((mk_reserved (week_after_fd ctx s ws).value ctx.fd_emp_ids d).contains e)
      = true := by simpa using hmem
  refine ⟨hmem, ?_, ?_, ?_⟩
  · intro ws' shift pool
    exact bb_collect_excludes ctx _ d shift e hres pool ([], ws') (List.not_mem_nil e)
  · intro ws' v pool
    exact sh_collect_excludes ctx _ d v e hres pool ([], ws') (List.not_mem_nil e)
  · unfold processWeek
    dsimp only
    rcases sync_vget_cases_top ctx.db s _ e d with h | h
    · rw [h, sh_pass_shielded ctx _ s e d hres 7 _, bb_pass_shielded ctx _ s e d hres 7 _]
      exact Or.inl hset
    · exact Or.inr h

/-- Closed-form instantiation of `C4_reservation_shield`: in `dbW`, worker 1 is
reception-capable, assigned only Monday, so Tuesday is short-staffed and the
worker is reserved and shielded that day. -/
theorem C4_reservation_shield_witness :
    fd_missing_on (week_after_fd (mkCtx dbW) 0 emptyW).value (mkCtx dbW).fd_emp_ids 1
      = true ∧
    1 ∈ (mkCtx dbW).fd_emp_ids ∧
    vget (week_after_fd (mkCtx dbW) 0 emptyW).value 1 1 = "Set" ∧
    1 ∈ mk_reserved (week_after_fd (mkCtx dbW) 0 emptyW).value (mkCtx dbW).fd_emp_ids 1 ∧
    1 ∉ (bb_collect (mkCtx dbW)
      (mk_reserved (week_after_fd (mkCtx dbW) 0 emptyW).value (mkCtx dbW).fd_emp_ids)
      emptyW 1 "5AM–12PM" [1]).1 ∧
    (vget (processWeek (mkCtx dbW) 0 emptyW).value 1 1 = "Set" ∨
     vget (processWeek (mkCtx dbW) 0 emptyW).value 1 1 = TIME_OFF_LABEL) := by
  have h := C4_reservation_shield (mkCtx dbW) 0 emptyW 1 1
    (by rfl) (by decide) (by rfl)
  exact ⟨by rfl, by decide, by rfl, h.1, h.2.1 emptyW "5AM–12PM" [1], h.2.2.2⟩
